import Mathlib

/-!
Verification development for the DAO knowledge-graph core: a shallow
embedding of the graph storage model, the graph builder
(`graph_builder.py`), and the query engine (`query_engine.py`), together
with proofs and refutations of the specified behavioural properties.

Strings are manipulated through their character lists (`String.data`),
which matches the source language's code-point based string semantics and
keeps every definition computable by the kernel.
-/

namespace DAO

/-! ## String helpers (code-point semantics) -/

/-- Lower-casing of a single character. The source language lower-cases the
full Unicode range; every string the system manufactures itself is ASCII,
and on ASCII this agrees with it. -/
def pyLowerChar (c : Char) : Char :=
  if 'A' ≤ c ∧ c ≤ 'Z' then Char.ofNat (c.toNat + 32) else c

/-- Lower-case a string (`str.lower()`). -/
def pyLower (s : String) : String := ⟨s.data.map pyLowerChar⟩

/-- Take the first `n` characters of a string (`s[:n]`). -/
def takeChars (n : Nat) (s : String) : String := ⟨s.data.take n⟩

/-- Characters after the last dot. This is
`table.split(".")[-1] if "." in table else table`: when a dot is present
the last component follows the final dot, and when none is present the
whole string is returned, which coincides with this definition. -/
def afterLastDot (s : String) : String :=
  ⟨((s.data.reverse).takeWhile (fun c => c ≠ '.')).reverse⟩

/-- Decimal digit character for a value below ten. -/
def digitChar (n : Nat) : Char := Char.ofNat (48 + n)

/-- Decimal digit scan: the fuel only bounds the recursion depth and
`natDigits` supplies one that is never exhausted, keeping the definition
structurally recursive so that the kernel can evaluate it. -/
def natDigitsAux : Nat → Nat → List Char
  | 0, n => [digitChar n]
  | fuel + 1, n =>
      if n < 10 then [digitChar n]
      else natDigitsAux fuel (n / 10) ++ [digitChar (n % 10)]

/-- Decimal digit list of a natural number, most significant first. -/
def natDigits (n : Nat) : List Char := natDigitsAux n n

/-- Decimal rendering of a natural number (`str(n)` for `n ≥ 0`). -/
def natStr (n : Nat) : String := ⟨natDigits n⟩

/-- Strict lexicographic comparison of character lists, mirroring the
source language's string comparison on code points. -/
def charsLt : List Char → List Char → Bool
  | [], [] => false
  | [], _ :: _ => true
  | _ :: _, [] => false
  | a :: as, b :: bs => if a = b then charsLt as bs else decide (a < b)

/-- Non-strict string comparison used for tuple ordering in the heap. -/
def strLe (a b : String) : Bool := !charsLt b.data a.data

/-! ## Association-list helpers (insertion-ordered dictionaries) -/

/-- Dictionary lookup: value of the first entry carrying the key. -/
def alookup {α : Type} : List (String × α) → String → Option α
  | [], _ => none
  | (k', v) :: rest, k => if k' = k then some v else alookup rest k

/-- Dictionary update: replace in place, or append a fresh entry. -/
def aupdate {α : Type} : List (String × α) → String → α → List (String × α)
  | [], k, v => [(k, v)]
  | (k', v') :: rest, k, v =>
      if k' = k then (k, v) :: rest else (k', v') :: aupdate rest k v

/-- Keys of an association list. -/
def akeys {α : Type} (l : List (String × α)) : List String := l.map Prod.fst

/-! ## Data model (`storage.py`)

Node and edge attribute maps are open dictionaries in the source; the
fields below are exactly the keys the system ever writes or reads, with
each absent key represented by its read default. -/

/-- Attribute map of an edge. `reverse` and `original_direction` are only
ever set on adjacency-index reverse entries; `dict.get` defaults are the
field defaults. -/
structure EdgeData where
  constraint_name : String := ""
  from_columns : List String := []
  to_columns : List String := []
  via : List String := []
  from_table : String := ""
  to_table : String := ""
  reverse : Bool := false
  original_direction : String := ""
deriving DecidableEq, Repr

/-- A directed, weighted edge of the knowledge graph. -/
structure Edge where
  id : String
  from_id : String
  to_id : String
  type : String
  weight : Int
  data : EdgeData
deriving DecidableEq, Repr

/-- Attribute map of a node (table attributes and column attributes share
one open map in the source). `row_count` and `size_mb` are opaque numeric
payload never computed with; `size_mb` is kept as an uninterpreted
integer-valued slot. -/
structure NodeData where
  schema : String := ""
  name : String := ""
  row_count : Option Int := none
  size_mb : Option Int := none
  primary_key : List String := []
  tags : List String := []
  table : String := ""
  sql_type : String := ""
  is_nullable : Bool := false
  is_pk : Bool := false
  is_fk : Bool := false
  ordinal_position : Int := 0
  max_length : Option Int := none
  precision : Option Int := none
  scale : Option Int := none
deriving DecidableEq, Repr

/-- A node of the knowledge graph. -/
structure Node where
  id : String
  type : String
  data : NodeData
deriving DecidableEq, Repr

/-- The persisted graph: nodes and edges keyed by unique ids plus a
key-value metadata table. Lists model row iteration order. -/
structure Store where
  nodes : List Node := []
  edges : List Edge := []
  meta : List (String × String) := []
deriving DecidableEq, Repr

/-! ## Storage operations -/

/-- Insert-or-replace a node by id (`INSERT OR REPLACE`). -/
def nodeReplace : List Node → Node → List Node
  | [], n => [n]
  | m :: rest, n => if m.id = n.id then n :: rest else m :: nodeReplace rest n

/-- Insert-or-replace an edge by id. -/
def edgeReplace : List Edge → Edge → List Edge
  | [], e => [e]
  | f :: rest, e => if f.id = e.id then e :: rest else f :: edgeReplace rest e

/-- Store a single node (`GraphStorage.add_node`). -/
def add_node (s : Store) (n : Node) : Store :=
  { s with nodes := nodeReplace s.nodes n }

/-- Store a batch of nodes (`GraphStorage.add_nodes`). -/
def add_nodes (s : Store) (ns : List Node) : Store := ns.foldl add_node s

/-- Store a single edge (`GraphStorage.add_edge`). -/
def add_edge (s : Store) (e : Edge) : Store :=
  { s with edges := edgeReplace s.edges e }

/-- Store a batch of edges (`GraphStorage.add_edges`). -/
def add_edges (s : Store) (es : List Edge) : Store := es.foldl add_edge s

/-- Exact-id node lookup (`GraphStorage.get_node`). -/
def get_node (s : Store) (node_id : String) : Option Node :=
  s.nodes.find? (fun n => n.id = node_id)

/-- All nodes of a type (`GraphStorage.get_nodes_by_type`). -/
def get_nodes_by_type (s : Store) (t : String) : List Node :=
  s.nodes.filter (fun n => n.type = t)

/-- All edges of a type (`GraphStorage.get_edges_by_type`). -/
def get_edges_by_type (s : Store) (t : String) : List Edge :=
  s.edges.filter (fun e => e.type = t)

/-- Erase all nodes, edges and metadata (`GraphStorage.clear`). -/
def clearStore (_s : Store) : Store := {}

/-- Store one metadata key (`GraphStorage.set_metadata`). -/
def set_metadata (s : Store) (k v : String) : Store :=
  { s with meta := aupdate s.meta k v }

/-! ## Metadata snapshot types (`extractor.py`) -/

/-- Table metadata row. -/
structure TableInfo where
  schema : String
  name : String
  row_count : Option Int := none
  size_mb : Option Int := none
deriving DecidableEq, Repr

/-- Fully qualified table name. -/
def TableInfo.full_name (t : TableInfo) : String := t.schema ++ "." ++ t.name

/-- Column metadata row. -/
structure ColumnInfo where
  table_schema : String
  table_name : String
  name : String
  sql_type : String := ""
  is_nullable : Bool := false
  ordinal_position : Int := 0
  max_length : Option Int := none
  precision : Option Int := none
  scale : Option Int := none
deriving DecidableEq, Repr

/-- Fully qualified name of the owning table. -/
def ColumnInfo.full_table_name (c : ColumnInfo) : String :=
  c.table_schema ++ "." ++ c.table_name

/-- Fully qualified column name. -/
def ColumnInfo.full_name (c : ColumnInfo) : String :=
  c.table_schema ++ "." ++ c.table_name ++ "." ++ c.name

/-- Primary-key constraint row. -/
structure PrimaryKeyInfo where
  table_schema : String
  table_name : String
  constraint_name : String := ""
  columns : List String := []
deriving DecidableEq, Repr

/-- Fully qualified table name of a primary key. -/
def PrimaryKeyInfo.full_table_name (pk : PrimaryKeyInfo) : String :=
  pk.table_schema ++ "." ++ pk.table_name

/-- Foreign-key constraint row. -/
structure ForeignKeyInfo where
  constraint_name : String
  from_schema : String
  from_table : String
  from_columns : List String
  to_schema : String
  to_table : String
  to_columns : List String
deriving DecidableEq, Repr

/-- Fully qualified referencing table. -/
def ForeignKeyInfo.from_full_name (fk : ForeignKeyInfo) : String :=
  fk.from_schema ++ "." ++ fk.from_table

/-- Fully qualified referenced table. -/
def ForeignKeyInfo.to_full_name (fk : ForeignKeyInfo) : String :=
  fk.to_schema ++ "." ++ fk.to_table

/-- The complete metadata snapshot handed to the builder. -/
structure RawMetadata where
  tables : List TableInfo
  columns : List ColumnInfo
  primary_keys : List PrimaryKeyInfo
  foreign_keys : List ForeignKeyInfo
  database_name : String := ""
  server_name : String := ""
deriving DecidableEq, Repr

/-! ## Graph builder (`graph_builder.py`) -/

/-- Weight of table-level foreign-key edges. -/
def WEIGHT_FK : Int := 1

/-- Weight of column-level foreign-key edges. -/
def WEIGHT_FK_COL : Int := 1

/-- Substring test on character lists. -/
def containsChars : List Char → List Char → Bool
  | l, sub =>
    match l with
    | [] => sub.isEmpty
    | _ :: rest => sub.isPrefixOf l || containsChars rest sub

/-- Substring containment `sub in s` of the source language. -/
def strContains (s sub : String) : Bool := containsChars s.data sub.data

/-- Suffix test `s.endswith(suffix)`. -/
def strEndsWith (s suffix : String) : Bool :=
  suffix.data.reverse.isPrefixOf s.data.reverse

/-- Does any of the keywords occur inside the lowered name. -/
def anyKeywordIn (name_lower : String) (words : List String) : Bool :=
  words.any (fun w => strContains name_lower w)

/-- Semantic tags inferred from a table's name
(`GraphBuilder._infer_table_tags`). -/
def infer_table_tags (table_name : String) : List String :=
  let name_lower := pyLower table_name
  let tags : List String := []
  let tags := if strEndsWith name_lower "s" || strEndsWith name_lower "es" then
    tags ++ ["collection"] else tags
  let tags := if anyKeywordIn name_lower
      ["user", "account", "person", "member", "employee"] then
    tags ++ ["actor"] else tags
  let tags := if anyKeywordIn name_lower
      ["order", "invoice", "payment", "transaction"] then
    tags ++ ["transaction"] else tags
  let tags := if anyKeywordIn name_lower
      ["product", "item", "article", "inventory"] then
    tags ++ ["inventory"] else tags
  let tags := if anyKeywordIn name_lower ["log", "audit", "history", "event"] then
    tags ++ ["audit"] else tags
  let tags := if anyKeywordIn name_lower
      ["config", "setting", "option", "preference"] then
    tags ++ ["config"] else tags
  let tags := if anyKeywordIn name_lower
      ["lookup", "type", "status", "category"] then
    tags ++ ["reference"] else tags
  tags

/-- Primary-key column lookup per table
(`GraphBuilder._build_pk_lookup`); sets are modelled as accumulated
lists, used for membership only. -/
def build_pk_lookup (primary_keys : List PrimaryKeyInfo) :
    List (String × List String) :=
  primary_keys.foldl
    (fun acc pk =>
      aupdate acc pk.full_table_name ((alookup acc pk.full_table_name).getD [] ++ pk.columns))
    []

/-- Membership of a column in its table's primary key
(`GraphBuilder._is_pk_column`). -/
def is_pk_column (pk_columns : List (String × List String))
    (table_name column_name : String) : Bool :=
  column_name ∈ (alookup pk_columns table_name).getD []

/-- Table nodes from table metadata (`GraphBuilder._create_table_nodes`);
the local `pk_lookup` dictionary keeps the last primary key listed for a
table. -/
def create_table_nodes (tables : List TableInfo)
    (primary_keys : List PrimaryKeyInfo) : List Node :=
  let pk_lookup := primary_keys.foldl
    (fun acc pk => aupdate acc pk.full_table_name pk.columns) []
  tables.map (fun table =>
    { id := table.full_name
      type := "table"
      data := { schema := table.schema
                name := table.name
                row_count := table.row_count
                size_mb := table.size_mb
                primary_key := (alookup pk_lookup table.full_name).getD []
                tags := infer_table_tags table.name } })

/-- Column nodes from column metadata
(`GraphBuilder._create_column_nodes`). -/
def create_column_nodes (pk_columns : List (String × List String))
    (columns : List ColumnInfo) : List Node :=
  columns.map (fun column =>
    { id := column.full_name
      type := "column"
      data := { table := column.full_table_name
                name := column.name
                sql_type := column.sql_type
                is_nullable := column.is_nullable
                is_pk := is_pk_column pk_columns column.full_table_name column.name
                is_fk := false
                ordinal_position := column.ordinal_position
                max_length := column.max_length
                precision := column.precision
                scale := column.scale } })

/-- The alternating from/to column id list stored on a table-level edge. -/
def fkVia (fk : ForeignKeyInfo) : List String :=
  (List.zip fk.from_columns fk.to_columns).foldl
    (fun acc p =>
      acc ++ [fk.from_full_name ++ "." ++ p.1, fk.to_full_name ++ "." ++ p.2])
    []

/-- The table-level edge built for one foreign-key constraint. -/
def mkFkEdge (fk : ForeignKeyInfo) : Edge :=
  { id := "fk:" ++ fk.constraint_name
    from_id := fk.from_full_name
    to_id := fk.to_full_name
    type := "fk"
    weight := WEIGHT_FK
    data := { constraint_name := fk.constraint_name
              from_columns := fk.from_columns
              to_columns := fk.to_columns
              via := fkVia fk } }

/-- Ordered table pair of a foreign key. -/
def fkPair (fk : ForeignKeyInfo) : String × String :=
  (fk.from_full_name, fk.to_full_name)

/-- Table-level foreign-key edges with duplicate-pair suppression
(`GraphBuilder._create_fk_edges`); `seen` carries the pairs already
emitted. -/
def create_fk_edges_aux : List ForeignKeyInfo → List (String × String) →
    List Edge
  | [], _ => []
  | fk :: rest, seen =>
      if fkPair fk ∈ seen then create_fk_edges_aux rest seen
      else mkFkEdge fk :: create_fk_edges_aux rest (fkPair fk :: seen)

/-- Table-level foreign-key edges (`GraphBuilder._create_fk_edges`). -/
def create_fk_edges (foreign_keys : List ForeignKeyInfo) : List Edge :=
  create_fk_edges_aux foreign_keys []

/-- Mark a stored column node as a foreign key
(`GraphBuilder._mark_column_as_fk`); a miss leaves the store unchanged. -/
def mark_column_as_fk (store : Store) (column_id : String) : Store :=
  match get_node store column_id with
  | none => store
  | some n => add_node store { n with data := { n.data with is_fk := true } }

/-- The column-level edge for the `i`-th column pair of a constraint. -/
def mkFkColEdge (fk : ForeignKeyInfo) (i : Nat) (from_col to_col : String) :
    Edge :=
  { id := "fk_col:" ++ fk.constraint_name ++ ":" ++ natStr i
    from_id := fk.from_full_name ++ "." ++ from_col
    to_id := fk.to_full_name ++ "." ++ to_col
    type := "fk_col"
    weight := WEIGHT_FK_COL
    data := { constraint_name := fk.constraint_name
              from_table := fk.from_full_name
              to_table := fk.to_full_name } }

/-- One enumerated column pair of a constraint: emit its edge and mark
its source column. -/
def fkColStep (fk : ForeignKeyInfo) (acc : List Edge × Store)
    (p : Nat × (String × String)) : List Edge × Store :=
  (acc.1 ++ [mkFkColEdge fk p.1 p.2.1 p.2.2],
   mark_column_as_fk acc.2 (fk.from_full_name ++ "." ++ p.2.1))

/-- Column pair edges of a single constraint, with the store threaded
through the source-column marking side effect. -/
def fk_col_edges_of (fk : ForeignKeyInfo) (store : Store) :
    List Edge × Store :=
  (List.zip fk.from_columns fk.to_columns).enum.foldl (fkColStep fk)
    ([], store)

/-- Accumulate one constraint's column edges and store markings. -/
def fkColConstraintStep (acc : List Edge × Store) (fk : ForeignKeyInfo) :
    List Edge × Store :=
  (acc.1 ++ (fk_col_edges_of fk acc.2).1, (fk_col_edges_of fk acc.2).2)

/-- Column-level foreign-key edges
(`GraphBuilder._create_fk_column_edges`), together with the store state
after all source-column markings. -/
def create_fk_column_edges (foreign_keys : List ForeignKeyInfo)
    (store : Store) : List Edge × Store :=
  foreign_keys.foldl fkColConstraintStep ([], store)

/-- Statistics returned by a build. -/
structure BuildStats where
  tables : Nat
  columns : Nat
  foreign_keys : Nat
  column_relationships : Nat
  database : String
  server : String
deriving DecidableEq, Repr

/-- Build the knowledge graph from a metadata snapshot
(`GraphBuilder.build`). `now` stands for the wall-clock timestamp string
read during the run. The node and edge batches are created (and the
foreign-key source columns marked) before any batch is stored, exactly as
in the source. -/
def build (metadata : RawMetadata) (clear_existing : Bool) (now : String)
    (store : Store) : Store × BuildStats :=
  let store := if clear_existing then clearStore store else store
  let pk_columns := build_pk_lookup metadata.primary_keys
  let table_nodes := create_table_nodes metadata.tables metadata.primary_keys
  let column_nodes := create_column_nodes pk_columns metadata.columns
  let fk_edges := create_fk_edges metadata.foreign_keys
  let r := create_fk_column_edges metadata.foreign_keys store
  let fk_col_edges := r.1
  let store := r.2
  let store := add_nodes store table_nodes
  let store := add_nodes store column_nodes
  let store := add_edges store fk_edges
  let store := add_edges store fk_col_edges
  let store := set_metadata store "database_name" metadata.database_name
  let store := set_metadata store "server_name" metadata.server_name
  let store := set_metadata store "scan_timestamp" now
  let store := set_metadata store "version" "1.0"
  (store,
   { tables := table_nodes.length
     columns := column_nodes.length
     foreign_keys := fk_edges.length
     column_relationships := fk_col_edges.length
     database := metadata.database_name
     server := metadata.server_name })

/-! ## Query engine state (`query_engine.py`)

The engine's adjacency index maps a node id to its outgoing traversal
entries. The engine is modelled by functions taking the store and
rebuilding the index, which is exactly a freshly constructed (or
refreshed) engine over that store. -/

/-- The in-memory adjacency index. -/
abbrev Adj := List (String × List (String × Edge))

/-- Entries reachable from a node (`self._adjacency.get(current, [])`). -/
def adjGet (adj : Adj) (k : String) : List (String × Edge) :=
  (alookup adj k).getD []

/-- Append one traversal entry under a key, creating the key's list on
first use. -/
def adjAppend (adj : Adj) (k : String) (v : String × Edge) : Adj :=
  aupdate adj k (adjGet adj k ++ [v])

/-- The synthesized reverse-traversal edge for a foreign-key edge. -/
def reverseEdge (e : Edge) : Edge :=
  { id := "rev:" ++ e.id
    from_id := e.to_id
    to_id := e.from_id
    type := e.type
    weight := e.weight
    data := { e.data with reverse := true, original_direction := "from" } }

/-- Build the adjacency index from the store's table-level foreign-key
edges (`QueryEngine._build_adjacency`): one forward and one reverse entry
per `fk` edge. -/
def build_adjacency (store : Store) : Adj :=
  (get_edges_by_type store "fk").foldl
    (fun adj e =>
      adjAppend (adjAppend adj e.from_id (e.to_id, e)) e.to_id
        (e.from_id, reverseEdge e))
    []

/-! ## Dijkstra working state -/

/-- Heap entry order: lexicographic on (distance, node id), as the source
language orders the pushed tuples. -/
def heapLe (a b : Int × String) : Bool :=
  decide (a.1 < b.1) || (decide (a.1 = b.1) && strLe a.2 b.2)

/-- Push onto the priority structure, modelled as an ordered list whose
head is always a minimal entry — observationally the binary heap of the
source. -/
def hpush : List (Int × String) → Int × String → List (Int × String)
  | [], x => [x]
  | y :: rest, x => if heapLe x y then x :: y :: rest else y :: hpush rest x

/-- Mutable state of one shortest-path search. -/
structure DState where
  dist : List (String × Int)
  prev : List (String × (String × Edge))
  heap : List (Int × String)
  visited : List String
deriving DecidableEq, Repr

/-- Relaxation of a single adjacency entry from `current`, whose popped
distance is `cd`. -/
def relaxStep (cd : Int) (current : String) (s : DState)
    (ne : String × Edge) : DState :=
  if ne.1 ∈ s.visited then s
  else
    let nd := cd + ne.2.weight
    let better := match alookup s.dist ne.1 with
      | none => true
      | some d => decide (nd < d)
    if better then
      { s with dist := aupdate s.dist ne.1 nd
               prev := aupdate s.prev ne.1 (current, ne.2)
               heap := hpush s.heap (nd, ne.1) }
    else s

/-- Relax every neighbour of the node just expanded. -/
def relaxAll (adj : Adj) (cd : Int) (current : String) (st : DState) :
    DState :=
  (adjGet adj current).foldl (relaxStep cd current) st

/-- Node ids with no settled visit yet, among the adjacency keys; the
termination measure of the search loop. -/
def unvisCount (adj : Adj) (visited : List String) : Nat :=
  ((akeys adj).filter (fun k => decide (k ∉ visited))).length

theorem length_filter_mono {p q : String → Bool}
    (h : ∀ a, p a = true → q a = true) (l : List String) :
    (l.filter p).length ≤ (l.filter q).length := by
  induction l with
  | nil => simp
  | cons a t ih =>
      by_cases hp : p a = true
      · simp [List.filter, hp, h a hp]; omega
      · simp only [List.filter, Bool.not_eq_true] at hp ⊢
        rw [hp]
        cases hq : q a <;> simp <;> omega

theorem length_filter_not_mem_append_lt {l v : List String} {c : String}
    (hm : c ∈ l) (hv : c ∉ v) :
    (l.filter (fun k => decide (k ∉ v ++ [c]))).length <
      (l.filter (fun k => decide (k ∉ v))).length := by
  induction l with
  | nil => cases hm
  | cons a t ih =>
      by_cases hac : a = c
      · subst hac
        have h1 : (decide (a ∉ v ++ [a])) = false := by simp
        have h2 : (decide (a ∉ v)) = true := by simpa using hv
        simp only [List.filter, h1, h2]
        have := length_filter_mono
          (p := fun k => decide (k ∉ v ++ [a])) (q := fun k => decide (k ∉ v))
          (fun x hx => by
            simp only [decide_eq_true_eq] at hx ⊢
            intro hxv; exact hx (by simp [hxv])) t
        simp only [List.length_cons]
        omega
      · have hmt : c ∈ t := by
          rcases hm with _ | h
          · exact absurd rfl hac
          · assumption
        have heq : (decide (a ∉ v ++ [c])) = (decide (a ∉ v)) := by
          by_cases hav : a ∈ v
          · simp [hav]
          · simp [hav, List.mem_append, hac]
        simp only [List.filter, heq]
        cases hq : (decide (a ∉ v)) <;> simp only []
        · exact ih hmt
        · simp only [List.length_cons]
          exact Nat.succ_lt_succ (ih hmt)

theorem unvisCount_append_lt {adj : Adj} {v : List String} {c : String}
    (hm : c ∈ akeys adj) (hv : c ∉ v) :
    unvisCount adj (v ++ [c]) < unvisCount adj v :=
  length_filter_not_mem_append_lt hm hv

theorem unvisCount_append_le (adj : Adj) (v : List String) (c : String) :
    unvisCount adj (v ++ [c]) ≤ unvisCount adj v := by
  refine length_filter_mono (fun a ha => ?_) _
  simp only [decide_eq_true_eq, List.mem_append] at ha ⊢
  intro h; exact ha (Or.inl h)

theorem alookup_eq_none_of_not_mem {α : Type} {l : List (String × α)}
    {k : String} (h : k ∉ l.map Prod.fst) : alookup l k = none := by
  induction l with
  | nil => rfl
  | cons a t ih =>
      obtain ⟨k', v⟩ := a
      simp only [List.map, List.mem_cons] at h
      push_neg at h
      simp only [alookup]
      rw [if_neg (fun he => h.1 he.symm)]
      exact ih h.2

theorem adjGet_eq_nil_of_not_mem {adj : Adj} {c : String}
    (h : c ∉ akeys adj) : adjGet adj c = [] := by
  unfold adjGet
  rw [alookup_eq_none_of_not_mem h]
  rfl

theorem unvisCount_append_eq {adj : Adj} {v : List String} {c : String}
    (hm : c ∉ akeys adj) :
    unvisCount adj (v ++ [c]) = unvisCount adj v := by
  unfold unvisCount
  congr 1
  apply List.filter_congr
  intro x hx
  have hxc : x ≠ c := fun h => hm (h ▸ hx)
  by_cases hxv : x ∈ v
  · simp [hxv]
  · simp [hxv, List.mem_append, hxc]

theorem relaxStep_visited (cd : Int) (current : String) (s : DState)
    (ne : String × Edge) : (relaxStep cd current s ne).visited = s.visited := by
  unfold relaxStep
  split
  · rfl
  · dsimp only
    split <;> rfl

theorem foldl_relaxStep_visited (cd : Int) (current : String)
    (l : List (String × Edge)) (s : DState) :
    (l.foldl (relaxStep cd current) s).visited = s.visited := by
  induction l generalizing s with
  | nil => rfl
  | cons a t ih => rw [List.foldl_cons, ih, relaxStep_visited]

theorem relaxAll_visited (adj : Adj) (cd : Int) (current : String)
    (st : DState) : (relaxAll adj cd current st).visited = st.visited :=
  foldl_relaxStep_visited cd current _ st

/-- The main search loop (`while heap:` in `QueryEngine.find_path`): pop
the minimal entry, skip it if settled, settle it, stop on the target, and
otherwise relax its neighbours. -/
def dijkstraLoop (adj : Adj) (to_table : String) (st : DState) : DState :=
  match hh : st.heap with
  | [] => st
  | (d, current) :: rest =>
      if current ∈ st.visited then
        dijkstraLoop adj to_table { st with heap := rest }
      else
        let st' := { st with heap := rest, visited := st.visited ++ [current] }
        if current = to_table then st'
        else dijkstraLoop adj to_table (relaxAll adj d current st')
  termination_by (unvisCount adj st.visited, st.heap.length)
  decreasing_by
  · apply Prod.Lex.right
    simp [hh]
  · have hv : (relaxAll adj d current
        { st with heap := rest, visited := st.visited ++ [current] }).visited =
        st.visited ++ [current] := by
      rw [relaxAll_visited]
    by_cases hmem : current ∈ akeys adj
    · rw [hv]
      exact Prod.Lex.left _ _ (unvisCount_append_lt hmem (by assumption))
    · have hfix : relaxAll adj d current
          { st with heap := rest, visited := st.visited ++ [current] } =
          { st with heap := rest, visited := st.visited ++ [current] } := by
        unfold relaxAll
        rw [adjGet_eq_nil_of_not_mem hmem]
        rfl
      rw [hfix]
      show Prod.Lex _ _ (unvisCount adj (st.visited ++ [current]), rest.length)
        (unvisCount adj st.visited, st.heap.length)
      rw [unvisCount_append_eq hmem]
      apply Prod.Lex.right
      simp [hh]

/-- Largest adjacency list length, used to bound the search loop's
iteration count. -/
def maxAdjLen (adj : Adj) : Nat :=
  (adj.map (fun p => p.2.length)).foldr max 0

/-- Combined loop measure: settling a node costs more fuel than the heap
entries it can add. -/
def loopMeasure (adj : Adj) (st : DState) : Nat :=
  unvisCount adj st.visited * (maxAdjLen adj + 1) + st.heap.length

/-- Fuel provably larger than the measure of any run started on a
one-entry heap. -/
def dijkstraFuel (adj : Adj) : Nat :=
  (akeys adj).length * (maxAdjLen adj + 1) + 2

/-- Fuel-indexed unrolling of the search loop. `dijkstraLoopF_eq_loop`
shows the fuel is irrelevant above the loop measure, so with the fuel
supplied by `dijkstraFuel` this is the loop itself in a form the kernel
can evaluate. -/
def dijkstraLoopF (adj : Adj) (to_table : String) :
    Nat → DState → DState
  | 0, st => st
  | fuel + 1, st =>
      match st.heap with
      | [] => st
      | (d, current) :: rest =>
          if current ∈ st.visited then
            dijkstraLoopF adj to_table fuel { st with heap := rest }
          else
            let st' := { st with heap := rest
                                 visited := st.visited ++ [current] }
            if current = to_table then st'
            else dijkstraLoopF adj to_table fuel (relaxAll adj d current st')

/-- Search state at the start of a shortest-path run from `f`. -/
def initState (f : String) : DState :=
  { dist := [(f, 0)], prev := [], heap := [(0, f)], visited := [] }

theorem hpush_length (h : List (Int × String)) (x : Int × String) :
    (hpush h x).length = h.length + 1 := by
  induction h with
  | nil => rfl
  | cons y t ih =>
      unfold hpush
      split
      · simp
      · simp [ih]

theorem relaxStep_heap_le (cd : Int) (c : String) (s : DState)
    (ne : String × Edge) :
    (relaxStep cd c s ne).heap.length ≤ s.heap.length + 1 := by
  unfold relaxStep
  split
  · omega
  · dsimp only
    split
    · simp [hpush_length]
    · omega

theorem foldl_relaxStep_heap_le (cd : Int) (c : String)
    (l : List (String × Edge)) (s : DState) :
    (l.foldl (relaxStep cd c) s).heap.length ≤ s.heap.length + l.length := by
  induction l generalizing s with
  | nil => simp
  | cons a t ih =>
      rw [List.foldl_cons]
      calc ((t.foldl (relaxStep cd c) (relaxStep cd c s a)).heap.length)
          ≤ (relaxStep cd c s a).heap.length + t.length := ih _
        _ ≤ s.heap.length + 1 + t.length := by
            have := relaxStep_heap_le cd c s a
            omega
        _ = s.heap.length + (a :: t).length := by simp; omega

theorem alookup_mem {α : Type} {l : List (String × α)} {k : String}
    {v : α} (h : alookup l k = some v) : (k, v) ∈ l := by
  induction l with
  | nil => simp [alookup] at h
  | cons a t ih =>
      obtain ⟨k', v'⟩ := a
      by_cases hk : k' = k
      · subst hk
        have hv : v' = v := by simpa [alookup] using h
        subst hv
        exact List.mem_cons_self _ _
      · simp only [alookup, if_neg hk] at h
        exact List.mem_cons_of_mem _ (ih h)

theorem le_foldr_max {l : List Nat} {x : Nat} (h : x ∈ l) :
    x ≤ l.foldr max 0 := by
  induction l with
  | nil => cases h
  | cons a t ih =>
      cases h with
      | head => exact Nat.le_max_left _ _
      | tail _ h => exact le_trans (ih h) (Nat.le_max_right _ _)

theorem adjGet_length_le (adj : Adj) (c : String) :
    (adjGet adj c).length ≤ maxAdjLen adj := by
  unfold adjGet
  cases h : alookup adj c with
  | none => simp
  | some l =>
      have hm : (c, l) ∈ adj := alookup_mem h
      have : l.length ∈ adj.map (fun p => p.2.length) :=
        List.mem_map.mpr ⟨(c, l), hm, rfl⟩
      simpa [maxAdjLen] using le_foldr_max this

theorem unvisCount_le_length (adj : Adj) (v : List String) :
    unvisCount adj v ≤ (akeys adj).length :=
  le_trans (List.length_filter_le _ _) (le_refl _)

theorem loopMeasure_skip_lt (adj : Adj) {st : DState} {d : Int}
    {current : String} {rest : List (Int × String)}
    (hh : st.heap = (d, current) :: rest) :
    loopMeasure adj { st with heap := rest } < loopMeasure adj st := by
  unfold loopMeasure
  simp [hh]

theorem loopMeasure_expand_lt (adj : Adj) {st : DState} {d : Int}
    {current : String} {rest : List (Int × String)}
    (hh : st.heap = (d, current) :: rest)
    (hnv : current ∉ st.visited) :
    loopMeasure adj
      (relaxAll adj d current
        { st with heap := rest, visited := st.visited ++ [current] }) <
      loopMeasure adj st := by
  set st' : DState :=
    { st with heap := rest, visited := st.visited ++ [current] } with hst'
  have hvis : (relaxAll adj d current st').visited = st.visited ++ [current] := by
    rw [relaxAll_visited]
  have hheap : (relaxAll adj d current st').heap.length ≤
      rest.length + (adjGet adj current).length := by
    have := foldl_relaxStep_heap_le d current (adjGet adj current) st'
    simpa [relaxAll] using this
  by_cases hmem : current ∈ akeys adj
  · have ha : unvisCount adj (st.visited ++ [current]) < unvisCount adj st.visited :=
      unvisCount_append_lt hmem hnv
    have hadj : (adjGet adj current).length ≤ maxAdjLen adj :=
      adjGet_length_le adj current
    unfold loopMeasure
    rw [hvis, hh]
    set K := maxAdjLen adj + 1 with hK
    set a := unvisCount adj st.visited with hau
    set a' := unvisCount adj (st.visited ++ [current]) with ha'
    have hmul : a' * K + K ≤ a * K := by
      have : (a' + 1) * K ≤ a * K := Nat.mul_le_mul_right K (by omega)
      calc a' * K + K = (a' + 1) * K := by ring
        _ ≤ a * K := this
    simp only [List.length_cons]
    omega
  · have hfix : relaxAll adj d current st' = st' := by
      unfold relaxAll
      rw [adjGet_eq_nil_of_not_mem hmem]
      rfl
    rw [hfix]
    unfold loopMeasure
    rw [hst']
    dsimp only
    rw [unvisCount_append_eq hmem, hh]
    simp

theorem dijkstraLoopF_eq_loop (adj : Adj) (t : String) :
    ∀ fuel st, loopMeasure adj st < fuel →
      dijkstraLoopF adj t fuel st = dijkstraLoop adj t st := by
  intro fuel
  induction fuel with
  | zero => intro st h; omega
  | succ f ih =>
      intro st h
      rw [dijkstraLoop]
      cases hh : st.heap with
      | nil => simp [dijkstraLoopF, hh]
      | cons e rest =>
          obtain ⟨d, current⟩ := e
          simp only [dijkstraLoopF, hh]
          by_cases hv : current ∈ st.visited
          · simp only [if_pos hv]
            apply ih
            have := loopMeasure_skip_lt adj hh
            omega
          · simp only [if_neg hv]
            by_cases ht : current = t
            · simp [ht]
            · simp only [if_neg ht]
              apply ih
              have := loopMeasure_expand_lt adj hh hv
              omega

theorem dijkstraFuel_sufficient (adj : Adj) (f : String) :
    loopMeasure adj (initState f) < dijkstraFuel adj := by
  unfold loopMeasure dijkstraFuel initState
  have h1 : unvisCount adj [] ≤ (akeys adj).length := unvisCount_le_length adj []
  have h2 : unvisCount adj [] * (maxAdjLen adj + 1) ≤
      (akeys adj).length * (maxAdjLen adj + 1) :=
    Nat.mul_le_mul_right _ h1
  simp only [List.length_cons, List.length_nil]
  omega

/-- The fuel handed to the loop by `find_path_core` is never exhausted:
on its actual argument the fuel-indexed loop coincides with the loop. -/
theorem find_path_core_loop_eq (adj : Adj) (f t : String) :
    dijkstraLoopF adj t (dijkstraFuel adj) (initState f) =
      dijkstraLoop adj t (initState f) :=
  dijkstraLoopF_eq_loop adj t _ _ (dijkstraFuel_sufficient adj f)

/-! ## Path results and reconstruction -/

/-- Result of a path-finding operation. -/
structure PathResult where
  found : Bool
  path : List String
  edges : List Edge
  total_weight : Int
  explanation : String
deriving DecidableEq, Repr

/-- Constraint label with the read default used by the explainer; an
absent attribute key is represented by the empty string. -/
def constraintLabel (e : Edge) : String :=
  if e.data.constraint_name = "" then "relationship" else e.data.constraint_name

/-- Join a list of strings with a separator (`sep.join(parts)`). -/
def joinSep (sep : String) : List String → String
  | [] => ""
  | [x] => x
  | x :: y :: rest => x ++ sep ++ joinSep sep (y :: rest)

/-- Human-readable path explanation (`QueryEngine._explain_path`). -/
def explain_path (path : List String) (edges : List Edge) : String :=
  match path with
  | [] => "Empty path."
  | [t] => "Single table: " ++ t
  | t :: restPath =>
      joinSep "\n" (("Path: " ++ t) ::
        (List.zip edges restPath).map (fun p =>
          "  " ++ (if p.1.data.reverse then "←" else "→") ++ " " ++ p.2 ++
            " (via " ++ constraintLabel p.1 ++ ")"))

/-- Walk the predecessor map from the target back towards the source,
collecting visited nodes and traversed edges (the
`while current in previous` reconstruction). The fuel bounds the walk;
every state the loop produces is shown to finish within it. -/
def reconstruct (prev : List (String × (String × Edge))) :
    Nat → String → List String × List Edge
  | 0, _ => ([], [])
  | fuel + 1, current =>
      match alookup prev current with
      | none => ([], [])
      | some pe =>
          let r := reconstruct prev fuel pe.1
          (current :: r.1, pe.2 :: r.2)

/-- The Dijkstra phase of `QueryEngine.find_path`, entered once both
names resolved to distinct ids. -/
def find_path_core (adj : Adj) (f t : String) : PathResult :=
  let st := dijkstraLoopF adj t (dijkstraFuel adj) (initState f)
  match alookup st.prev t with
  | none =>
      { found := false, path := [], edges := [], total_weight := 0
        explanation := "No path found between " ++ f ++ " and " ++ t ++ "." }
  | some _ =>
      let r := reconstruct st.prev st.prev.length t
      { found := true
        path := (r.1 ++ [f]).reverse
        edges := r.2.reverse
        total_weight := (alookup st.dist t).getD 0
        explanation := explain_path ((r.1 ++ [f]).reverse) (r.2.reverse) }

/-! ## Name resolution -/

/-- Case-insensitive short-name search over the table nodes, in store
iteration order. -/
def resolve_short (store : Store) (table_name : String) : Option String :=
  ((get_nodes_by_type store "table").find?
    (fun t => pyLower t.data.name = pyLower table_name)).map (fun t => t.id)

/-- Resolve a table name to a node id
(`QueryEngine._resolve_table_name`): exact id match of a table node
first, then the first case-insensitive short-name match. -/
def resolve_table_name (store : Store) (table_name : String) : Option String :=
  match get_node store table_name with
  | some n => if n.type = "table" then some table_name
              else resolve_short store table_name
  | none => resolve_short store table_name

/-- Truthiness of an optional string in the source language: absent or
empty strings are falsy (`if not from_table`). -/
def pyFalsy : Option String → Bool
  | none => true
  | some s => s = ""

/-! ## find_path and find_multi_path -/

/-- Shortest path between two named tables (`QueryEngine.find_path`). -/
def find_path (store : Store) (from_table to_table : String) : PathResult :=
  let fromR := resolve_table_name store from_table
  let toR := resolve_table_name store to_table
  if pyFalsy fromR || pyFalsy toR then
    { found := false, path := [], edges := [], total_weight := 0
      explanation := "One or both tables not found in the graph." }
  else
    let f := fromR.getD ""
    let t := toR.getD ""
    if f = t then
      { found := true, path := [f], edges := [], total_weight := 0
        explanation := "Same table specified for source and target." }
    else
      find_path_core (build_adjacency store) f t

/-- Greedy concatenation of consecutive segment searches
(the loop body of `QueryEngine.find_multi_path`). -/
def find_multi_path_go (store : Store) (cur : String) (rest : List String)
    (full_path : List String) (full_edges : List Edge) (total : Int) :
    PathResult :=
  match rest with
  | [] =>
      { found := true, path := full_path, edges := full_edges
        total_weight := total
        explanation := explain_path full_path full_edges }
  | nxt :: rest' =>
      let r := find_path store cur nxt
      if r.found then
        find_multi_path_go store nxt rest' (full_path ++ r.path.tail)
          (full_edges ++ r.edges) (total + r.total_weight)
      else
        { found := false, path := full_path, edges := full_edges
          total_weight := total
          explanation := "No path found between " ++ cur ++ " and " ++ nxt ++ "." }

/-- Path connecting several named tables in input order
(`QueryEngine.find_multi_path`). -/
def find_multi_path (store : Store) (tables : List String) : PathResult :=
  if tables.length < 2 then
    { found := false, path := tables, edges := [], total_weight := 0
      explanation := "Need at least two tables to find a path." }
  else
    let resolved := tables.map (resolve_table_name store)
    if resolved.any pyFalsy then
      { found := false, path := [], edges := [], total_weight := 0
        explanation := "Tables not found: " ++
          joinSep ", "
            (((List.zip tables resolved).filter (fun p => pyFalsy p.2)).map
              (fun p => p.1)) }
    else
      match resolved.map (fun r => r.getD "") with
      | [] =>
          { found := true, path := [], edges := [], total_weight := 0
            explanation := explain_path [] [] }
      | r0 :: rs => find_multi_path_go store r0 rs [r0] [] 0

/-! ## Alias generation -/

/-- First letter of the short name, lower-cased. The source raises an
index error for an empty short name; that unreachable case is modelled by
the empty prefix. -/
def aliasBase (name : String) : String :=
  match name.data with
  | [] => ""
  | c :: _ => ⟨[pyLowerChar c]⟩

/-- The `counter`-th alias candidate: a lengthening lower-cased prefix of
the short name while it lasts, then the first letter with a numeric
suffix. -/
def aliasCand (name base : String) (counter : Nat) : String :=
  if counter ≤ name.data.length then pyLower (takeChars counter name)
  else base ++ natStr (counter - name.data.length)

/-- Candidate scan of the collision loop; the fuel is large enough that
a fresh candidate is always reached before it runs out. -/
def pickAliasAux (name base : String) (used : List String) :
    Nat → Nat → String
  | 0, counter => aliasCand name base counter
  | fuel + 1, counter =>
      let a := aliasCand name base counter
      if a ∈ used then pickAliasAux name base used fuel (counter + 1) else a

/-- First alias candidate not already used. -/
def pickAlias (name : String) (used : List String) : String :=
  pickAliasAux name (aliasBase name) used (name.data.length + used.length + 2) 1

/-- Fold of `QueryEngine._generate_aliases` over the table list, carrying
the alias dictionary and the used set. -/
def generate_aliases_go : List String → List (String × String) →
    List String → List (String × String)
  | [], aliases, _ => aliases
  | table :: rest, aliases, used =>
      let a := pickAlias (afterLastDot table) used
      generate_aliases_go rest (aupdate aliases table a) (used ++ [a])

/-- Short, collision-free aliases for the tables of one join
(`QueryEngine._generate_aliases`). -/
def generate_aliases (tables : List String) : List (String × String) :=
  generate_aliases_go tables [] []

/-- Alias of a table in a generated mapping (`aliases[t]`; every table of
the path is present in the mapping wherever this is used). -/
def aliasOf (aliases : List (String × String)) (t : String) : String :=
  (alookup aliases t).getD ""

/-! ## Join generation -/

/-- Structured description of one generated JOIN clause. -/
structure JoinInfo where
  from_table : String
  from_alias : String
  to_table : String
  to_alias : String
  on_conditions : List String
  constraint : String
deriving DecidableEq, Repr

/-- Result of a join generation operation. -/
structure JoinResult where
  success : Bool
  sql : String
  tables : List String
  joins : List JoinInfo
  explanation : String
deriving DecidableEq, Repr

/-- Column pairs read from an edge for ON-condition construction; a
reverse entry swaps the stored column lists first. -/
def onColumnPairs (e : Edge) : List (String × String) :=
  if e.data.reverse then List.zip e.data.to_columns e.data.from_columns
  else List.zip e.data.from_columns e.data.to_columns

/-- One equality condition of an ON clause, for the traversal step
`ft → tt` over edge `e` and the zipped pair `p`. -/
def onCondition (aliases : List (String × String)) (ft tt : String)
    (e : Edge) (p : String × String) : String :=
  if e.data.reverse then
    aliasOf aliases tt ++ "." ++ p.1 ++ " = " ++ aliasOf aliases ft ++ "." ++ p.2
  else
    aliasOf aliases tt ++ "." ++ p.2 ++ " = " ++ aliasOf aliases ft ++ "." ++ p.1

/-- ON conditions of one traversed edge. -/
def onConditions (aliases : List (String × String)) (ft tt : String)
    (e : Edge) : List String :=
  (onColumnPairs e).map (onCondition aliases ft tt e)

/-- Text of one JOIN clause. -/
def joinClauseText (aliases : List (String × String)) (tt : String)
    (conds : List String) : String :=
  "JOIN " ++ tt ++ " " ++ aliasOf aliases tt ++ "\n    ON " ++
    (if conds.isEmpty then "1=1" else joinSep " AND " conds)

/-- Structured breakdown entry of one JOIN clause. -/
def joinInfoOf (aliases : List (String × String)) (ft tt : String)
    (e : Edge) (conds : List String) : JoinInfo :=
  { from_table := ft
    from_alias := aliasOf aliases ft
    to_table := tt
    to_alias := aliasOf aliases tt
    on_conditions := conds
    constraint := e.data.constraint_name }

/-- The traversal triples `(path[i], path[i+1], edges[i])` of a resolved
path. -/
def joinSteps (path : List String) (edges : List Edge) :
    List (String × String × Edge) :=
  (List.zip edges (List.zip path path.tail)).map
    (fun q => (q.2.1, q.2.2, q.1))

/-- Generate a JOIN query for the named tables
(`QueryEngine.generate_join`). -/
def generate_join (store : Store) (tables : List String)
    (select_all : Bool) : JoinResult :=
  if tables.length < 2 then
    { success := false, sql := "", tables := tables, joins := []
      explanation := "Need at least two tables to generate a join." }
  else
    let pr := find_multi_path store tables
    if !pr.found then
      { success := false, sql := "", tables := tables, joins := []
        explanation := pr.explanation }
    else
      let aliases := generate_aliases pr.path
      let select_clause :=
        if select_all then
          joinSep ",\n" (pr.path.map (fun t => "    " ++ aliasOf aliases t ++ ".*"))
        else "    *"
      let first_table := pr.path.headD ""
      let from_clause := first_table ++ " " ++ aliasOf aliases first_table
      let steps := joinSteps pr.path pr.edges
      let join_clauses := steps.map (fun q =>
        joinClauseText aliases q.2.1 (onConditions aliases q.1 q.2.1 q.2.2))
      let joins_info := steps.map (fun q =>
        joinInfoOf aliases q.1 q.2.1 q.2.2 (onConditions aliases q.1 q.2.1 q.2.2))
      let sql0 := "SELECT\n" ++ select_clause ++ "\nFROM " ++ from_clause
      let sql1 := if join_clauses.isEmpty then sql0
                  else sql0 ++ "\n" ++ joinSep "\n" join_clauses
      { success := true
        sql := sql1 ++ ";"
        tables := pr.path
        joins := joins_info
        explanation := "Generated join connecting " ++ natStr pr.path.length ++
          " tables via " ++ natStr join_clauses.length ++ " JOIN(s)." }

/-! ## Association-list laws -/

theorem alookup_aupdate_self {α : Type} (l : List (String × α)) (k : String)
    (v : α) : alookup (aupdate l k v) k = some v := by
  induction l with
  | nil => simp [aupdate, alookup]
  | cons a t ih =>
      obtain ⟨k', v'⟩ := a
      by_cases hk : k' = k
      · simp [aupdate, hk, alookup]
      · simp [aupdate, hk, alookup, ih]

theorem alookup_aupdate_ne {α : Type} (l : List (String × α))
    {k k' : String} (v : α) (h : k' ≠ k) :
    alookup (aupdate l k v) k' = alookup l k' := by
  have hkk : ¬(k = k') := fun he => h he.symm
  induction l with
  | nil =>
      simp only [aupdate, alookup]
      rw [if_neg hkk]
  | cons a t ih =>
      obtain ⟨k0, v0⟩ := a
      simp only [aupdate]
      by_cases hk : k0 = k
      · subst hk
        rw [if_pos rfl]
        simp only [alookup, if_neg hkk]
      · rw [if_neg hk]
        simp only [alookup]
        by_cases hk' : k0 = k'
        · simp [hk']
        · simp [hk', ih]

/-! ## Adjacency-index characterisation -/

theorem adjGet_adjAppend_same (adj : Adj) (k : String) (v : String × Edge) :
    adjGet (adjAppend adj k v) k = adjGet adj k ++ [v] := by
  unfold adjAppend adjGet
  rw [alookup_aupdate_self]
  rfl

theorem adjGet_adjAppend_other (adj : Adj) (k : String) (v : String × Edge)
    {k' : String} (h : k' ≠ k) :
    adjGet (adjAppend adj k v) k' = adjGet adj k' := by
  unfold adjAppend adjGet
  rw [alookup_aupdate_ne _ _ h]

theorem mem_adjGet_adjAppend (adj : Adj) (k : String) (v : String × Edge)
    {k' : String} {x : String × Edge} (h : x ∈ adjGet adj k') :
    x ∈ adjGet (adjAppend adj k v) k' := by
  by_cases hk : k' = k
  · subst hk
    rw [adjGet_adjAppend_same]
    exact List.mem_append_left _ h
  · rw [adjGet_adjAppend_other adj k v hk]
    exact h

/-- One step of the adjacency build. -/
def adjStep (adj : Adj) (e : Edge) : Adj :=
  adjAppend (adjAppend adj e.from_id (e.to_id, e)) e.to_id
    (e.from_id, reverseEdge e)

theorem mem_adjGet_foldl (l : List Edge) (adj : Adj) {k : String}
    {x : String × Edge} (h : x ∈ adjGet adj k) :
    x ∈ adjGet (l.foldl adjStep adj) k := by
  induction l generalizing adj with
  | nil => exact h
  | cons e t ih =>
      rw [List.foldl_cons]
      exact ih _ (mem_adjGet_adjAppend _ _ _ (mem_adjGet_adjAppend _ _ _ h))

theorem mem_adjGet_of_mem_fold (l : List Edge) (adj : Adj) {e : Edge}
    (he : e ∈ l) :
    (e.to_id, e) ∈ adjGet (l.foldl adjStep adj) e.from_id ∧
      (e.from_id, reverseEdge e) ∈ adjGet (l.foldl adjStep adj) e.to_id := by
  induction l generalizing adj with
  | nil => cases he
  | cons f t ih =>
      rw [List.foldl_cons]
      cases he with
      | head =>
          constructor
          · apply mem_adjGet_foldl
            unfold adjStep
            apply mem_adjGet_adjAppend
            rw [adjGet_adjAppend_same]
            exact List.mem_append_right _ (List.mem_singleton.mpr rfl)
          · apply mem_adjGet_foldl
            unfold adjStep
            rw [adjGet_adjAppend_same]
            exact List.mem_append_right _ (List.mem_singleton.mpr rfl)
      | tail _ he => exact ih _ he

theorem build_adjacency_eq_fold (store : Store) :
    build_adjacency store = (get_edges_by_type store "fk").foldl adjStep [] :=
  rfl

/-! ## Concrete fixtures used by counterexamples and witnesses -/

/-- A small store carrying tables `Users` and `Orders` and the foreign
key `Orders.UserId → Users.Id`. -/
def usersNode : Node := { id := "Users", type := "table", data := { name := "Users" } }

/-- Table node `Orders`. -/
def ordersNode : Node := { id := "Orders", type := "table", data := { name := "Orders" } }

/-- The `fk` edge `Orders → Users` joining on `UserId = Id`. -/
def ordersUsersEdge : Edge :=
  { id := "fk:FK_Orders_Users"
    from_id := "Orders"
    to_id := "Users"
    type := "fk"
    weight := 1
    data := { constraint_name := "FK_Orders_Users"
              from_columns := ["UserId"]
              to_columns := ["Id"] } }

/-- Two tables linked by one foreign key. -/
def usersOrdersStore : Store :=
  { nodes := [usersNode, ordersNode], edges := [ordersUsersEdge] }

/-- A table node whose id is the empty string. -/
def emptyIdStore : Store :=
  { nodes := [{ id := "", type := "table", data := { name := "X" } }] }

/-- Table node fixture for the weight-asymmetry counterexample. -/
def plainTable (s : String) : Node :=
  { id := s, type := "table", data := { name := s } }

/-- Bare `fk` edge fixture with a chosen weight. -/
def plainFk (i f t : String) (w : Int) : Edge :=
  { id := i, from_id := f, to_id := t, type := "fk", weight := w, data := {} }

/-- Four tables whose foreign keys include a negative weight: the
shortest-path search settles `B` from `A` before the cheaper route
through `C` is seen, but not in the opposite direction. -/
def negativeWeightStore : Store :=
  { nodes := [plainTable "A", plainTable "B", plainTable "C", plainTable "D"]
    edges := [plainFk "e1" "A" "B" 1, plainFk "e2" "A" "C" 2,
              plainFk "e3" "C" "B" (-3), plainFk "e4" "B" "D" 10] }

/-! ## Claim theorems -/

/-- C9: a request naming fewer than two tables makes `generateJoin`
return a failed result with empty SQL and an explanatory message, and
makes `findMultiPath` return a not-found result with an explanatory
message; both are ordinary result values of the total functions, so no
exception is involved. -/
theorem C9_short_input_failures (store : Store) (tables : List String)
    (select_all : Bool) (h : tables.length < 2) :
    (generate_join store tables select_all).success = false ∧
      (generate_join store tables select_all).sql = "" ∧
      (generate_join store tables select_all).explanation ≠ "" ∧
      (find_multi_path store tables).found = false ∧
      (find_multi_path store tables).explanation ≠ "" := by
  unfold generate_join find_multi_path
  rw [if_pos h, if_pos h]
  refine ⟨rfl, rfl, ?_, rfl, ?_⟩
  · show ("Need at least two tables to generate a join." : String) ≠ ""
    decide
  · show ("Need at least two tables to find a path." : String) ≠ ""
    decide

theorem C9_short_input_failures_witness :
    (generate_join {} [] true).success = false ∧
      (generate_join {} [] true).sql = "" ∧
      (generate_join {} [] true).explanation ≠ "" ∧
      (find_multi_path {} []).found = false ∧
      (find_multi_path {} []).explanation ≠ "" :=
  C9_short_input_failures {} [] true (by decide)

/-- C3 counterexample: in a graph holding a table node whose id is the
empty string, the empty name resolves to that node id, yet
`findPath("", "")` is not found (the resolved empty id is falsy in the
source's truthiness test), against the claim's found = true. -/
theorem C3_empty_id_counterexample :
    resolve_table_name emptyIdStore "" = some "" ∧
      (find_path emptyIdStore "" "").found = false := by
  constructor <;> decide

/-- C3 amended: for every table name that resolves to a nonempty node
id, `findPath(x, x)` is found with the single-element path, no edges and
weight zero. (The empty resolved id, possible only when a table node
carries the empty id, is the one exception the counterexample forces.) -/
theorem C3_self_path_amended (store : Store) (x id : String)
    (hres : resolve_table_name store x = some id) (hid : id ≠ "") :
    find_path store x x =
      { found := true, path := [id], edges := [], total_weight := 0
        explanation := "Same table specified for source and target." } := by
  unfold find_path
  rw [hres]
  simp [pyFalsy, hid]

theorem C3_self_path_amended_witness :
    resolve_table_name usersOrdersStore "Users" = some "Users" ∧
      "Users" ≠ "" ∧
      find_path usersOrdersStore "Users" "Users" =
        { found := true, path := ["Users"], edges := [], total_weight := 0
          explanation := "Same table specified for source and target." } :=
  ⟨by decide, by decide,
    C3_self_path_amended usersOrdersStore "Users" "Users" (by decide) (by decide)⟩

/-- C4: for every `fk` edge of the store, the adjacency index holds the
forward entry under its from-node and a synthesized reverse entry under
its to-node, with identical weight and the original attributes plus the
reverse flag set. -/
theorem C4_adjacency_forward_reverse (store : Store) (e : Edge)
    (he : e ∈ store.edges) (ht : e.type = "fk") :
    (e.to_id, e) ∈ adjGet (build_adjacency store) e.from_id ∧
      ∃ re : Edge,
        (e.from_id, re) ∈ adjGet (build_adjacency store) e.to_id ∧
        re.from_id = e.to_id ∧ re.to_id = e.from_id ∧
        re.weight = e.weight ∧
        re.data.reverse = true ∧
        re.data.constraint_name = e.data.constraint_name ∧
        re.data.from_columns = e.data.from_columns ∧
        re.data.to_columns = e.data.to_columns ∧
        re.data.via = e.data.via := by
  have hmem : e ∈ get_edges_by_type store "fk" := by
    unfold get_edges_by_type
    exact List.mem_filter.mpr ⟨he, by simp [ht]⟩
  have h := mem_adjGet_of_mem_fold (get_edges_by_type store "fk") [] hmem
  rw [build_adjacency_eq_fold]
  exact ⟨h.1, reverseEdge e, h.2, rfl, rfl, rfl, rfl, rfl, rfl, rfl, rfl⟩

theorem C4_adjacency_forward_reverse_witness :
    ordersUsersEdge ∈ usersOrdersStore.edges ∧
      ordersUsersEdge.type = "fk" ∧
      (("Users", ordersUsersEdge) ∈
        adjGet (build_adjacency usersOrdersStore) "Orders" ∧
        ∃ re : Edge,
          ("Orders", re) ∈ adjGet (build_adjacency usersOrdersStore) "Users" ∧
          re.from_id = "Users" ∧ re.to_id = "Orders" ∧
          re.weight = ordersUsersEdge.weight ∧
          re.data.reverse = true ∧
          re.data.constraint_name = ordersUsersEdge.data.constraint_name ∧
          re.data.from_columns = ordersUsersEdge.data.from_columns ∧
          re.data.to_columns = ordersUsersEdge.data.to_columns ∧
          re.data.via = ordersUsersEdge.data.via) :=
  ⟨by decide, by decide,
    C4_adjacency_forward_reverse usersOrdersStore ordersUsersEdge
      (by decide) (by decide)⟩

/-! ## Decimal rendering laws -/

/-- Value read back from a decimal digit list. -/
def digitsVal (l : List Char) : Nat :=
  l.foldl (fun a c => a * 10 + (c.toNat - 48)) 0

theorem digitsVal_append_digit (l : List Char) (c : Char) :
    digitsVal (l ++ [c]) = digitsVal l * 10 + (c.toNat - 48) := by
  unfold digitsVal
  rw [List.foldl_append]
  rfl

theorem digitChar_toNat {n : Nat} (h : n < 10) :
    (digitChar n).toNat = 48 + n := by
  interval_cases n <;> decide

theorem natDigitsAux_val :
    ∀ fuel n, n ≤ fuel + 9 → digitsVal (natDigitsAux fuel n) = n := by
  intro fuel
  induction fuel with
  | zero =>
      intro n h
      have h10 : n < 10 := by omega
      show digitsVal [digitChar n] = n
      unfold digitsVal
      simp [digitChar_toNat h10]
  | succ f ih =>
      intro n h
      by_cases h10 : n < 10
      · simp only [natDigitsAux, if_pos h10]
        unfold digitsVal
        simp [digitChar_toNat h10]
      · simp only [natDigitsAux, if_neg h10]
        have hdiv : n / 10 < n := Nat.div_lt_self (by omega) (by omega)
        rw [digitsVal_append_digit, ih (n / 10) (by omega),
          digitChar_toNat (Nat.mod_lt _ (by omega))]
        omega

theorem digitsVal_natDigits (n : Nat) : digitsVal (natDigits n) = n :=
  natDigitsAux_val n n (by omega)

theorem natStr_injective : Function.Injective natStr := by
  intro a b h
  have hd : natDigits a = natDigits b := congrArg String.data h
  have := congrArg digitsVal hd
  rwa [digitsVal_natDigits, digitsVal_natDigits] at this

theorem append_natStr_injective (base : String) :
    Function.Injective (fun i => base ++ natStr i) := by
  intro a b h
  have hd : base.data ++ (natStr a).data = base.data ++ (natStr b).data := by
    have := congrArg String.data h
    rwa [String.data_append, String.data_append] at this
  have hdd : (natStr a).data = (natStr b).data :=
    List.append_cancel_left hd
  have : natStr a = natStr b := by
    calc natStr a = String.mk (natStr a).data := rfl
      _ = String.mk (natStr b).data := by rw [hdd]
      _ = natStr b := rfl
  exact natStr_injective this

/-! ## Alias freshness and distinctness -/

theorem pickAliasAux_fresh (name base : String) (used : List String) :
    ∀ fuel c, (∃ k, c ≤ k ∧ k ≤ c + fuel ∧ aliasCand name base k ∉ used) →
      pickAliasAux name base used fuel c ∉ used := by
  intro fuel
  induction fuel with
  | zero =>
      intro c h
      obtain ⟨k, h1, h2, h3⟩ := h
      have hk : k = c := by omega
      subst hk
      simpa [pickAliasAux] using h3
  | succ f ih =>
      intro c h
      obtain ⟨k, h1, h2, h3⟩ := h
      simp only [pickAliasAux]
      by_cases hc : aliasCand name base c ∈ used
      · rw [if_pos hc]
        apply ih
        have hkc : k ≠ c := fun he => (he ▸ h3) hc
        exact ⟨k, by omega, by omega, h3⟩
      · rw [if_neg hc]
        exact hc

theorem exists_not_mem_of_length_lt {S used : List String}
    (hnd : S.Nodup) (h : used.length < S.length) : ∃ s ∈ S, s ∉ used := by
  by_contra hc
  push_neg at hc
  have hsub : S.toFinset ⊆ used.toFinset := by
    intro s hs
    rw [List.mem_toFinset] at hs ⊢
    exact hc s hs
  have h1 : S.toFinset.card = S.length := List.toFinset_card_of_nodup hnd
  have h2 : used.toFinset.card ≤ used.length := List.toFinset_card_le used
  have := Finset.card_le_card hsub
  omega

theorem pickAlias_fresh (name : String) (used : List String) :
    pickAlias name used ∉ used := by
  unfold pickAlias
  apply pickAliasAux_fresh
  have hnd : ((List.range (used.length + 1)).map
      (fun i => aliasBase name ++ natStr (i + 1))).Nodup := by
    refine List.Nodup.map ?_ (List.nodup_range _)
    intro a b hab
    have := append_natStr_injective (aliasBase name) hab
    omega
  obtain ⟨s, hs, hnot⟩ := @exists_not_mem_of_length_lt
    ((List.range (used.length + 1)).map
      (fun i => aliasBase name ++ natStr (i + 1)))
    used hnd (by simp)
  obtain ⟨i, hi, rfl⟩ := List.mem_map.mp hs
  have hiU : i < used.length + 1 := List.mem_range.mp hi
  refine ⟨name.data.length + (i + 1), by omega, by omega, ?_⟩
  unfold aliasCand
  rw [if_neg (by omega)]
  have harg : name.data.length + (i + 1) - name.data.length = i + 1 := by omega
  rw [harg]
  exact hnot

theorem generate_aliases_go_distinct :
    ∀ (rest : List String) (aliases : List (String × String))
      (used : List String),
      (∀ k v, alookup aliases k = some v → v ∈ used) →
      (∀ k1 k2 v1 v2, k1 ≠ k2 → alookup aliases k1 = some v1 →
        alookup aliases k2 = some v2 → v1 ≠ v2) →
      ∀ k1 k2 v1 v2, k1 ≠ k2 →
        alookup (generate_aliases_go rest aliases used) k1 = some v1 →
        alookup (generate_aliases_go rest aliases used) k2 = some v2 →
        v1 ≠ v2 := by
  intro rest
  induction rest with
  | nil =>
      intro aliases used _ h2
      exact h2
  | cons table rest ih =>
      intro aliases used h1 h2
      simp only [generate_aliases_go]
      apply ih
      · intro k v hv
        by_cases hk : k = table
        · subst hk
          rw [alookup_aupdate_self] at hv
          cases hv
          exact List.mem_append_right _ (List.mem_singleton.mpr rfl)
        · rw [alookup_aupdate_ne _ _ hk] at hv
          exact List.mem_append_left _ (h1 k v hv)
      · intro k1 k2 v1 v2 hne ha1 ha2
        by_cases hk1 : k1 = table <;> by_cases hk2 : k2 = table
        · exact absurd (hk1.trans hk2.symm) hne
        · subst hk1
          rw [alookup_aupdate_self] at ha1
          cases ha1
          rw [alookup_aupdate_ne _ _ hk2] at ha2
          exact fun he => pickAlias_fresh _ used (he ▸ h1 k2 v2 ha2)
        · subst hk2
          rw [alookup_aupdate_self] at ha2
          cases ha2
          rw [alookup_aupdate_ne _ _ hk1] at ha1
          exact fun he => pickAlias_fresh _ used (he ▸ h1 k1 v1 ha1)
        · rw [alookup_aupdate_ne _ _ hk1] at ha1
          rw [alookup_aupdate_ne _ _ hk2] at ha2
          exact h2 k1 k2 v1 v2 hne ha1 ha2

/-- C7: the alias mapping generated for one join never assigns the same
alias string to two distinct table ids. -/
theorem C7_alias_distinct (tables : List String) (t1 t2 a1 a2 : String)
    (hne : t1 ≠ t2)
    (h1 : alookup (generate_aliases tables) t1 = some a1)
    (h2 : alookup (generate_aliases tables) t2 = some a2) : a1 ≠ a2 := by
  refine generate_aliases_go_distinct tables [] [] ?_ ?_ t1 t2 a1 a2 hne h1 h2
  · intro k v h
    simp [alookup] at h
  · intro k1 k2 v1 v2 _ h
    simp [alookup] at h

theorem C7_alias_distinct_witness : ("o" : String) ≠ "or" :=
  C7_alias_distinct ["dbo.Users", "dbo.Orders", "dbo.OrderItems"]
    "dbo.Orders" "dbo.OrderItems" "o" "or" (by decide) (by decide) (by decide)

/-! ## Builder edge emission laws -/

/-- Ordered endpoint pair of an edge. -/
def edgePair (e : Edge) : String × String := (e.from_id, e.to_id)

theorem edgePair_mkFkEdge (fk : ForeignKeyInfo) :
    edgePair (mkFkEdge fk) = fkPair fk := rfl

theorem create_fk_edges_aux_first :
    ∀ (l : List ForeignKeyInfo) (seen : List (String × String)) (e : Edge),
      e ∈ create_fk_edges_aux l seen →
      edgePair e ∉ seen ∧
        ∃ fk, l.find? (fun g => decide (fkPair g = edgePair e)) = some fk ∧
          e = mkFkEdge fk := by
  intro l
  induction l with
  | nil => intro seen e he; cases he
  | cons h t ih =>
      intro seen e he
      simp only [create_fk_edges_aux] at he
      by_cases hp : fkPair h ∈ seen
      · rw [if_pos hp] at he
        obtain ⟨hnot, fk, hfind, hfk⟩ := ih seen e he
        have hne : ¬(fkPair h = edgePair e) := fun heq => hnot (heq ▸ hp)
        refine ⟨hnot, fk, ?_, hfk⟩
        rw [List.find?_cons_of_neg _ (by simpa using hne)]
        exact hfind
      · rw [if_neg hp] at he
        rcases List.mem_cons.mp he with he | he
        · subst he
          refine ⟨by rw [edgePair_mkFkEdge]; exact hp, h, ?_, rfl⟩
          rw [List.find?_cons_of_pos _ (by simp [edgePair_mkFkEdge])]
        · obtain ⟨hnot, fk, hfind, hfk⟩ := ih (fkPair h :: seen) e he
          have hnh : ¬(fkPair h = edgePair e) := fun heq =>
            hnot (heq ▸ List.mem_cons_self _ _)
          refine ⟨fun hs => hnot (List.mem_cons_of_mem _ hs), fk, ?_, hfk⟩
          rw [List.find?_cons_of_neg _ (by simpa using hnh)]
          exact hfind

theorem create_fk_edges_aux_pairwise :
    ∀ (l : List ForeignKeyInfo) (seen : List (String × String)),
      (create_fk_edges_aux l seen).Pairwise
        (fun e1 e2 => edgePair e1 ≠ edgePair e2) := by
  intro l
  induction l with
  | nil => intro seen; exact List.Pairwise.nil
  | cons h t ih =>
      intro seen
      simp only [create_fk_edges_aux]
      by_cases hp : fkPair h ∈ seen
      · rw [if_pos hp]; exact ih seen
      · rw [if_neg hp]
        refine List.Pairwise.cons ?_ (ih (fkPair h :: seen))
        intro e he heq
        have := (create_fk_edges_aux_first t (fkPair h :: seen) e he).1
        rw [edgePair_mkFkEdge] at heq
        exact this (heq ▸ List.mem_cons_self _ _)

theorem create_fk_edges_aux_complete :
    ∀ (l : List ForeignKeyInfo) (seen : List (String × String))
      (p : String × String),
      (∃ e ∈ create_fk_edges_aux l seen, edgePair e = p) ↔
        (p ∉ seen ∧ ∃ fk ∈ l, fkPair fk = p) := by
  intro l
  induction l with
  | nil =>
      intro seen p
      simp [create_fk_edges_aux]
  | cons h t ih =>
      intro seen p
      simp only [create_fk_edges_aux]
      by_cases hp : fkPair h ∈ seen
      · rw [if_pos hp, ih seen p]
        constructor
        · rintro ⟨hns, fk, hfk, hfkp⟩
          exact ⟨hns, fk, List.mem_cons_of_mem _ hfk, hfkp⟩
        · rintro ⟨hns, fk, hfk, hfkp⟩
          rcases List.mem_cons.mp hfk with rfl | hfk
          · exact absurd (hfkp ▸ hp) hns
          · exact ⟨hns, fk, hfk, hfkp⟩
      · rw [if_neg hp]
        by_cases hph : p = fkPair h
        · subst hph
          constructor
          · intro _
            exact ⟨hp, h, List.mem_cons_self _ _, rfl⟩
          · intro _
            exact ⟨mkFkEdge h, List.mem_cons_self _ _, edgePair_mkFkEdge h⟩
        · constructor
          · rintro ⟨e, he, hep⟩
            rcases List.mem_cons.mp he with rfl | he
            · exact absurd (hep ▸ (edgePair_mkFkEdge h).symm).symm hph
            · obtain ⟨hns, fk, hfk, hfkp⟩ := (ih (fkPair h :: seen) p).mp ⟨e, he, hep⟩
              exact ⟨fun hs => hns (List.mem_cons_of_mem _ hs), fk,
                List.mem_cons_of_mem _ hfk, hfkp⟩
          · rintro ⟨hns, fk, hfk, hfkp⟩
            rcases List.mem_cons.mp hfk with rfl | hfk
            · exact absurd hfkp.symm hph
            · obtain ⟨e, he, hep⟩ := (ih (fkPair h :: seen) p).mpr
                ⟨by simpa [hph] using hns, fk, hfk, hfkp⟩
              exact ⟨e, List.mem_cons_of_mem _ he, hep⟩

theorem fkColStep_fold_length (fk : ForeignKeyInfo) :
    ∀ (l : List (Nat × (String × String))) (acc : List Edge) (s : Store),
      ((l.foldl (fkColStep fk) (acc, s)).1.length = acc.length + l.length) := by
  intro l
  induction l with
  | nil => intro acc s; simp
  | cons p t ih =>
      intro acc s
      rw [List.foldl_cons]
      show ((t.foldl (fkColStep fk) (fkColStep fk (acc, s) p)).1.length = _)
      rw [show fkColStep fk (acc, s) p =
        (acc ++ [mkFkColEdge fk p.1 p.2.1 p.2.2],
         mark_column_as_fk s (fk.from_full_name ++ "." ++ p.2.1)) from rfl]
      rw [ih]
      simp
      omega

theorem fk_col_edges_of_length (fk : ForeignKeyInfo) (s : Store) :
    (fk_col_edges_of fk s).1.length =
      (List.zip fk.from_columns fk.to_columns).length := by
  unfold fk_col_edges_of
  rw [fkColStep_fold_length]
  simp [List.enum_length]

theorem create_fk_column_edges_fold_length :
    ∀ (l : List ForeignKeyInfo) (acc : List Edge) (s : Store),
      (l.foldl fkColConstraintStep (acc, s)).1.length =
        acc.length +
          (l.map (fun fk =>
            (List.zip fk.from_columns fk.to_columns).length)).sum := by
  intro l
  induction l with
  | nil => intro acc s; simp
  | cons fk t ih =>
      intro acc s
      rw [List.foldl_cons]
      show ((t.foldl fkColConstraintStep (fkColConstraintStep (acc, s) fk)).1.length = _)
      rw [show fkColConstraintStep (acc, s) fk =
        (acc ++ (fk_col_edges_of fk s).1, (fk_col_edges_of fk s).2) from rfl]
      rw [ih]
      rw [List.length_append, fk_col_edges_of_length]
      simp
      omega

/-- C8: the table-level edge emission deduplicates by ordered table
pair — emitted pairs are pairwise distinct, a pair is emitted exactly
when some input constraint carries it, and each emitted edge is built
from the first constraint in input order carrying its pair — while the
column-level emission produces one edge per zipped column pair per
original constraint, with no deduplication. -/
theorem C8_fk_dedup_fkcol_no_dedup (fks : List ForeignKeyInfo)
    (store : Store) :
    (create_fk_edges fks).Pairwise (fun e1 e2 => edgePair e1 ≠ edgePair e2) ∧
      (∀ e ∈ create_fk_edges fks, ∃ fk,
        fks.find? (fun g => decide (fkPair g = edgePair e)) = some fk ∧
          e = mkFkEdge fk) ∧
      (∀ p : String × String,
        (∃ e ∈ create_fk_edges fks, edgePair e = p) ↔ ∃ fk ∈ fks, fkPair fk = p) ∧
      (create_fk_column_edges fks store).1.length =
        (fks.map (fun fk =>
          (List.zip fk.from_columns fk.to_columns).length)).sum := by
  refine ⟨create_fk_edges_aux_pairwise fks [], ?_, ?_, ?_⟩
  · intro e he
    exact (create_fk_edges_aux_first fks [] e he).2
  · intro p
    rw [show create_fk_edges fks = create_fk_edges_aux fks [] from rfl,
      create_fk_edges_aux_complete fks [] p]
    simp
  · unfold create_fk_column_edges
    rw [create_fk_column_edges_fold_length]
    simp

/-- Duplicate-pair fixture: two constraints over the same ordered table
pair with different constraint names and columns. -/
def dupFk1 : ForeignKeyInfo :=
  { constraint_name := "FK1", from_schema := "dbo", from_table := "Orders"
    from_columns := ["UserId"], to_schema := "dbo", to_table := "Users"
    to_columns := ["Id"] }

/-- Second constraint over the same ordered pair. -/
def dupFk2 : ForeignKeyInfo :=
  { constraint_name := "FK2", from_schema := "dbo", from_table := "Orders"
    from_columns := ["AltUserId"], to_schema := "dbo", to_table := "Users"
    to_columns := ["Id"] }

theorem C8_fk_dedup_fkcol_no_dedup_witness :
    (∃ fk, [dupFk1, dupFk2].find?
        (fun g => decide (fkPair g = edgePair (mkFkEdge dupFk1))) = some fk ∧
        mkFkEdge dupFk1 = mkFkEdge fk) ∧
      (create_fk_column_edges [dupFk1, dupFk2] {}).1.length =
        ([dupFk1, dupFk2].map (fun fk =>
          (List.zip fk.from_columns fk.to_columns).length)).sum :=
  ⟨(C8_fk_dedup_fkcol_no_dedup [dupFk1, dupFk2] {}).2.1 (mkFkEdge dupFk1)
      (by decide),
    (C8_fk_dedup_fkcol_no_dedup [dupFk1, dupFk2] {}).2.2.2⟩

/-! ## Build on a cleared store: the lost foreign-key marking -/

theorem mark_column_as_fk_empty (c : String) :
    mark_column_as_fk {} c = {} := rfl

theorem fkColStep_fold_store_empty (fk : ForeignKeyInfo) :
    ∀ (l : List (Nat × (String × String))) (acc : List Edge),
      (l.foldl (fkColStep fk) (acc, ({} : Store))).2 = {} := by
  intro l
  induction l with
  | nil => intro acc; rfl
  | cons p t ih =>
      intro acc
      rw [List.foldl_cons]
      show (t.foldl (fkColStep fk) (fkColStep fk (acc, {}) p)).2 = {}
      rw [show fkColStep fk (acc, ({} : Store)) p =
        (acc ++ [mkFkColEdge fk p.1 p.2.1 p.2.2], ({} : Store)) from rfl]
      exact ih _

theorem fk_col_edges_of_store_empty (fk : ForeignKeyInfo) :
    (fk_col_edges_of fk {}).2 = {} :=
  fkColStep_fold_store_empty fk _ []

theorem create_fk_column_edges_fold_store_empty :
    ∀ (l : List ForeignKeyInfo) (acc : List Edge),
      (l.foldl fkColConstraintStep (acc, ({} : Store))).2 = {} := by
  intro l
  induction l with
  | nil => intro acc; rfl
  | cons fk t ih =>
      intro acc
      rw [List.foldl_cons]
      show (t.foldl fkColConstraintStep (fkColConstraintStep (acc, {}) fk)).2 = {}
      rw [show fkColConstraintStep (acc, ({} : Store)) fk =
        (acc ++ (fk_col_edges_of fk {}).1, (fk_col_edges_of fk {}).2) from rfl,
        fk_col_edges_of_store_empty]
      exact ih _

theorem create_fk_column_edges_snd_empty (l : List ForeignKeyInfo) :
    (create_fk_column_edges l {}).2 = {} :=
  create_fk_column_edges_fold_store_empty l []

theorem add_edge_nodes (s : Store) (e : Edge) :
    (add_edge s e).nodes = s.nodes := rfl

theorem add_edges_nodes (s : Store) (es : List Edge) :
    (add_edges s es).nodes = s.nodes := by
  induction es generalizing s with
  | nil => rfl
  | cons e t ih =>
      show (add_edges (add_edge s e) t).nodes = s.nodes
      rw [ih, add_edge_nodes]

theorem set_metadata_nodes (s : Store) (k v : String) :
    (set_metadata s k v).nodes = s.nodes := rfl

theorem mem_nodeReplace {l : List Node} {m n : Node}
    (h : n ∈ nodeReplace l m) : n ∈ l ∨ n = m := by
  induction l with
  | nil => simpa [nodeReplace] using h
  | cons a t ih =>
      unfold nodeReplace at h
      split at h
      · rcases List.mem_cons.mp h with rfl | h
        · exact Or.inr rfl
        · exact Or.inl (List.mem_cons_of_mem _ h)
      · rcases List.mem_cons.mp h with rfl | h
        · exact Or.inl (List.mem_cons_self _ _)
        · rcases ih h with h | h
          · exact Or.inl (List.mem_cons_of_mem _ h)
          · exact Or.inr h

theorem mem_add_nodes {s : Store} {ns : List Node} {n : Node}
    (h : n ∈ (add_nodes s ns).nodes) : n ∈ s.nodes ∨ n ∈ ns := by
  induction ns generalizing s with
  | nil => exact Or.inl h
  | cons m t ih =>
      have h' : n ∈ (add_nodes (add_node s m) t).nodes := h
      rcases ih h' with h'' | h''
      · rcases mem_nodeReplace h'' with h3 | h3
        · exact Or.inl h3
        · exact Or.inr (h3 ▸ List.mem_cons_self _ _)
      · exact Or.inr (List.mem_cons_of_mem _ h'')

theorem create_table_nodes_type {tables : List TableInfo}
    {primary_keys : List PrimaryKeyInfo} {n : Node}
    (h : n ∈ create_table_nodes tables primary_keys) : n.type = "table" := by
  unfold create_table_nodes at h
  obtain ⟨t, _, rfl⟩ := List.mem_map.mp h
  rfl

theorem create_column_nodes_is_fk {pk : List (String × List String)}
    {columns : List ColumnInfo} {n : Node}
    (h : n ∈ create_column_nodes pk columns) : n.data.is_fk = false := by
  unfold create_column_nodes at h
  obtain ⟨c, _, rfl⟩ := List.mem_map.mp h
  rfl

/-- C2 (refuted): after a clearing build, every column node is stored
with is_fk = false — the foreign-key marking step reads the store before
the column-node batch is written, so the read misses and the flag is
lost for every foreign-key source column, against the claim's
is_fk = true. -/
theorem C2_is_fk_never_set (metadata : RawMetadata) (now : String)
    (store : Store) (n : Node)
    (hm : n ∈ (build metadata true now store).1.nodes)
    (ht : n.type = "column") : n.data.is_fk = false := by
  unfold build at hm
  rw [if_pos rfl] at hm
  rw [show clearStore store = {} from rfl] at hm
  rw [set_metadata_nodes, set_metadata_nodes, set_metadata_nodes,
    set_metadata_nodes, add_edges_nodes, add_edges_nodes,
    create_fk_column_edges_snd_empty] at hm
  rcases mem_add_nodes hm with hm' | hm'
  · rcases mem_add_nodes hm' with h0 | h0
    · rw [show ({} : Store).nodes = [] from rfl] at h0
      cases h0
    · have h1 := create_table_nodes_type h0
      rw [h1] at ht
      exact absurd ht (by decide)
  · exact create_column_nodes_is_fk hm'

/-- Metadata fixture mirroring the repository's own unit-test snapshot:
`Orders.UserId` references `Users.Id`. -/
def testMetadata : RawMetadata :=
  { tables := [{ schema := "dbo", name := "Users" },
               { schema := "dbo", name := "Orders" }]
    columns := [
      { table_schema := "dbo", table_name := "Users", name := "Id"
        sql_type := "int", ordinal_position := 1 },
      { table_schema := "dbo", table_name := "Orders", name := "Id"
        sql_type := "int", ordinal_position := 1 },
      { table_schema := "dbo", table_name := "Orders", name := "UserId"
        sql_type := "int", ordinal_position := 2 }]
    primary_keys := [
      { table_schema := "dbo", table_name := "Users"
        constraint_name := "PK_Users", columns := ["Id"] },
      { table_schema := "dbo", table_name := "Orders"
        constraint_name := "PK_Orders", columns := ["Id"] }]
    foreign_keys := [
      { constraint_name := "FK_Orders_Users", from_schema := "dbo"
        from_table := "Orders", from_columns := ["UserId"]
        to_schema := "dbo", to_table := "Users", to_columns := ["Id"] }]
    database_name := "TestDb"
    server_name := "localhost" }

/-- The stored column node for the foreign-key source column
`dbo.Orders.UserId` as the build writes it. -/
def ordersUserIdColumnNode : Node :=
  { id := "dbo.Orders.UserId"
    type := "column"
    data := { table := "dbo.Orders", name := "UserId", sql_type := "int"
              is_nullable := false, is_pk := false, is_fk := false
              ordinal_position := 2 } }

theorem C2_is_fk_never_set_witness :
    ordersUserIdColumnNode.data.is_fk = false :=
  C2_is_fk_never_set testMetadata "2024-01-01T00:00:00" {}
    ordersUserIdColumnNode (by decide) (by decide)

/-- C1 (refuted by the code): for the reverse traversal `Users → Orders`
of the foreign key `Orders.UserId → Users.Id` — original source column
`UserId` on `Orders`, target column `Id` on `Users` — the generated ON
condition is `o.Id = u.UserId`: it pairs the alias of `Orders` with the
target column that belongs to `Users`, and the alias of `Users` with the
source column that belongs to `Orders`. The reverse branch swaps both
the column lists and the condition layout, and the two swaps cancel into
the inverted pairing, against the stated direction-awareness (which
requires `o.UserId = u.Id` here). -/
theorem C1_reverse_on_condition_eval :
    (generate_join usersOrdersStore ["Users", "Orders"] true).joins =
      [{ from_table := "Users", from_alias := "u", to_table := "Orders"
         to_alias := "o", on_conditions := ["o.Id = u.UserId"]
         constraint := "FK_Orders_Users" }] ∧
      strContains (generate_join usersOrdersStore ["Users", "Orders"] true).sql
        "o.Id = u.UserId" = true ∧
      strContains (generate_join usersOrdersStore ["Users", "Orders"] true).sql
        "o.UserId = u.Id" = false := by
  refine ⟨by decide, by decide, by decide⟩

/-- C5 counterexample: over a graph made only of `fk` edges (so the
adjacency index is weight-symmetric) one of which has a negative weight,
the two directions of the search return different total weights: the run
from `A` settles `B` at distance 1 before the cheaper route through the
negative edge is seen and never revisits it, while the run from `D`
reaches the same nodes in an order that applies the improvement. -/
theorem C5_negative_weight_asymmetry :
    (find_path negativeWeightStore "A" "D").total_weight = 11 ∧
      (find_path negativeWeightStore "D" "A").total_weight = 9 ∧
      (find_path negativeWeightStore "A" "D").total_weight ≠
        (find_path negativeWeightStore "D" "A").total_weight := by
  refine ⟨by decide, by decide, by decide⟩

/-! ## Walks through the adjacency index -/

/-- Total weight of a traversed edge list. -/
def sumW (E : List Edge) : Int := (E.map (fun e => e.weight)).sum

theorem sumW_nil : sumW [] = 0 := rfl

theorem sumW_cons (e : Edge) (E : List Edge) :
    sumW (e :: E) = e.weight + sumW E := by
  simp [sumW]

theorem sumW_append (E F : List Edge) :
    sumW (E ++ F) = sumW E + sumW F := by
  simp [sumW]

/-- A walk from `a` to `b` through the adjacency index: `p` is the node
sequence and `E` the traversal entries used. -/
inductive Links (adj : Adj) : String → List String → List Edge → String → Prop
  | nil (a : String) : Links adj a [a] [] a
  | cons {a b c : String} {p : List String} {E : List Edge} {e : Edge} :
      (b, e) ∈ adjGet adj a → Links adj b p E c →
      Links adj a (a :: p) (e :: E) c

theorem Links.head_shape {adj : Adj} {a c : String} {p : List String}
    {E : List Edge} (h : Links adj a p E c) : ∃ p', p = a :: p' := by
  cases h with
  | nil => exact ⟨[], rfl⟩
  | cons _ _ => exact ⟨_, rfl⟩

theorem Links.length_eq {adj : Adj} {a c : String} {p : List String}
    {E : List Edge} (h : Links adj a p E c) : p.length = E.length + 1 := by
  induction h with
  | nil => rfl
  | cons _ _ ih => simp [ih]

theorem Links.last_eq {adj : Adj} {a c : String} {p : List String}
    {E : List Edge} (h : Links adj a p E c) : p.getLast? = some c := by
  induction h with
  | nil => rfl
  | cons _ hl ih =>
      obtain ⟨p', rfl⟩ := hl.head_shape
      simpa using ih

theorem Links.snoc {adj : Adj} {a b c : String} {p : List String}
    {E : List Edge} {e : Edge} (h : Links adj a p E b)
    (he : (c, e) ∈ adjGet adj b) :
    Links adj a (p ++ [c]) (E ++ [e]) c := by
  induction h with
  | nil a => exact Links.cons he (Links.nil c)
  | cons hstep _ ih => exact Links.cons hstep (ih he)

theorem Links.glue {adj : Adj} {a b c : String} {p q : List String}
    {E F : List Edge} (h1 : Links adj a p E b) (h2 : Links adj b q F c) :
    Links adj a (p ++ q.tail) (E ++ F) c := by
  induction h1 with
  | nil a =>
      obtain ⟨q', rfl⟩ := h2.head_shape
      simpa using h2
  | cons hstep _ ih => exact Links.cons hstep (ih h2)

theorem Links.snocView {adj : Adj} {a c : String} {p : List String}
    {E : List Edge} (h : Links adj a p E c) :
    (p = [a] ∧ E = [] ∧ c = a) ∨
      ∃ p' E' u e, Links adj a p' E' u ∧ (c, e) ∈ adjGet adj u ∧
        p = p' ++ [c] ∧ E = E' ++ [e] := by
  induction h with
  | nil a => exact Or.inl ⟨rfl, rfl, rfl⟩
  | cons hstep hrest ih =>
      rename_i a b c' p' E' e
      rcases ih with ⟨hp, hE, hc⟩ | ⟨p2, E2, u, e2, hl, hm, hp, hE⟩
      · subst hp; subst hE; subst hc
        exact Or.inr ⟨[a], [], a, e, Links.nil a, hstep, rfl, rfl⟩
      · subst hp; subst hE
        exact Or.inr ⟨a :: p2, e :: E2, u, e2, Links.cons hstep hl, hm,
          rfl, rfl⟩

theorem Links.connect {adj : Adj} {a c : String} {p : List String}
    {E : List Edge}
    (hw : ∀ k q, q ∈ adjGet adj k → q.2.from_id = k ∧ q.2.to_id = q.1)
    (h : Links adj a p E c) :
    ∀ i (hi : i < E.length),
      ∃ (h1 : i < p.length) (h2 : i + 1 < p.length),
        (E.get ⟨i, hi⟩).from_id = p.get ⟨i, h1⟩ ∧
          (E.get ⟨i, hi⟩).to_id = p.get ⟨i + 1, h2⟩ := by
  induction h with
  | nil => intro i hi; cases hi
  | cons hstep hrest ih =>
      rename_i a b c' p' E' e
      intro i hi
      cases i with
      | zero =>
          obtain ⟨p'', rfl⟩ := hrest.head_shape
          have hfrom := (hw a (b, e) hstep).1
          have hto := (hw a (b, e) hstep).2
          exact ⟨by simp, by simp [hrest.length_eq],
            by simpa using hfrom, by simpa using hto⟩
      | succ j =>
          have hj : j < E'.length := by simpa using hi
          obtain ⟨h1, h2, hfrom, hto⟩ := ih j hj
          exact ⟨by simpa using Nat.succ_lt_succ h1,
            by simpa using Nat.succ_lt_succ h2,
            by simpa using hfrom, by simpa using hto⟩

/-! ## Heap order laws -/

theorem charsLt_asymm :
    ∀ a b : List Char, charsLt a b = true → charsLt b a = false := by
  intro a
  induction a with
  | nil => intro b h; cases b <;> simp_all [charsLt]
  | cons x xs ih =>
      intro b h
      cases b with
      | nil => simp [charsLt] at h
      | cons y ys =>
          simp only [charsLt] at h ⊢
          by_cases hxy : x = y
          · subst hxy
            rw [if_pos rfl] at h ⊢
            exact ih ys h
          · rw [if_neg hxy] at h
            rw [if_neg (fun he => hxy he.symm)]
            simp only [decide_eq_true_eq] at h
            simpa using le_of_lt h

theorem charsLt_conn :
    ∀ a b : List Char, charsLt a b = false → charsLt b a = false → a = b := by
  intro a
  induction a with
  | nil => intro b h1 _; cases b <;> simp_all [charsLt]
  | cons x xs ih =>
      intro b h1 h2
      cases b with
      | nil => simp [charsLt] at h2
      | cons y ys =>
          simp only [charsLt] at h1 h2
          by_cases hxy : x = y
          · subst hxy
            rw [if_pos rfl] at h1 h2
            rw [ih ys h1 h2]
          · rw [if_neg hxy] at h1
            rw [if_neg (fun he => hxy he.symm)] at h2
            simp only [decide_eq_false_iff_not] at h1 h2
            exact absurd (le_antisymm (le_of_not_lt h2) (le_of_not_lt h1)) hxy

theorem charsLt_trans :
    ∀ a b c : List Char, charsLt a b = true → charsLt b c = true →
      charsLt a c = true := by
  intro a
  induction a with
  | nil =>
      intro b c h1 h2
      cases b with
      | nil => simp [charsLt] at h1
      | cons y ys => cases c with
        | nil => simp [charsLt] at h2
        | cons z zs => simp [charsLt]
  | cons x xs ih =>
      intro b c h1 h2
      cases b with
      | nil => simp [charsLt] at h1
      | cons y ys =>
          cases c with
          | nil => simp [charsLt] at h2
          | cons z zs =>
              simp only [charsLt] at h1 h2 ⊢
              by_cases hxy : x = y <;> by_cases hyz : y = z
              · subst hxy; subst hyz
                rw [if_pos rfl] at h1 h2 ⊢
                exact ih ys zs h1 h2
              · subst hxy
                rw [if_pos rfl] at h1
                rw [if_neg hyz] at h2 ⊢
                exact h2
              · subst hyz
                rw [if_neg hxy] at h1 ⊢
                exact h1
              · rw [if_neg hxy] at h1
                rw [if_neg hyz] at h2
                simp only [decide_eq_true_eq] at h1 h2
                by_cases hxz : x = z
                · subst hxz
                  exact absurd (lt_trans h1 h2) (lt_irrefl x)
                · rw [if_neg hxz]
                  simp only [decide_eq_true_eq]
                  exact lt_trans h1 h2

theorem heapLe_total (x y : Int × String) :
    heapLe x y = true ∨ heapLe y x = true := by
  unfold heapLe strLe
  by_cases h1 : x.1 < y.1
  · left; simp [h1]
  · by_cases h2 : y.1 < x.1
    · right; simp [h2]
    · have he : x.1 = y.1 := by omega
      by_cases hs : charsLt y.2.data x.2.data
      · right
        have := charsLt_asymm _ _ hs
        simp [he, this]
      · left
        simp [he, hs]

theorem heapLe_trans {x y z : Int × String} (h1 : heapLe x y = true)
    (h2 : heapLe y z = true) : heapLe x z = true := by
  unfold heapLe strLe at h1 h2 ⊢
  simp only [Bool.or_eq_true, Bool.and_eq_true, decide_eq_true_eq,
    Bool.not_eq_true'] at h1 h2 ⊢
  rcases h1 with h1 | ⟨h1e, h1s⟩ <;> rcases h2 with h2 | ⟨h2e, h2s⟩
  · exact Or.inl (lt_trans h1 h2)
  · exact Or.inl (by omega)
  · exact Or.inl (by omega)
  · refine Or.inr ⟨by omega, ?_⟩
    cases hzx : charsLt z.2.data x.2.data with
    | false => rfl
    | true =>
        by_cases hxy2 : x.2.data = y.2.data
        · rw [← hxy2] at h2s
          simp [hzx] at h2s
        · have hx_lt_y : charsLt x.2.data y.2.data = true := by
            cases hcb : charsLt x.2.data y.2.data with
            | true => rfl
            | false => exact absurd (charsLt_conn _ _ hcb h1s) hxy2
          have hzy := charsLt_trans _ _ _ hzx hx_lt_y
          simp [hzy] at h2s

theorem heapLe_fst_le {x y : Int × String} (h : heapLe x y = true) :
    x.1 ≤ y.1 := by
  unfold heapLe at h
  simp only [Bool.or_eq_true, Bool.and_eq_true, decide_eq_true_eq] at h
  rcases h with h | ⟨h, _⟩ <;> omega

theorem mem_hpush {h : List (Int × String)} {x y : Int × String} :
    y ∈ hpush h x ↔ y = x ∨ y ∈ h := by
  induction h with
  | nil => simp [hpush]
  | cons z t ih =>
      unfold hpush
      split
      · constructor
        · intro hm
          rcases List.mem_cons.mp hm with rfl | hm
          · exact Or.inl rfl
          · exact Or.inr hm
        · intro hm
          rcases hm with rfl | hm
          · exact List.mem_cons_self _ _
          · exact List.mem_cons_of_mem _ hm
      · constructor
        · intro hm
          rcases List.mem_cons.mp hm with rfl | hm
          · exact Or.inr (List.mem_cons_self _ _)
          · rcases ih.mp hm with rfl | hm
            · exact Or.inl rfl
            · exact Or.inr (List.mem_cons_of_mem _ hm)
        · intro hm
          rcases hm with rfl | hm
          · exact List.mem_cons_of_mem _ (ih.mpr (Or.inl rfl))
          · rcases List.mem_cons.mp hm with rfl | hm
            · exact List.mem_cons_self _ _
            · exact List.mem_cons_of_mem _ (ih.mpr (Or.inr hm))

theorem hpush_sorted {h : List (Int × String)} {x : Int × String}
    (hs : List.Pairwise (fun a b => heapLe a b = true) h) :
    List.Pairwise (fun a b => heapLe a b = true) (hpush h x) := by
  induction h with
  | nil => simp [hpush]
  | cons z t ih =>
      unfold hpush
      rcases List.pairwise_cons.mp hs with ⟨hz, ht⟩
      split
      · rename_i hle
        refine List.pairwise_cons.mpr ⟨?_, hs⟩
        intro b hb
        rcases List.mem_cons.mp hb with rfl | hb
        · exact hle
        · exact heapLe_trans hle (hz b hb)
      · rename_i hnle
        have hzx : heapLe z x = true := by
          rcases heapLe_total x z with h1 | h1
          · exact absurd h1 (by simpa using hnle)
          · exact h1
        refine List.pairwise_cons.mpr ⟨?_, ih ht⟩
        intro b hb
        rcases mem_hpush.mp hb with rfl | hb
        · exact hzx
        · exact hz b hb

/-! ## Structure of the built adjacency index -/

theorem mem_adjGet_adjAppend_inv {adj : Adj} {k0 k : String}
    {v p : String × Edge} (h : p ∈ adjGet (adjAppend adj k0 v) k) :
    p ∈ adjGet adj k ∨ (k = k0 ∧ p = v) := by
  by_cases hk : k = k0
  · subst hk
    rw [adjGet_adjAppend_same] at h
    rcases List.mem_append.mp h with h | h
    · exact Or.inl h
    · exact Or.inr ⟨rfl, List.mem_singleton.mp h⟩
  · rw [adjGet_adjAppend_other adj k0 v hk] at h
    exact Or.inl h

theorem adjGet_fold_cases :
    ∀ (l : List Edge) (adj : Adj) (k : String) (p : String × Edge),
      p ∈ adjGet (l.foldl adjStep adj) k →
      p ∈ adjGet adj k ∨
        ∃ e ∈ l, (k = e.from_id ∧ p = (e.to_id, e)) ∨
          (k = e.to_id ∧ p = (e.from_id, reverseEdge e)) := by
  intro l
  induction l with
  | nil => intro adj k p h; exact Or.inl h
  | cons e t ih =>
      intro adj k p h
      rw [List.foldl_cons] at h
      rcases ih _ k p h with h' | ⟨f, hf, hc⟩
      · unfold adjStep at h'
        rcases mem_adjGet_adjAppend_inv h' with h'' | ⟨hk, hp⟩
        · rcases mem_adjGet_adjAppend_inv h'' with h3 | ⟨hk, hp⟩
          · exact Or.inl h3
          · exact Or.inr ⟨e, List.mem_cons_self _ _, Or.inl ⟨hk, hp⟩⟩
        · exact Or.inr ⟨e, List.mem_cons_self _ _, Or.inr ⟨hk, hp⟩⟩
      · exact Or.inr ⟨f, List.mem_cons_of_mem _ hf, hc⟩

theorem build_adjacency_wf (store : Store) :
    ∀ k q, q ∈ adjGet (build_adjacency store) k →
      q.2.from_id = k ∧ q.2.to_id = q.1 := by
  intro k q h
  rw [build_adjacency_eq_fold] at h
  rcases adjGet_fold_cases _ [] k q h with h' | ⟨e, _, hc⟩
  · rw [show adjGet [] k = [] from rfl] at h'
    cases h'
  · rcases hc with ⟨hk, hp⟩ | ⟨hk, hp⟩ <;> subst hk <;> subst hp <;>
      exact ⟨rfl, rfl⟩

theorem build_adjacency_symm (store : Store) :
    ∀ k q, q ∈ adjGet (build_adjacency store) k →
      ∃ e', (k, e') ∈ adjGet (build_adjacency store) q.1 ∧
        e'.weight = q.2.weight := by
  intro k q h
  rw [build_adjacency_eq_fold] at h
  rcases adjGet_fold_cases _ [] k q h with h' | ⟨e, he, hc⟩
  · rw [show adjGet [] k = [] from rfl] at h'
    cases h'
  · have hboth := mem_adjGet_of_mem_fold (get_edges_by_type store "fk") [] he
    rw [build_adjacency_eq_fold]
    rcases hc with ⟨hk, hp⟩ | ⟨hk, hp⟩ <;> subst hk <;> subst hp
    · exact ⟨reverseEdge e, hboth.2, rfl⟩
    · exact ⟨e, hboth.1, rfl⟩

theorem build_adjacency_nonneg (store : Store)
    (h : ∀ e ∈ store.edges, e.type = "fk" → 0 ≤ e.weight) :
    ∀ k q, q ∈ adjGet (build_adjacency store) k → 0 ≤ q.2.weight := by
  intro k q hq
  rw [build_adjacency_eq_fold] at hq
  rcases adjGet_fold_cases _ [] k q hq with h' | ⟨e, he, hc⟩
  · rw [show adjGet [] k = [] from rfl] at h'
    cases h'
  · have hmem := List.mem_filter.mp he
    have hw : 0 ≤ e.weight := h e hmem.1 (by simpa using hmem.2)
    rcases hc with ⟨_, hp⟩ | ⟨_, hp⟩ <;> subst hp
    · exact hw
    · exact hw

/-! ## The search-loop invariant -/

/-- State invariant of the shortest-path loop for source `s` and target
`t` over adjacency `adj`. Closure facts are guarded by `u ≠ t` because
settling the target ends the loop before its neighbours are relaxed. -/
structure CoreInv (adj : Adj) (s t : String) (st : DState) : Prop where
  visNodup : st.visited.Nodup
  visS : s ∈ st.visited ∨
    (st.visited = [] ∧ st.dist = [(s, 0)] ∧ st.prev = [] ∧
      st.heap = [(0, s)])
  sDist : alookup st.dist s = some 0
  sPrev : alookup st.prev s = none
  distPrev : ∀ v d, alookup st.dist v = some d → v ≠ s →
    ∃ pe, alookup st.prev v = some pe
  prevAdj : ∀ v u e, alookup st.prev v = some (u, e) → (v, e) ∈ adjGet adj u
  prevDist : ∀ v u e, alookup st.prev v = some (u, e) →
    ∃ du dv, alookup st.dist u = some du ∧ alookup st.dist v = some dv ∧
      dv = du + e.weight
  prevVis : ∀ v u e, alookup st.prev v = some (u, e) → u ∈ st.visited
  prevRank : ∀ v u e, alookup st.prev v = some (u, e) → v ∈ st.visited →
    st.visited.indexOf u < st.visited.indexOf v
  visDist : ∀ v ∈ st.visited, ∃ d, alookup st.dist v = some d
  heapDist : ∀ d v, (d, v) ∈ st.heap →
    ∃ dv, alookup st.dist v = some dv ∧ dv ≤ d
  heapCover : ∀ v d, alookup st.dist v = some d → v ∉ st.visited →
    (d, v) ∈ st.heap
  heapSorted : List.Pairwise (fun a b => heapLe a b = true) st.heap
  distSound : ∀ v d, alookup st.dist v = some d →
    ∃ p E, Links adj s p E v ∧ sumW E = d
  visClosed : ∀ u, u ∈ st.visited → u ≠ t → ∀ q, q ∈ adjGet adj u →
    ∃ dn, alookup st.dist q.1 = some dn ∧
      (q.1 ∉ st.visited → ∃ du, alookup st.dist u = some du ∧
        dn ≤ du + q.2.weight)

/-- Optimality side of the invariant: settled labels are minimal among
walk weights. -/
def OptInv (adj : Adj) (s : String) (st : DState) : Prop :=
  ∀ v, v ∈ st.visited → ∀ dv, alookup st.dist v = some dv →
    ∀ p E, Links adj s p E v → dv ≤ sumW E

theorem coreInv_init (adj : Adj) (s t : String) :
    CoreInv adj s t (initState s) := by
  refine ⟨List.nodup_nil, Or.inr ⟨rfl, rfl, rfl, rfl⟩, ?_, rfl, ?_, ?_, ?_,
    ?_, ?_, ?_, ?_, ?_, ?_, ?_, ?_⟩
  · simp [initState, alookup]
  · intro v d hd hvs
    simp only [initState, alookup] at hd
    split at hd
    · rename_i hsv
      exact absurd hsv.symm hvs
    · cases hd
  · intro v u e h
    simp [initState, alookup] at h
  · intro v u e h
    simp [initState, alookup] at h
  · intro v u e h
    simp [initState, alookup] at h
  · intro v u e h
    simp [initState, alookup] at h
  · intro v hv
    simp [initState] at hv
  · intro d v h
    simp only [initState, List.mem_singleton] at h
    have h1 : d = 0 := congrArg Prod.fst h
    have h2 : v = s := congrArg Prod.snd h
    subst h2
    exact ⟨0, by simp [initState, alookup], by omega⟩
  · intro v d hd _
    simp only [initState, alookup] at hd
    split at hd
    · rename_i hsv
      injection hd with h0
      subst hsv
      rw [← h0]
      simp [initState]
    · cases hd
  · simp [initState]
  · intro v d hd
    simp only [initState, alookup] at hd
    split at hd
    · rename_i hsv
      injection hd with h0
      subst hsv
      rw [← h0]
      exact ⟨[s], [], Links.nil s, rfl⟩
    · cases hd
  · intro u hu
    simp [initState] at hu

theorem optInv_init (adj : Adj) (s : String) : OptInv adj s (initState s) := by
  intro v hv
  simp [initState] at hv

/-! ## Relaxation characterisation -/

theorem relaxStep_cases (cd : Int) (c : String) (st : DState)
    (ne : String × Edge) :
    (ne.1 ∈ st.visited ∧ relaxStep cd c st ne = st) ∨
      (ne.1 ∉ st.visited ∧
        (∃ d0, alookup st.dist ne.1 = some d0 ∧ d0 ≤ cd + ne.2.weight) ∧
        relaxStep cd c st ne = st) ∨
      (ne.1 ∉ st.visited ∧
        (alookup st.dist ne.1 = none ∨
          ∃ d0, alookup st.dist ne.1 = some d0 ∧ cd + ne.2.weight < d0) ∧
        relaxStep cd c st ne =
          { st with dist := aupdate st.dist ne.1 (cd + ne.2.weight)
                    prev := aupdate st.prev ne.1 (c, ne.2)
                    heap := hpush st.heap (cd + ne.2.weight, ne.1) }) := by
  unfold relaxStep
  by_cases hv : ne.1 ∈ st.visited
  · rw [if_pos hv]
    exact Or.inl ⟨hv, rfl⟩
  · rw [if_neg hv]
    dsimp only
    cases hd : alookup st.dist ne.1 with
    | none =>
        rw [if_pos rfl]
        exact Or.inr (Or.inr ⟨hv, Or.inl rfl, rfl⟩)
    | some d0 =>
        by_cases hlt : cd + ne.2.weight < d0
        · rw [if_pos (by simpa using hlt)]
          exact Or.inr (Or.inr ⟨hv, Or.inr ⟨d0, rfl, hlt⟩, rfl⟩)
        · rw [if_neg (by simpa using hlt)]
          exact Or.inr (Or.inl ⟨hv, ⟨d0, rfl, by omega⟩, rfl⟩)

/-- Invariant carried through the relaxation of the neighbours of the
just-settled node `c`, whose settled label is `cd`; `done` lists the
neighbour entries already processed. -/
structure RelaxInv (adj : Adj) (s t c : String) (cd : Int)
    (done : List (String × Edge)) (st : DState) : Prop where
  visNodup : st.visited.Nodup
  sDist : alookup st.dist s = some 0
  sPrev : alookup st.prev s = none
  distPrev : ∀ v d, alookup st.dist v = some d → v ≠ s →
    ∃ pe, alookup st.prev v = some pe
  prevAdj : ∀ v u e, alookup st.prev v = some (u, e) → (v, e) ∈ adjGet adj u
  prevDist : ∀ v u e, alookup st.prev v = some (u, e) →
    ∃ du dv, alookup st.dist u = some du ∧ alookup st.dist v = some dv ∧
      dv = du + e.weight
  prevVis : ∀ v u e, alookup st.prev v = some (u, e) → u ∈ st.visited
  prevRank : ∀ v u e, alookup st.prev v = some (u, e) → v ∈ st.visited →
    st.visited.indexOf u < st.visited.indexOf v
  visDist : ∀ v ∈ st.visited, ∃ d, alookup st.dist v = some d
  heapDist : ∀ d v, (d, v) ∈ st.heap →
    ∃ dv, alookup st.dist v = some dv ∧ dv ≤ d
  heapCover : ∀ v d, alookup st.dist v = some d → v ∉ st.visited →
    (d, v) ∈ st.heap
  heapSorted : List.Pairwise (fun a b => heapLe a b = true) st.heap
  distSound : ∀ v d, alookup st.dist v = some d →
    ∃ p E, Links adj s p E v ∧ sumW E = d
  visClosedOld : ∀ u, u ∈ st.visited → u ≠ t → u ≠ c → ∀ q, q ∈ adjGet adj u →
    ∃ dn, alookup st.dist q.1 = some dn ∧
      (q.1 ∉ st.visited → ∃ du, alookup st.dist u = some du ∧
        dn ≤ du + q.2.weight)
  doneBound : ∀ q, q ∈ done → ∃ dn, alookup st.dist q.1 = some dn ∧
    (q.1 ∉ st.visited → dn ≤ cd + q.2.weight)
  cIn : c ∈ st.visited
  sIn : s ∈ st.visited
  cDist : alookup st.dist c = some cd

theorem relaxStep_relaxInv {adj : Adj} {s t c : String} {cd : Int}
    {done : List (String × Edge)} {st : DState} {q : String × Edge}
    (hyp : RelaxInv adj s t c cd done st) (hq : q ∈ adjGet adj c) :
    RelaxInv adj s t c cd (done ++ [q]) (relaxStep cd c st q) := by
  obtain ⟨n, e⟩ := q
  rcases relaxStep_cases cd c st (n, e) with ⟨hv, heq⟩ |
    ⟨hv, ⟨d0, hd0, hle⟩, heq⟩ | ⟨hv, himp, heq⟩
  · rw [heq]
    refine { hyp with doneBound := ?_ }
    intro q' hq'
    rcases List.mem_append.mp hq' with hq' | hq'
    · exact hyp.doneBound q' hq'
    · rw [List.mem_singleton.mp hq']
      obtain ⟨dn, hdn⟩ := hyp.visDist n hv
      exact ⟨dn, hdn, fun hnv => absurd hv hnv⟩
  · rw [heq]
    refine { hyp with doneBound := ?_ }
    intro q' hq'
    rcases List.mem_append.mp hq' with hq' | hq'
    · exact hyp.doneBound q' hq'
    · rw [List.mem_singleton.mp hq']
      exact ⟨d0, hd0, fun _ => hle⟩
  · -- the improving update
    dsimp only at hv himp heq
    have hns : n ≠ s := fun h => hv (h ▸ hyp.sIn)
    have hnc : n ≠ c := fun h => hv (h ▸ hyp.cIn)
    have hnoldnone : ∀ d0, alookup st.dist n = some d0 →
        cd + e.weight < d0 := by
      intro d0 hd0
      rcases himp with hnone | ⟨d1, hd1, hlt⟩
      · rw [hnone] at hd0; cases hd0
      · rw [hd1] at hd0
        injection hd0 with h0
        omega
    rw [heq]
    set nd := cd + e.weight with hnd
    refine ⟨hyp.visNodup, ?_, ?_, ?_, ?_, ?_, ?_, ?_, ?_, ?_, ?_, ?_, ?_,
      ?_, ?_, hyp.cIn, hyp.sIn, ?_⟩
    · show alookup (aupdate st.dist n nd) s = some 0
      rw [alookup_aupdate_ne _ _ hns.symm]
      exact hyp.sDist
    · show alookup (aupdate st.prev n (c, e)) s = none
      rw [alookup_aupdate_ne _ _ hns.symm]
      exact hyp.sPrev
    · intro v d hvd hvs
      show ∃ pe, alookup (aupdate st.prev n (c, e)) v = some pe
      by_cases hvn : v = n
      · subst hvn
        exact ⟨(c, e), alookup_aupdate_self _ _ _⟩
      · rw [alookup_aupdate_ne _ _ hvn]
        rw [show alookup (aupdate st.dist n nd) v = alookup st.dist v from
          alookup_aupdate_ne _ _ hvn] at hvd
        exact hyp.distPrev v d hvd hvs
    · intro v u e' hpv
      by_cases hvn : v = n
      · subst hvn
        rw [alookup_aupdate_self] at hpv
        injection hpv with h1
        have hu : u = c := (congrArg Prod.fst h1).symm
        have he : e' = e := (congrArg Prod.snd h1).symm
        subst hu; subst he
        exact hq
      · rw [alookup_aupdate_ne _ _ hvn] at hpv
        exact hyp.prevAdj v u e' hpv
    · intro v u e' hpv
      by_cases hvn : v = n
      · subst hvn
        rw [alookup_aupdate_self] at hpv
        injection hpv with h1
        have hu : u = c := (congrArg Prod.fst h1).symm
        have he : e' = e := (congrArg Prod.snd h1).symm
        subst hu; subst he
        refine ⟨cd, nd, ?_, alookup_aupdate_self _ _ _, rfl⟩
        rw [alookup_aupdate_ne _ _ hnc.symm]
        exact hyp.cDist
      · rw [alookup_aupdate_ne _ _ hvn] at hpv
        obtain ⟨du, dv, hdu, hdv, hw⟩ := hyp.prevDist v u e' hpv
        have hun : u ≠ n := fun h => hv (h ▸ hyp.prevVis v u e' hpv)
        refine ⟨du, dv, ?_, ?_, hw⟩
        · rw [alookup_aupdate_ne _ _ hun]; exact hdu
        · rw [alookup_aupdate_ne _ _ hvn]; exact hdv
    · intro v u e' hpv
      by_cases hvn : v = n
      · subst hvn
        rw [alookup_aupdate_self] at hpv
        injection hpv with h1
        have hu : u = c := (congrArg Prod.fst h1).symm
        subst hu
        exact hyp.cIn
      · rw [alookup_aupdate_ne _ _ hvn] at hpv
        exact hyp.prevVis v u e' hpv
    · intro v u e' hpv hvv
      by_cases hvn : v = n
      · subst hvn
        exact absurd hvv hv
      · rw [alookup_aupdate_ne _ _ hvn] at hpv
        exact hyp.prevRank v u e' hpv hvv
    · intro v hvv
      have hvn : v ≠ n := fun h => hv (h ▸ hvv)
      obtain ⟨dd, hdd⟩ := hyp.visDist v hvv
      exact ⟨dd, by rw [alookup_aupdate_ne _ _ hvn]; exact hdd⟩
    · intro d v hm
      rcases mem_hpush.mp hm with hm | hm
      · have h1 : d = nd := congrArg Prod.fst hm
        have h2 : v = n := congrArg Prod.snd hm
        subst h2
        exact ⟨nd, alookup_aupdate_self _ _ _, by omega⟩
      · obtain ⟨dv, hdv, hdvle⟩ := hyp.heapDist d v hm
        by_cases hvn : v = n
        · subst hvn
          have := hnoldnone dv hdv
          exact ⟨nd, alookup_aupdate_self _ _ _, by omega⟩
        · exact ⟨dv, by rw [alookup_aupdate_ne _ _ hvn]; exact hdv, hdvle⟩
    · intro v d hvd hvv
      by_cases hvn : v = n
      · subst hvn
        rw [alookup_aupdate_self] at hvd
        injection hvd with h0
        rw [← h0]
        exact mem_hpush.mpr (Or.inl rfl)
      · rw [alookup_aupdate_ne _ _ hvn] at hvd
        exact mem_hpush.mpr (Or.inr (hyp.heapCover v d hvd hvv))
    · exact hpush_sorted hyp.heapSorted
    · intro v d hvd
      by_cases hvn : v = n
      · subst hvn
        rw [alookup_aupdate_self] at hvd
        injection hvd with h0
        obtain ⟨p, E, hl, hsw⟩ := hyp.distSound c cd hyp.cDist
        refine ⟨p ++ [v], E ++ [e], hl.snoc hq, ?_⟩
        rw [sumW_append, sumW_cons, sumW_nil, hsw, ← h0]
        omega
      · rw [alookup_aupdate_ne _ _ hvn] at hvd
        exact hyp.distSound v d hvd
    · intro u hu hut huc q' hq'
      obtain ⟨dn, hdn, hbound⟩ := hyp.visClosedOld u hu hut huc q' hq'
      have hun : u ≠ n := fun h => hv (h ▸ hu)
      by_cases hqn : q'.1 = n
      · refine ⟨nd, by rw [hqn]; exact alookup_aupdate_self _ _ _, ?_⟩
        intro hnv
        obtain ⟨du, hdu, hdnle⟩ := hbound (by rw [hqn]; exact hv)
        have := hnoldnone dn (hqn ▸ hdn)
        exact ⟨du, by rw [alookup_aupdate_ne _ _ hun]; exact hdu, by omega⟩
      · refine ⟨dn, by rw [alookup_aupdate_ne _ _ hqn]; exact hdn, ?_⟩
        intro hnv
        obtain ⟨du, hdu, hdnle⟩ := hbound hnv
        exact ⟨du, by rw [alookup_aupdate_ne _ _ hun]; exact hdu, hdnle⟩
    · intro q' hq'
      rcases List.mem_append.mp hq' with hq' | hq'
      · obtain ⟨dn, hdn, hbound⟩ := hyp.doneBound q' hq'
        by_cases hqn : q'.1 = n
        · refine ⟨nd, by rw [hqn]; exact alookup_aupdate_self _ _ _, ?_⟩
          intro _
          have := hnoldnone dn (hqn ▸ hdn)
          have hb := hbound (by rw [hqn]; exact hv)
          omega
        · exact ⟨dn, by rw [alookup_aupdate_ne _ _ hqn]; exact hdn, hbound⟩
      · rw [List.mem_singleton.mp hq']
        exact ⟨nd, alookup_aupdate_self _ _ _, fun _ => le_of_eq hnd⟩
    · show alookup (aupdate st.dist n nd) c = some cd
      rw [alookup_aupdate_ne _ _ hnc.symm]
      exact hyp.cDist

theorem relaxFold_relaxInv {adj : Adj} {s t c : String} {cd : Int} :
    ∀ (l done : List (String × Edge)) (st : DState),
      RelaxInv adj s t c cd done st → (∀ q ∈ l, q ∈ adjGet adj c) →
      RelaxInv adj s t c cd (done ++ l)
        (l.foldl (relaxStep cd c) st) := by
  intro l
  induction l with
  | nil => intro done st h _; simpa using h
  | cons x rest ih =>
      intro done st h hl
      rw [List.foldl_cons]
      have hstep := relaxStep_relaxInv h (hl x (List.mem_cons_self _ _))
      have := ih (done ++ [x]) (relaxStep cd c st x) hstep
        (fun q hq => hl q (List.mem_cons_of_mem _ hq))
      simpa using this

/-! ## Settling the popped node -/

theorem heap_head_le {st : DState} {d : Int} {c : String}
    {rest : List (Int × String)}
    (hs : List.Pairwise (fun a b => heapLe a b = true) st.heap)
    (hh : st.heap = (d, c) :: rest) :
    ∀ q ∈ st.heap, q = (d, c) ∨ heapLe (d, c) q = true := by
  intro q hq
  rw [hh] at hq hs
  rcases List.mem_cons.mp hq with rfl | hq
  · exact Or.inl rfl
  · exact Or.inr ((List.pairwise_cons.mp hs).1 q hq)

theorem pop_dist_eq {adj : Adj} {s t : String} {st : DState} {d : Int}
    {c : String} {rest : List (Int × String)}
    (hInv : CoreInv adj s t st) (hh : st.heap = (d, c) :: rest)
    (hc : c ∉ st.visited) : alookup st.dist c = some d := by
  obtain ⟨dc, hdc, hdcle⟩ := hInv.heapDist d c
    (by rw [hh]; exact List.mem_cons_self _ _)
  have hcov := hInv.heapCover c dc hdc hc
  rcases heap_head_le hInv.heapSorted hh (dc, c) hcov with heq | hle
  · have : dc = d := congrArg Prod.fst heq
    rw [hdc, this]
  · have := heapLe_fst_le hle
    have : dc = d := by omega
    rw [hdc, this]

theorem skip_coreInv {adj : Adj} {s t : String} {st : DState} {d : Int}
    {c : String} {rest : List (Int × String)}
    (hInv : CoreInv adj s t st) (hh : st.heap = (d, c) :: rest)
    (hc : c ∈ st.visited) :
    CoreInv adj s t { st with heap := rest } := by
  obtain ⟨f1, f2, f3, f4, f5, f6, f7, f8, f9, f10, f11, f12, f13, f14, f15⟩ :=
    hInv
  refine ⟨f1, ?_, f3, f4, f5, f6, f7, f8, f9, f10, ?_, ?_, ?_, f14, f15⟩
  · rcases f2 with h | ⟨h1, h2, h3, h4⟩
    · exact Or.inl h
    · rw [h1] at hc
      cases hc
  · intro d' v hm
    exact f11 d' v (by rw [hh]; exact List.mem_cons_of_mem _ hm)
  · intro v dv hdv hvv
    have := f12 v dv hdv hvv
    rw [hh] at this
    rcases List.mem_cons.mp this with heq | hm
    · have : v = c := congrArg Prod.snd heq
      exact absurd (this ▸ hc) hvv
    · exact hm
  · rw [hh] at f13
    exact (List.pairwise_cons.mp f13).2

theorem relaxInv_start {adj : Adj} {s t : String} {st : DState} {d : Int}
    {c : String} {rest : List (Int × String)}
    (hInv : CoreInv adj s t st) (hh : st.heap = (d, c) :: rest)
    (hc : c ∉ st.visited) :
    RelaxInv adj s t c d []
      { st with heap := rest, visited := st.visited ++ [c] } := by
  have hcd : alookup st.dist c = some d := pop_dist_eq hInv hh hc
  refine ⟨?_, hInv.sDist, hInv.sPrev, hInv.distPrev, hInv.prevAdj,
    hInv.prevDist, ?_, ?_, ?_, ?_, ?_, ?_, hInv.distSound, ?_, ?_, ?_, ?_,
    hcd⟩
  · show (st.visited ++ [c]).Nodup
    rw [List.nodup_append]
    exact ⟨hInv.visNodup, List.nodup_singleton c,
      fun a ha hb => (List.mem_singleton.mp hb ▸ hc) ha⟩
  · intro v u e hp
    exact List.mem_append_left _ (hInv.prevVis v u e hp)
  · intro v u e hp hvv
    have hu := hInv.prevVis v u e hp
    rw [List.indexOf_append_of_mem hu]
    rcases List.mem_append.mp hvv with hvv | hvv
    · rw [List.indexOf_append_of_mem hvv]
      exact hInv.prevRank v u e hp hvv
    · have hvc : v = c := List.mem_singleton.mp hvv
      subst hvc
      rw [List.indexOf_append_of_not_mem hc]
      have := List.indexOf_lt_length.mpr hu
      simp only [List.indexOf_cons_self]
      omega
  · intro v hvv
    rcases List.mem_append.mp hvv with hvv | hvv
    · exact hInv.visDist v hvv
    · rw [List.mem_singleton.mp hvv]
      exact ⟨d, hcd⟩
  · intro d' v hm
    exact hInv.heapDist d' v (by rw [hh]; exact List.mem_cons_of_mem _ hm)
  · intro v dv hdv hvv
    have hvold : v ∉ st.visited := fun h => hvv (List.mem_append_left _ h)
    have hvc : v ≠ c := fun h =>
      hvv (h ▸ List.mem_append_right _ (List.mem_singleton.mpr rfl))
    have := hInv.heapCover v dv hdv hvold
    rw [hh] at this
    rcases List.mem_cons.mp this with heq | hm
    · exact absurd (congrArg Prod.snd heq) hvc
    · exact hm
  · have hs := hInv.heapSorted
    rw [hh] at hs
    exact (List.pairwise_cons.mp hs).2
  · intro u hu hut huc q hq
    rcases List.mem_append.mp hu with hu | hu
    · obtain ⟨dn, hdn, hbound⟩ := hInv.visClosed u hu hut q hq
      refine ⟨dn, hdn, fun hq1 => ?_⟩
      exact hbound (fun h => hq1 (List.mem_append_left _ h))
    · exact absurd (List.mem_singleton.mp hu) huc
  · intro q hq
    cases hq
  · exact List.mem_append_right _ (List.mem_singleton.mpr rfl)
  · rcases hInv.visS with h | ⟨h1, h2, h3, h4⟩
    · exact List.mem_append_left _ h
    · have : (d, c) = (0, s) := by
        rw [h4] at hh
        exact (List.cons.injEq .. ▸ hh.symm).1
      have hcs : c = s := congrArg Prod.snd this
      rw [h1]
      exact hcs ▸ List.mem_append_right _ (List.mem_singleton.mpr rfl)

theorem coreInv_of_relaxInv {adj : Adj} {s t c : String} {cd : Int}
    {st : DState} (h : RelaxInv adj s t c cd (adjGet adj c) st) :
    CoreInv adj s t st := by
  refine ⟨h.visNodup, Or.inl h.sIn, h.sDist, h.sPrev, h.distPrev, h.prevAdj,
    h.prevDist, h.prevVis, h.prevRank, h.visDist, h.heapDist, h.heapCover,
    h.heapSorted, h.distSound, ?_⟩
  intro u hu hut q hq
  by_cases huc : u = c
  · subst huc
    obtain ⟨dn, hdn, hbound⟩ := h.doneBound q hq
    exact ⟨dn, hdn, fun hq1 => ⟨cd, h.cDist, hbound hq1⟩⟩
  · exact h.visClosedOld u hu hut huc q hq

theorem break_coreInv {adj : Adj} {s : String} {st : DState} {d : Int}
    {c : String} {rest : List (Int × String)}
    (hInv : CoreInv adj s c st) (hh : st.heap = (d, c) :: rest)
    (hc : c ∉ st.visited) :
    CoreInv adj s c { st with heap := rest, visited := st.visited ++ [c] } := by
  have h := relaxInv_start hInv hh hc
  refine ⟨h.visNodup, Or.inl h.sIn, h.sDist, h.sPrev, h.distPrev, h.prevAdj,
    h.prevDist, h.prevVis, h.prevRank, h.visDist, h.heapDist, h.heapCover,
    h.heapSorted, h.distSound, ?_⟩
  intro u hu hut q hq
  have huc : u ≠ c := hut
  exact h.visClosedOld u hu hut huc q hq

theorem expand_coreInv {adj : Adj} {s t : String} {st : DState} {d : Int}
    {c : String} {rest : List (Int × String)}
    (hInv : CoreInv adj s t st) (hh : st.heap = (d, c) :: rest)
    (hc : c ∉ st.visited) :
    CoreInv adj s t
      (relaxAll adj d c { st with heap := rest
                                  visited := st.visited ++ [c] }) := by
  have h0 := relaxInv_start hInv hh hc
  have hfold := relaxFold_relaxInv (adjGet adj c) [] _ h0 (fun q hq => hq)
  rw [List.nil_append] at hfold
  exact coreInv_of_relaxInv hfold

/-! ## Loop preservation -/

theorem loopF_coreInv (adj : Adj) (s t : String) :
    ∀ (fuel : Nat) (st : DState), CoreInv adj s t st →
      CoreInv adj s t (dijkstraLoopF adj t fuel st) := by
  intro fuel
  induction fuel with
  | zero => intro st h; exact h
  | succ f ih =>
      intro st h
      cases hh : st.heap with
      | nil => simpa [dijkstraLoopF, hh] using h
      | cons e rest =>
          obtain ⟨d, current⟩ := e
          simp only [dijkstraLoopF, hh]
          by_cases hv : current ∈ st.visited
          · simp only [if_pos hv]
            exact ih _ (skip_coreInv h hh hv)
          · simp only [if_neg hv]
            by_cases ht : current = t
            · simp only [if_pos ht]
              subst ht
              exact break_coreInv h hh hv
            · simp only [if_neg ht]
              exact ih _ (expand_coreInv h hh hv)

theorem loopF_end (adj : Adj) (t : String) :
    ∀ (fuel : Nat) (st : DState), loopMeasure adj st < fuel →
      (dijkstraLoopF adj t fuel st).heap = [] ∨
        t ∈ (dijkstraLoopF adj t fuel st).visited := by
  intro fuel
  induction fuel with
  | zero => intro st h; omega
  | succ f ih =>
      intro st h
      cases hh : st.heap with
      | nil => simp [dijkstraLoopF, hh]
      | cons e rest =>
          obtain ⟨d, current⟩ := e
          simp only [dijkstraLoopF, hh]
          by_cases hv : current ∈ st.visited
          · simp only [if_pos hv]
            apply ih
            have := loopMeasure_skip_lt adj hh
            omega
          · simp only [if_neg hv]
            by_cases ht : current = t
            · simp only [if_pos ht]
              subst ht
              exact Or.inr (List.mem_append_right _ (List.mem_singleton.mpr rfl))
            · simp only [if_neg ht]
              apply ih
              have := loopMeasure_expand_lt adj hh hv
              omega

theorem relaxFold_dist_visited (cd : Int) (c : String) :
    ∀ (l : List (String × Edge)) (st : DState) (v : String),
      v ∈ st.visited →
      alookup ((l.foldl (relaxStep cd c) st).dist) v = alookup st.dist v := by
  intro l
  induction l with
  | nil => intro st v _; rfl
  | cons x rest ih =>
      intro st v hv
      rw [List.foldl_cons]
      have hvstep : v ∈ (relaxStep cd c st x).visited := by
        rw [relaxStep_visited]; exact hv
      rw [ih _ v hvstep]
      rcases relaxStep_cases cd c st x with ⟨_, heq⟩ | ⟨_, _, heq⟩ |
        ⟨hxv, _, heq⟩
      · rw [heq]
      · rw [heq]
      · rw [heq]
        dsimp only
        have hvx : v ≠ x.1 := fun h => hxv (h ▸ hv)
        exact alookup_aupdate_ne _ _ hvx

/-! ## Pop minimality under nonnegative weights -/

theorem popMin {adj : Adj} {s t : String} {st : DState} {d : Int}
    {c : String} {rest : List (Int × String)}
    (hInv : CoreInv adj s t st) (hOpt : OptInv adj s st)
    (hnn : ∀ k q, q ∈ adjGet adj k → 0 ≤ q.2.weight)
    (hh : st.heap = (d, c) :: rest) (hc : c ∉ st.visited)
    (htv : t ∉ st.visited) :
    ∀ (p : List String) (E : List Edge) (v : String), v ∉ st.visited →
      Links adj s p E v → d ≤ sumW E := by
  suffices hstrong : ∀ (n : Nat) (p : List String) (E : List Edge)
      (v : String), E.length = n → v ∉ st.visited →
      Links adj s p E v → d ≤ sumW E by
    intro p E v hv hl
    exact hstrong E.length p E v rfl hv hl
  intro n
  induction n using Nat.strong_induction_on with
  | _ n ih =>
      intro p E v hlen hv hl
      rcases hl.snocView with ⟨hp, hE, hva⟩ | ⟨p', E', u, e, hl', hm, hp, hE⟩
      · subst hE
        rw [sumW_nil]
        rcases hInv.visS with hs | ⟨h1, h2, h3, h4⟩
        · rw [hva] at hv
          exact absurd hs hv
        · rw [h4] at hh
          injection hh with hhead _
          have hd : (0 : Int) = d := congrArg Prod.fst hhead
          omega
      · subst hp
        subst hE
        by_cases hu : u ∈ st.visited
        · have hut : u ≠ t := fun h => htv (h ▸ hu)
          obtain ⟨dn, hdn, hbound⟩ := hInv.visClosed u hu hut (v, e) hm
          obtain ⟨du, hdu, hdnle⟩ := hbound hv
          dsimp only at hdnle
          have hopt := hOpt u hu du hdu p' E' hl'
          have hcov := hInv.heapCover v dn hdn hv
          have hdle : d ≤ dn := by
            rcases heap_head_le hInv.heapSorted hh (dn, v) hcov with heq | hle
            · have : dn = d := congrArg Prod.fst heq
              omega
            · exact heapLe_fst_le hle
          rw [sumW_append, sumW_cons, sumW_nil]
          omega
        · have hlen' : E'.length < n := by
            rw [← hlen]
            simp
          have hih := ih E'.length hlen' p' E' u rfl hu hl'
          have hw : 0 ≤ e.weight := hnn u (v, e) hm
          rw [sumW_append, sumW_cons, sumW_nil]
          omega

/-! ## Loop preservation of optimality -/

theorem loopF_optInv (adj : Adj) (s t : String)
    (hnn : ∀ k q, q ∈ adjGet adj k → 0 ≤ q.2.weight) :
    ∀ (fuel : Nat) (st : DState), CoreInv adj s t st → OptInv adj s st →
      t ∉ st.visited →
      OptInv adj s (dijkstraLoopF adj t fuel st) := by
  intro fuel
  induction fuel with
  | zero => intro st _ h _; exact h
  | succ f ih =>
      intro st hInv hOpt htv
      cases hh : st.heap with
      | nil => simpa [dijkstraLoopF, hh] using hOpt
      | cons e rest =>
          obtain ⟨d, current⟩ := e
          simp only [dijkstraLoopF, hh]
          by_cases hv : current ∈ st.visited
          · simp only [if_pos hv]
            exact ih _ (skip_coreInv hInv hh hv) hOpt htv
          · simp only [if_neg hv]
            have hmin := popMin hInv hOpt hnn hh hv htv
            have hcd : alookup st.dist current = some d :=
              pop_dist_eq hInv hh hv
            by_cases ht : current = t
            · simp only [if_pos ht]
              intro v hvv dv hdv p E hl
              dsimp only at hvv hdv
              rcases List.mem_append.mp hvv with hvv | hvv
              · exact hOpt v hvv dv hdv p E hl
              · have hvc : v = current := List.mem_singleton.mp hvv
                subst hvc
                rw [hcd] at hdv
                injection hdv with h0
                rw [← h0]
                exact hmin p E v hv hl
            · simp only [if_neg ht]
              have htv' : t ∉
                  (relaxAll adj d current
                    { st with heap := rest
                              visited := st.visited ++ [current] }).visited := by
                rw [relaxAll_visited]
                dsimp only
                intro hmem
                rcases List.mem_append.mp hmem with hmem | hmem
                · exact htv hmem
                · exact ht (List.mem_singleton.mp hmem).symm
              refine ih _ (expand_coreInv hInv hh hv) ?_ htv'
              intro v hvv dv hdv p E hl
              rw [relaxAll_visited] at hvv
              dsimp only at hvv
              have hfrozen := relaxFold_dist_visited d current
                (adjGet adj current)
                { st with heap := rest, visited := st.visited ++ [current] } v
                (by dsimp only; exact hvv)
              rw [show relaxAll adj d current
                  { st with heap := rest, visited := st.visited ++ [current] } =
                  (adjGet adj current).foldl (relaxStep d current)
                    { st with heap := rest
                              visited := st.visited ++ [current] } from rfl]
                at hdv
              rw [hfrozen] at hdv
              dsimp only at hdv
              rcases List.mem_append.mp hvv with hvv | hvv
              · exact hOpt v hvv dv hdv p E hl
              · have hvc : v = current := List.mem_singleton.mp hvv
                subst hvc
                rw [hcd] at hdv
                injection hdv with h0
                rw [← h0]
                exact hmin p E v hv hl

/-! ## Reconstruction of the found path -/

theorem sumW_reverse (E : List Edge) : sumW E.reverse = sumW E := by
  unfold sumW
  rw [List.map_reverse, List.sum_reverse]

theorem alookup_some_mem_keys {α : Type} {l : List (String × α)}
    {k : String} {v : α} (h : alookup l k = some v) :
    k ∈ l.map Prod.fst := by
  by_contra hc
  rw [alookup_eq_none_of_not_mem hc] at h
  cases h

theorem nodup_subset_length {S T : List String} (hnd : S.Nodup)
    (hsub : ∀ x ∈ S, x ∈ T) : S.length ≤ T.length := by
  have h1 : S.toFinset.card = S.length := List.toFinset_card_of_nodup hnd
  have h2 : T.toFinset.card ≤ T.length := List.toFinset_card_le T
  have hsub' : S.toFinset ⊆ T.toFinset := by
    intro x hx
    rw [List.mem_toFinset] at hx ⊢
    exact hsub x hx
  have := Finset.card_le_card hsub'
  omega

theorem nodup_length_le_filter {l : List String} (hnd : l.Nodup)
    (s : String) :
    l.length ≤ (l.filter (fun v => decide (v ≠ s))).length + 1 := by
  induction l with
  | nil => simp
  | cons a t ih =>
      rcases List.nodup_cons.mp hnd with ⟨hna, hndt⟩
      by_cases has : a = s
      · subst has
        have hfil : t.filter (fun v => decide (v ≠ a)) = t :=
          List.filter_eq_self.mpr (fun x hx => by
            simp only [decide_eq_true_eq]
            exact fun he => hna (he ▸ hx))
        rw [List.filter_cons, if_neg (by simp), hfil]
        simp
      · have ht := ih hndt
        rw [List.filter_cons, if_pos (by simp [has])]
        simp only [List.length_cons]
        omega

theorem prev_none_eq_s {adj : Adj} {s t : String} {st : DState}
    (hInv : CoreInv adj s t st) {v : String} (hv : v ∈ st.visited)
    (hnone : alookup st.prev v = none) : v = s := by
  by_contra hne
  obtain ⟨d, hd⟩ := hInv.visDist v hv
  obtain ⟨pe, hpe⟩ := hInv.distPrev v d hd hne
  rw [hnone] at hpe
  cases hpe

theorem reconstruct_none {prev : List (String × (String × Edge))}
    {v : String} (hnone : alookup prev v = none) :
    ∀ fuel, reconstruct prev fuel v = ([], []) := by
  intro fuel
  cases fuel with
  | zero => rfl
  | succ f => simp [reconstruct, hnone]

theorem reconstruct_chain {adj : Adj} {s t : String} {st : DState}
    (hInv : CoreInv adj s t st) :
    ∀ n v fuel, v ∈ st.visited → st.visited.indexOf v ≤ n →
      st.visited.indexOf v ≤ fuel →
      ∃ dv, alookup st.dist v = some dv ∧
        Links adj s (((reconstruct st.prev fuel v).1 ++ [s]).reverse)
          ((reconstruct st.prev fuel v).2.reverse) v ∧
        sumW (reconstruct st.prev fuel v).2 = dv := by
  intro n
  induction n with
  | zero =>
      intro v fuel hv _ _
      cases hpv : alookup st.prev v with
      | none =>
          have hvs := prev_none_eq_s hInv hv hpv
          subst hvs
          rw [reconstruct_none hpv fuel]
          exact ⟨0, hInv.sDist, by simpa using Links.nil v, rfl⟩
      | some pe =>
          obtain ⟨u, e⟩ := pe
          have hrank := hInv.prevRank v u e hpv hv
          omega
  | succ m ih =>
      intro v fuel hv hn hfuel
      cases hpv : alookup st.prev v with
      | none =>
          have hvs := prev_none_eq_s hInv hv hpv
          subst hvs
          rw [reconstruct_none hpv fuel]
          exact ⟨0, hInv.sDist, by simpa using Links.nil v, rfl⟩
      | some pe =>
          obtain ⟨u, e⟩ := pe
          have hrank := hInv.prevRank v u e hpv hv
          have hu := hInv.prevVis v u e hpv
          cases fuel with
          | zero => omega
          | succ f =>
              have hun : st.visited.indexOf u ≤ m := by omega
              have huf : st.visited.indexOf u ≤ f := by omega
              obtain ⟨du, hdu, hlinks, hsum⟩ := ih u f hu hun huf
              obtain ⟨du', dv, hdu', hdv, heq⟩ := hInv.prevDist v u e hpv
              have hdu2 : du' = du := by
                rw [hdu] at hdu'
                exact (Option.some_inj.mp hdu').symm
              subst hdu2
              have hadj := hInv.prevAdj v u e hpv
              refine ⟨dv, hdv, ?_, ?_⟩
              · have hstep : reconstruct st.prev (f + 1) v =
                    (v :: (reconstruct st.prev f u).1,
                     e :: (reconstruct st.prev f u).2) := by
                  simp [reconstruct, hpv]
                rw [hstep]
                have hsnoc := Links.snoc hlinks hadj
                simpa using hsnoc
              · have hstep : reconstruct st.prev (f + 1) v =
                    (v :: (reconstruct st.prev f u).1,
                     e :: (reconstruct st.prev f u).2) := by
                  simp [reconstruct, hpv]
                rw [hstep]
                rw [show (v :: (reconstruct st.prev f u).1,
                     e :: (reconstruct st.prev f u).2).2 =
                     e :: (reconstruct st.prev f u).2 from rfl]
                rw [sumW_cons, hsum]
                omega

theorem visited_length_le {adj : Adj} {s t : String} {st : DState}
    (hInv : CoreInv adj s t st) :
    st.visited.length ≤ st.prev.length + 1 := by
  have hsub : ∀ x ∈ st.visited.filter (fun v => decide (v ≠ s)),
      x ∈ st.prev.map Prod.fst := by
    intro x hx
    have hmem := (List.mem_filter.mp hx).1
    have hxs : x ≠ s := by
      have := (List.mem_filter.mp hx).2
      simpa using this
    obtain ⟨dx, hdx⟩ := hInv.visDist x hmem
    obtain ⟨pe, hpe⟩ := hInv.distPrev x dx hdx hxs
    exact alookup_some_mem_keys hpe
  have h1 : (st.visited.filter (fun v => decide (v ≠ s))).length ≤
      st.prev.length := by
    have := nodup_subset_length (hInv.visNodup.filter _) hsub
    simpa using this
  have h2 := nodup_length_le_filter hInv.visNodup s
  omega

theorem find_path_core_spec (adj : Adj) (f t : String)
    (hcore : (find_path_core adj f t).found = true) :
    Links adj f (find_path_core adj f t).path
      (find_path_core adj f t).edges t ∧
      sumW (find_path_core adj f t).edges =
        (find_path_core adj f t).total_weight ∧
      alookup (dijkstraLoopF adj t (dijkstraFuel adj) (initState f)).dist t =
        some (find_path_core adj f t).total_weight := by
  have hInv := loopF_coreInv adj f t (dijkstraFuel adj) (initState f)
    (coreInv_init adj f t)
  have hend := loopF_end adj t (dijkstraFuel adj) (initState f)
    (dijkstraFuel_sufficient adj f)
  cases hpt : alookup (dijkstraLoopF adj t (dijkstraFuel adj)
      (initState f)).prev t with
  | none =>
      exfalso
      simp only [find_path_core, hpt] at hcore
      cases hcore
  | some pe =>
      obtain ⟨u0, e0⟩ := pe
      have hvis : t ∈ (dijkstraLoopF adj t (dijkstraFuel adj)
          (initState f)).visited := by
        rcases hend with hh | hv
        · obtain ⟨du, dv, _, hdv, _⟩ := hInv.prevDist t u0 e0 hpt
          by_contra hnv
          have hmem := hInv.heapCover t dv hdv hnv
          rw [hh] at hmem
          cases hmem
        · exact hv
      have hidx : (dijkstraLoopF adj t (dijkstraFuel adj)
            (initState f)).visited.indexOf t <
          (dijkstraLoopF adj t (dijkstraFuel adj)
            (initState f)).visited.length :=
        List.indexOf_lt_length.mpr hvis
      have hlen := visited_length_le hInv
      have hfuel : (dijkstraLoopF adj t (dijkstraFuel adj)
            (initState f)).visited.indexOf t ≤
          (dijkstraLoopF adj t (dijkstraFuel adj)
            (initState f)).prev.length := by omega
      obtain ⟨dv, hdv, hlinks, hsum⟩ := reconstruct_chain hInv
        ((dijkstraLoopF adj t (dijkstraFuel adj)
          (initState f)).visited.indexOf t) t
        (dijkstraLoopF adj t (dijkstraFuel adj) (initState f)).prev.length
        hvis le_rfl hfuel
      simp only [find_path_core, hpt]
      refine ⟨hlinks, ?_, ?_⟩
      · rw [sumW_reverse, hsum, hdv]
        rfl
      · rw [hdv]
        rfl

/-! ## Resolution is idempotent on stores with unique node ids -/

theorem find_id_self {l : List Node} (hnd : (l.map Node.id).Nodup)
    {n : Node} (hn : n ∈ l) :
    l.find? (fun m => m.id = n.id) = some n := by
  induction l with
  | nil => cases hn
  | cons a rest ih =>
      rw [List.map_cons, List.nodup_cons] at hnd
      by_cases hid : a.id = n.id
      · have hna : n = a := by
          cases hn with
          | head => rfl
          | tail _ hmem =>
              exfalso
              exact hnd.1 (hid ▸ List.mem_map_of_mem Node.id hmem)
        have hdec : decide (a.id = n.id) = true := by simp [hid]
        rw [List.find?_cons, hdec]
        exact congrArg some hna.symm
      · have hmem : n ∈ rest := by
          cases hn with
          | head => exact absurd rfl hid
          | tail _ hmem => exact hmem
        have hdec : decide (a.id = n.id) = false := by simp [hid]
        rw [List.find?_cons, hdec]
        exact ih hnd.2 hmem

theorem get_node_self {store : Store}
    (hnd : (store.nodes.map Node.id).Nodup) {n : Node}
    (hn : n ∈ store.nodes) : get_node store n.id = some n := by
  unfold get_node
  exact find_id_self hnd hn

theorem resolve_short_result {store : Store} {x y : String}
    (h : resolve_short store x = some y) :
    ∃ tn, tn ∈ store.nodes ∧ tn.type = "table" ∧ tn.id = y := by
  unfold resolve_short at h
  cases hfind : (get_nodes_by_type store "table").find?
      (fun t => pyLower t.data.name = pyLower x) with
  | none => rw [hfind] at h; cases h
  | some tn =>
      rw [hfind] at h
      have hy : tn.id = y := by simpa using h
      have hmem := List.mem_of_find?_eq_some hfind
      unfold get_nodes_by_type at hmem
      rw [List.mem_filter] at hmem
      refine ⟨tn, hmem.1, ?_, hy⟩
      have := hmem.2
      simpa using this

theorem resolve_idem {store : Store}
    (hnd : (store.nodes.map Node.id).Nodup) {x y : String}
    (h : resolve_table_name store x = some y) :
    resolve_table_name store y = some y := by
  have hshort : resolve_short store x = some y →
      resolve_table_name store y = some y := by
    intro hs
    obtain ⟨tn, hmem, htyp, hid⟩ := resolve_short_result hs
    rw [← hid]
    unfold resolve_table_name
    rw [get_node_self hnd hmem]
    show (if tn.type = "table" then some tn.id
      else resolve_short store tn.id) = some tn.id
    rw [if_pos htyp]
  cases hg : get_node store x with
  | none =>
      simp only [resolve_table_name, hg] at h
      exact hshort h
  | some n =>
      simp only [resolve_table_name, hg] at h
      by_cases htyp : n.type = "table"
      · rw [if_pos htyp] at h
        have hxy : x = y := Option.some_inj.mp h
        subst hxy
        unfold resolve_table_name
        rw [hg]
        show (if n.type = "table" then some x
          else resolve_short store x) = some x
        rw [if_pos htyp]
      · rw [if_neg htyp] at h
        exact hshort h

/-! ## find_path and find_multi_path return coherent paths -/

theorem find_path_spec (store : Store) (a b : String)
    (hf : (find_path store a b).found = true) :
    ∃ f t, resolve_table_name store a = some f ∧
      resolve_table_name store b = some t ∧ f ≠ "" ∧ t ≠ "" ∧
      Links (build_adjacency store) f (find_path store a b).path
        (find_path store a b).edges t ∧
      sumW (find_path store a b).edges =
        (find_path store a b).total_weight := by
  cases hfr : resolve_table_name store a with
  | none =>
      exfalso
      simp only [find_path, hfr] at hf
      simp [pyFalsy] at hf
  | some f =>
      cases hft : resolve_table_name store b with
      | none =>
          exfalso
          simp only [find_path, hfr, hft] at hf
          simp [pyFalsy] at hf
      | some t =>
          by_cases hfe : f = ""
          · exfalso
            simp only [find_path, hfr, hft] at hf
            simp [pyFalsy, hfe] at hf
          by_cases hte : t = ""
          · exfalso
            simp only [find_path, hfr, hft] at hf
            simp [pyFalsy, hte] at hf
          refine ⟨f, t, rfl, rfl, hfe, hte, ?_⟩
          by_cases hfteq : f = t
          · subst hfteq
            have hred : find_path store a b =
                { found := true, path := [f], edges := [],
                  total_weight := 0
                  explanation :=
                    "Same table specified for source and target." } := by
              simp only [find_path, hfr, hft]
              simp [pyFalsy, hfe, hte]
            rw [hred]
            exact ⟨Links.nil f, rfl⟩
          · have hred : find_path store a b =
                find_path_core (build_adjacency store) f t := by
              simp only [find_path, hfr, hft]
              simp [pyFalsy, hfe, hte, hfteq]
            rw [hred] at hf ⊢
            obtain ⟨hl, hs, _⟩ := find_path_core_spec
              (build_adjacency store) f t hf
            exact ⟨hl, hs⟩

theorem find_multi_path_go_spec (store : Store) :
    ∀ (rest : List String) (cur : String) (full_path : List String)
      (full_edges : List Edge) (total : Int) (x : String),
      resolve_table_name store cur = some cur → cur ≠ "" →
      (∀ y ∈ rest, resolve_table_name store y = some y ∧ y ≠ "") →
      Links (build_adjacency store) x full_path full_edges cur →
      sumW full_edges = total →
      (find_multi_path_go store cur rest full_path full_edges total).found =
        true →
      ∃ z, Links (build_adjacency store) x
          (find_multi_path_go store cur rest full_path full_edges total).path
          (find_multi_path_go store cur rest full_path full_edges total).edges
          z ∧
        sumW (find_multi_path_go store cur rest full_path
            full_edges total).edges =
          (find_multi_path_go store cur rest full_path
            full_edges total).total_weight := by
  intro rest
  induction rest with
  | nil =>
      intro cur full_path full_edges total x _ _ _ hlinks hsum _
      exact ⟨cur, hlinks, hsum⟩
  | cons nxt rest' ih =>
      intro cur full_path full_edges total x hres hcur hrest hlinks hsum hfound
      cases hrf : (find_path store cur nxt).found with
      | false =>
          exfalso
          simp only [find_multi_path_go, hrf] at hfound
          simp at hfound
      | true =>
          obtain ⟨f, t, hf, ht, _, _, hseg, hsegw⟩ :=
            find_path_spec store cur nxt hrf
          have hfc : f = cur := by
            rw [hres] at hf
            exact Option.some_inj.mp hf.symm
          have hnr := hrest nxt (List.mem_cons_self nxt rest')
          have htc : t = nxt := by
            rw [hnr.1] at ht
            exact Option.some_inj.mp ht.symm
          rw [hfc, htc] at hseg
          have hred : find_multi_path_go store cur (nxt :: rest') full_path
              full_edges total =
              find_multi_path_go store nxt rest'
                (full_path ++ (find_path store cur nxt).path.tail)
                (full_edges ++ (find_path store cur nxt).edges)
                (total + (find_path store cur nxt).total_weight) := by
            simp only [find_multi_path_go, hrf]
            simp
          rw [hred] at hfound ⊢
          have hglue := Links.glue hlinks hseg
          have hsum' : sumW (full_edges ++ (find_path store cur nxt).edges) =
              total + (find_path store cur nxt).total_weight := by
            rw [sumW_append, hsum, hsegw]
          exact ih nxt _ _ _ x hnr.1 hnr.2
            (fun y hy => hrest y (List.mem_cons_of_mem nxt hy))
            hglue hsum' hfound

theorem find_multi_path_spec (store : Store) (tables : List String)
    (hnd : (store.nodes.map Node.id).Nodup)
    (hf : (find_multi_path store tables).found = true) :
    ∃ x z, (∃ orig, resolve_table_name store orig = some x) ∧
      Links (build_adjacency store) x
        (find_multi_path store tables).path
        (find_multi_path store tables).edges z ∧
      sumW (find_multi_path store tables).edges =
        (find_multi_path store tables).total_weight := by
  by_cases hlen : tables.length < 2
  · exfalso
    simp only [find_multi_path, if_pos hlen] at hf
    simp at hf
  cases htb : tables with
  | nil => exfalso; rw [htb] at hlen; simp at hlen
  | cons a rest =>
      subst htb
      cases hany : ((a :: rest).map (resolve_table_name store)).any pyFalsy
        with
      | true =>
          exfalso
          simp only [find_multi_path, if_neg hlen] at hf
          rw [hany] at hf
          simp at hf
      | false =>
          have hok : ∀ r ∈ (a :: rest).map (resolve_table_name store),
              pyFalsy r = false := by
            intro r hr
            by_contra hc
            have : ((a :: rest).map (resolve_table_name store)).any pyFalsy =
                true :=
              List.any_eq_true.mpr ⟨r, hr, by
                cases hpf : pyFalsy r with
                | true => rfl
                | false => exact absurd hpf hc⟩
            rw [hany] at this
            cases this
          have hself : ∀ w ∈ a :: rest,
              resolve_table_name store
                  ((resolve_table_name store w).getD "") =
                some ((resolve_table_name store w).getD "") ∧
              (resolve_table_name store w).getD "" ≠ "" := by
            intro w hw
            have hpf := hok (resolve_table_name store w)
              (List.mem_map_of_mem (resolve_table_name store) hw)
            cases hrw : resolve_table_name store w with
            | none => rw [hrw] at hpf; simp [pyFalsy] at hpf
            | some u =>
                rw [hrw] at hpf
                have hu : u ≠ "" := by
                  simp [pyFalsy] at hpf
                  exact hpf
                simp only [Option.getD_some]
                exact ⟨resolve_idem hnd hrw, hu⟩
          have hred : find_multi_path store (a :: rest) =
              find_multi_path_go store
                ((resolve_table_name store a).getD "")
                (rest.map (fun w => (resolve_table_name store w).getD ""))
                [(resolve_table_name store a).getD ""] [] 0 := by
            simp only [find_multi_path, if_neg hlen]
            rw [hany]
            simp only [Bool.false_eq_true, if_false, List.map_cons,
              List.map_map]
            rfl
          rw [hred] at hf ⊢
          have hha := hself a (List.mem_cons_self a rest)
          have hrest : ∀ y ∈ rest.map
              (fun w => (resolve_table_name store w).getD ""),
              resolve_table_name store y = some y ∧ y ≠ "" := by
            intro y hy
            obtain ⟨w, hw, hwy⟩ := List.mem_map.mp hy
            rw [← hwy]
            exact hself w (List.mem_cons_of_mem a hw)
          obtain ⟨z, hl, hs⟩ := find_multi_path_go_spec store
            (rest.map (fun w => (resolve_table_name store w).getD ""))
            ((resolve_table_name store a).getD "")
            [(resolve_table_name store a).getD ""] [] 0
            ((resolve_table_name store a).getD "")
            hha.1 hha.2 hrest
            (Links.nil ((resolve_table_name store a).getD "")) rfl hf
          exact ⟨(resolve_table_name store a).getD "", z,
            ⟨(resolve_table_name store a).getD "", hha.1⟩, hl, hs⟩

/-! ## Reachability, optimality and reversal for the C5 symmetry -/

theorem reach_labeled {adj : Adj} {s t : String} {st : DState}
    (hInv : CoreInv adj s t st) (hheap : st.heap = []) :
    ∀ n p E v, E.length ≤ n → Links adj s p E v →
      (∃ d, alookup st.dist v = some d) ∨
        ∃ d, alookup st.dist t = some d := by
  intro n
  induction n with
  | zero =>
      intro p E v hlen hl
      have hE : E = [] := List.length_eq_zero.mp (Nat.le_zero.mp hlen)
      subst hE
      rcases hl.snocView with ⟨hp, hE2, hvs⟩ | ⟨p', E', u, e, _, _, _, hEc⟩
      · subst hvs
        exact Or.inl ⟨0, hInv.sDist⟩
      · exact absurd hEc (by simp)
  | succ m ih =>
      intro p E v hlen hl
      rcases hl.snocView with ⟨hp, hE2, hvs⟩ |
        ⟨p', E', u, e, hl', hm, hpc, hEc⟩
      · subst hvs
        exact Or.inl ⟨0, hInv.sDist⟩
      · subst hEc
        have hlen' : E'.length ≤ m := by
          rw [List.length_append] at hlen
          simpa using hlen
        rcases ih p' E' u hlen' hl' with ⟨du, hdu⟩ | ht
        · by_cases hut : u = t
          · exact Or.inr ⟨du, hut ▸ hdu⟩
          · have huv : u ∈ st.visited := by
              by_contra hnv
              have hc := hInv.heapCover u du hdu hnv
              rw [hheap] at hc
              cases hc
            obtain ⟨dn, hdn, _⟩ := hInv.visClosed u huv hut (v, e) hm
            exact Or.inl ⟨dn, hdn⟩
        · exact Or.inr ht

theorem links_reverse {store : Store} {x y : String} {p : List String}
    {E : List Edge} (h : Links (build_adjacency store) x p E y) :
    ∃ p' E', Links (build_adjacency store) y p' E' x ∧
      sumW E' = sumW E := by
  induction h with
  | nil a => exact ⟨[a], [], Links.nil a, rfl⟩
  | cons hstep hrest ih =>
      rename_i a b c p' E' e
      obtain ⟨q, F, hlq, hsum⟩ := ih
      obtain ⟨e', hmem, hw⟩ := build_adjacency_symm store a (b, e) hstep
      refine ⟨q ++ [a], F ++ [e'], hlq.snoc hmem, ?_⟩
      rw [sumW_append, sumW_cons, hsum, sumW_cons, sumW_nil]
      dsimp only at hw
      omega

theorem core_found_visited (adj : Adj) (f t : String)
    (hcore : (find_path_core adj f t).found = true) :
    t ∈ (dijkstraLoopF adj t (dijkstraFuel adj) (initState f)).visited := by
  have hInv := loopF_coreInv adj f t (dijkstraFuel adj) (initState f)
    (coreInv_init adj f t)
  have hend := loopF_end adj t (dijkstraFuel adj) (initState f)
    (dijkstraFuel_sufficient adj f)
  cases hpt : alookup (dijkstraLoopF adj t (dijkstraFuel adj)
      (initState f)).prev t with
  | none =>
      exfalso
      simp only [find_path_core, hpt] at hcore
      cases hcore
  | some pe =>
      obtain ⟨u0, e0⟩ := pe
      rcases hend with hh | hv
      · obtain ⟨du, dv, _, hdv, _⟩ := hInv.prevDist t u0 e0 hpt
        by_contra hnv
        have hmem := hInv.heapCover t dv hdv hnv
        rw [hh] at hmem
        cases hmem
      · exact hv

theorem find_path_core_optimal (adj : Adj) (f t : String)
    (hnn : ∀ k q, q ∈ adjGet adj k → 0 ≤ q.2.weight)
    (hcore : (find_path_core adj f t).found = true) :
    ∀ p E, Links adj f p E t →
      (find_path_core adj f t).total_weight ≤ sumW E := by
  intro p E hl
  have hOpt := loopF_optInv adj f t hnn (dijkstraFuel adj) (initState f)
    (coreInv_init adj f t) (optInv_init adj f) (by simp [initState])
  have hvis := core_found_visited adj f t hcore
  obtain ⟨_, _, hdist⟩ := find_path_core_spec adj f t hcore
  exact hOpt t hvis _ hdist p E hl

theorem find_path_core_complete (adj : Adj) (f t : String) (hft : t ≠ f)
    (p : List String) (E : List Edge) (hl : Links adj f p E t) :
    (find_path_core adj f t).found = true := by
  have hInv := loopF_coreInv adj f t (dijkstraFuel adj) (initState f)
    (coreInv_init adj f t)
  have hend := loopF_end adj t (dijkstraFuel adj) (initState f)
    (dijkstraFuel_sufficient adj f)
  cases hpt : alookup (dijkstraLoopF adj t (dijkstraFuel adj)
      (initState f)).prev t with
  | some pe => simp [find_path_core, hpt]
  | none =>
      exfalso
      have hnv : t ∉ (dijkstraLoopF adj t (dijkstraFuel adj)
          (initState f)).visited := by
        intro hv
        obtain ⟨d, hd⟩ := hInv.visDist t hv
        obtain ⟨pe, hpe⟩ := hInv.distPrev t d hd hft
        rw [hpt] at hpe
        cases hpe
      have hheap : (dijkstraLoopF adj t (dijkstraFuel adj)
          (initState f)).heap = [] := by
        rcases hend with hh | hv
        · exact hh
        · exact absurd hv hnv
      rcases reach_labeled hInv hheap E.length p E t le_rfl hl with
        ⟨d, hd⟩ | ⟨d, hd⟩ <;>
      · obtain ⟨pe, hpe⟩ := hInv.distPrev t d hd hft
        rw [hpt] at hpe
        cases hpe

theorem find_path_core_notfound (adj : Adj) (f t : String)
    (hcore : (find_path_core adj f t).found = false) :
    (find_path_core adj f t).total_weight = 0 := by
  cases hpt : alookup (dijkstraLoopF adj t (dijkstraFuel adj)
      (initState f)).prev t with
  | none => simp [find_path_core, hpt]
  | some pe =>
      exfalso
      simp only [find_path_core, hpt] at hcore
      cases hcore

theorem core_symm (store : Store) (f t : String) (hft : f ≠ t)
    (hnn : ∀ e ∈ store.edges, e.type = "fk" → 0 ≤ e.weight) :
    (find_path_core (build_adjacency store) f t).total_weight =
      (find_path_core (build_adjacency store) t f).total_weight := by
  have hadj := build_adjacency_nonneg store hnn
  by_cases h1 : (find_path_core (build_adjacency store) f t).found = true
  · by_cases h2 : (find_path_core (build_adjacency store) t f).found = true
    · obtain ⟨hl1, hs1, _⟩ := find_path_core_spec _ f t h1
      obtain ⟨hl2, hs2, _⟩ := find_path_core_spec _ t f h2
      obtain ⟨p1', E1', hr1, hw1⟩ := links_reverse hl1
      obtain ⟨p2', E2', hr2, hw2⟩ := links_reverse hl2
      have ha := find_path_core_optimal _ f t hadj h1 p2' E2' hr2
      have hb := find_path_core_optimal _ t f hadj h2 p1' E1' hr1
      rw [hw2, hs2] at ha
      rw [hw1, hs1] at hb
      omega
    · exfalso
      obtain ⟨hl1, _, _⟩ := find_path_core_spec _ f t h1
      obtain ⟨p', E', hr, _⟩ := links_reverse hl1
      exact h2 (find_path_core_complete _ t f hft p' E' hr)
  · by_cases h2 : (find_path_core (build_adjacency store) t f).found = true
    · exfalso
      obtain ⟨hl2, _, _⟩ := find_path_core_spec _ t f h2
      obtain ⟨p', E', hr, _⟩ := links_reverse hl2
      exact h1 (find_path_core_complete _ f t (fun he => hft he.symm) p' E' hr)
    · rw [find_path_core_notfound _ f t (by simpa using h1),
        find_path_core_notfound _ t f (by simpa using h2)]

/-- C10: every successful `find_path` result (in particular one with
distinct resolved endpoints), and every successful `find_multi_path`
result, returns a path list exactly one longer than its edge list, edge
`i` joins consecutive path entries (`edges[i].from_id = path[i]` and
`edges[i].to_id = path[i+1]`, reverse traversals appearing as the
synthesized reverse edge stored in the adjacency), and `total_weight`
equals the sum of the returned edges' weights.  The `Nodup` hypothesis
is the storage invariant that node ids are unique (`node_id` is the
SQLite primary key of the `nodes` table). -/
theorem C10_path_edge_consistency (store : Store) (a b : String)
    (tables : List String)
    (hnd : (store.nodes.map Node.id).Nodup) :
    ((find_path store a b).found = true →
      (find_path store a b).path.length =
        (find_path store a b).edges.length + 1 ∧
      (∀ i (hi : i < (find_path store a b).edges.length),
        ∃ (h1 : i < (find_path store a b).path.length)
          (h2 : i + 1 < (find_path store a b).path.length),
          ((find_path store a b).edges.get ⟨i, hi⟩).from_id =
            (find_path store a b).path.get ⟨i, h1⟩ ∧
          ((find_path store a b).edges.get ⟨i, hi⟩).to_id =
            (find_path store a b).path.get ⟨i + 1, h2⟩) ∧
      (find_path store a b).total_weight =
        sumW (find_path store a b).edges) ∧
    ((find_multi_path store tables).found = true →
      (find_multi_path store tables).path.length =
        (find_multi_path store tables).edges.length + 1 ∧
      (∀ i (hi : i < (find_multi_path store tables).edges.length),
        ∃ (h1 : i < (find_multi_path store tables).path.length)
          (h2 : i + 1 < (find_multi_path store tables).path.length),
          ((find_multi_path store tables).edges.get ⟨i, hi⟩).from_id =
            (find_multi_path store tables).path.get ⟨i, h1⟩ ∧
          ((find_multi_path store tables).edges.get ⟨i, hi⟩).to_id =
            (find_multi_path store tables).path.get ⟨i + 1, h2⟩) ∧
      (find_multi_path store tables).total_weight =
        sumW (find_multi_path store tables).edges) := by
  constructor
  · intro hf
    obtain ⟨f, t, _, _, _, _, hl, hs⟩ := find_path_spec store a b hf
    exact ⟨hl.length_eq, hl.connect (build_adjacency_wf store), hs.symm⟩
  · intro hf
    obtain ⟨x, z, _, hl, hs⟩ := find_multi_path_spec store tables hnd hf
    exact ⟨hl.length_eq, hl.connect (build_adjacency_wf store), hs.symm⟩

/-- Concrete instance of C10 on the Users/Orders fixture: the one-hop
reverse-edge path found between `Users` and `Orders` has two path
entries, one edge, and total weight equal to that edge's weight. -/
theorem C10_path_edge_consistency_witness :
    (find_path usersOrdersStore "Users" "Orders").found = true ∧
    (find_path usersOrdersStore "Users" "Orders").path.length =
      (find_path usersOrdersStore "Users" "Orders").edges.length + 1 ∧
    (find_path usersOrdersStore "Users" "Orders").total_weight =
      sumW (find_path usersOrdersStore "Users" "Orders").edges ∧
    (find_multi_path usersOrdersStore ["Users", "Orders"]).found = true ∧
    (find_multi_path usersOrdersStore ["Users", "Orders"]).path.length =
      (find_multi_path usersOrdersStore ["Users", "Orders"]).edges.length +
        1 ∧
    (find_multi_path usersOrdersStore ["Users", "Orders"]).total_weight =
      sumW (find_multi_path usersOrdersStore ["Users", "Orders"]).edges := by
  have h := C10_path_edge_consistency usersOrdersStore "Users" "Orders"
    ["Users", "Orders"] (by decide)
  have h1 := h.1 (by decide)
  have h2 := h.2 (by decide)
  exact ⟨by decide, h1.1, h1.2.2, by decide, h2.1, h2.2.2⟩

/-- C5 (amended with the nonnegative-weight side condition exhibited by
`C5_negative_weight_asymmetry`): over a graph whose `fk` edges all carry
nonnegative weights — each contributing a forward and a reverse
adjacency entry of equal weight — `find_path A B` and `find_path B A`
return equal `total_weight` for every pair of names `A`, `B`, resolvable
or not. -/
theorem C5_weight_symmetry_amended (store : Store) (A B : String)
    (hnn : ∀ e ∈ store.edges, e.type = "fk" → 0 ≤ e.weight) :
    (find_path store A B).total_weight =
      (find_path store B A).total_weight := by
  cases hfr : resolve_table_name store A with
  | none => simp [find_path, hfr, pyFalsy]
  | some f =>
      cases hft : resolve_table_name store B with
      | none => simp [find_path, hfr, hft, pyFalsy]
      | some t =>
          by_cases hfe : f = ""
          · simp [find_path, hfr, hft, pyFalsy, hfe]
          by_cases hte : t = ""
          · simp [find_path, hfr, hft, pyFalsy, hte]
          by_cases hfteq : f = t
          · subst hfteq
            simp [find_path, hfr, hft, pyFalsy, hfe, hte]
          · have hred1 : find_path store A B =
                find_path_core (build_adjacency store) f t := by
              simp only [find_path, hfr, hft]
              simp [pyFalsy, hfe, hte, hfteq]
            have hred2 : find_path store B A =
                find_path_core (build_adjacency store) t f := by
              simp only [find_path, hft, hfr]
              simp [pyFalsy, hfe, hte, Ne.symm hfteq]
            rw [hred1, hred2]
            exact core_symm store f t hfteq hnn

/-- Concrete instance of the amended C5: on the Users/Orders store (all
fk weights 1) the search cost is the same in both directions. -/
theorem C5_weight_symmetry_amended_witness :
    (find_path usersOrdersStore "Users" "Orders").total_weight =
      (find_path usersOrdersStore "Orders" "Users").total_weight :=
  C5_weight_symmetry_amended usersOrdersStore "Users" "Orders" (by decide)

/-! ## Counting the JOIN keyword in generated SQL -/

/-- Number of (non-overlapping) occurrences of the four-character
keyword `JOIN` in a character list (`sql.count("JOIN")`; the keyword
cannot overlap itself, so greedy scanning counts every occurrence). -/
def countJOIN : List Char → Nat
  | 'J' :: 'O' :: 'I' :: 'N' :: rest => countJOIN rest + 1
  | _ :: rest => countJOIN rest
  | [] => 0

theorem countJOIN_join (l : List Char) :
    countJOIN ('J' :: 'O' :: 'I' :: 'N' :: l) = countJOIN l + 1 := rfl

theorem countJOIN_cons_ne (c : Char) (l : List Char) (h : c ≠ 'J') :
    countJOIN (c :: l) = countJOIN l := by
  conv_lhs => rw [countJOIN.eq_def]
  split
  · rename_i heq
    injection heq with h1 _
    exact absurd h1 h
  · rename_i heq
    injection heq with h1 h2
    rw [h2]
  · rename_i heq
    cases heq

theorem countJOIN_skip (l1 l2 : List Char) (h : 'J' ∉ l1) :
    countJOIN (l1 ++ l2) = countJOIN l2 := by
  induction l1 with
  | nil => rfl
  | cons c t ih =>
      rw [List.cons_append,
        countJOIN_cons_ne c (t ++ l2)
          (fun he => h (he ▸ List.mem_cons_self c t)),
        ih (fun hm => h (List.mem_cons_of_mem c hm))]

theorem countJOIN_noJ (l : List Char) (h : 'J' ∉ l) : countJOIN l = 0 := by
  have h0 := countJOIN_skip l [] h
  simpa using h0

/-! ## The dynamic pieces of generated SQL contain no capital J -/

theorem pyLowerChar_ne_J (c : Char) : pyLowerChar c ≠ 'J' := by
  unfold pyLowerChar
  by_cases h : 'A' ≤ c ∧ c ≤ 'Z'
  · rw [if_pos h]
    obtain ⟨h1, h2⟩ := h
    rw [Char.le_def] at h1 h2
    have h65 : (65 : Nat) ≤ c.toNat := h1
    have h90 : c.toNat ≤ 90 := h2
    set k := c.toNat with hk
    interval_cases k <;> decide
  · rw [if_neg h]
    intro he
    subst he
    exact h ⟨by decide, by decide⟩

theorem pyLower_noJ (s : String) : 'J' ∉ (pyLower s).data := by
  intro hm
  obtain ⟨c, _, hc⟩ := List.mem_map.mp hm
  exact pyLowerChar_ne_J c hc

theorem digitChar_ne_J {n : Nat} (h : n < 10) : digitChar n ≠ 'J' := by
  interval_cases n <;> decide

theorem natDigitsAux_mem :
    ∀ fuel n, n ≤ fuel + 9 → ∀ c ∈ natDigitsAux fuel n,
      ∃ m, m < 10 ∧ c = digitChar m := by
  intro fuel
  induction fuel with
  | zero =>
      intro n h c hc
      have h10 : n < 10 := by omega
      have hcc : c = digitChar n := by simpa [natDigitsAux] using hc
      exact ⟨n, h10, hcc⟩
  | succ f ih =>
      intro n h c hc
      by_cases h10 : n < 10
      · rw [natDigitsAux, if_pos h10] at hc
        have hcc : c = digitChar n := by simpa using hc
        exact ⟨n, h10, hcc⟩
      · rw [natDigitsAux, if_neg h10] at hc
        rcases List.mem_append.mp hc with hc1 | hc2
        · exact ih (n / 10) (by omega) c hc1
        · have hcc : c = digitChar (n % 10) := by simpa using hc2
          exact ⟨n % 10, Nat.mod_lt _ (by omega), hcc⟩

theorem natStr_noJ (n : Nat) : 'J' ∉ (natStr n).data := by
  intro hm
  obtain ⟨m, hm10, hc⟩ := natDigitsAux_mem n n (by omega) 'J' hm
  exact digitChar_ne_J hm10 hc.symm

theorem aliasBase_noJ (name : String) : 'J' ∉ (aliasBase name).data := by
  unfold aliasBase
  cases hn : name.data with
  | nil => simp
  | cons c rest =>
      intro hm
      have hc : 'J' = pyLowerChar c := by simpa using hm
      exact pyLowerChar_ne_J c hc.symm

theorem aliasCand_noJ (name : String) (k : Nat) :
    'J' ∉ (aliasCand name (aliasBase name) k).data := by
  unfold aliasCand
  by_cases h : k ≤ name.data.length
  · rw [if_pos h]
    exact pyLower_noJ _
  · rw [if_neg h]
    rw [String.data_append]
    intro hm
    rcases List.mem_append.mp hm with h1 | h2
    · exact aliasBase_noJ name h1
    · exact natStr_noJ _ h2

theorem pickAliasAux_is_cand (name base : String) (used : List String) :
    ∀ fuel c, ∃ k, pickAliasAux name base used fuel c =
      aliasCand name base k := by
  intro fuel
  induction fuel with
  | zero => intro c; exact ⟨c, rfl⟩
  | succ f ih =>
      intro c
      simp only [pickAliasAux]
      by_cases h : aliasCand name base c ∈ used
      · rw [if_pos h]
        exact ih (c + 1)
      · rw [if_neg h]
        exact ⟨c, rfl⟩

theorem pickAlias_noJ (name : String) (used : List String) :
    'J' ∉ (pickAlias name used).data := by
  unfold pickAlias
  obtain ⟨k, hk⟩ := pickAliasAux_is_cand name (aliasBase name) used
    (name.data.length + used.length + 2) 1
  rw [hk]
  exact aliasCand_noJ name k

theorem generate_aliases_go_noJ :
    ∀ (ts : List String) (al : List (String × String)) (us : List String)
      (t : String), (∀ t', 'J' ∉ (aliasOf al t').data) →
      'J' ∉ (aliasOf (generate_aliases_go ts al us) t).data := by
  intro ts
  induction ts with
  | nil => intro al us t h; exact h t
  | cons table rest ih =>
      intro al us t h
      simp only [generate_aliases_go]
      apply ih
      intro t'
      by_cases he : t' = table
      · subst he
        unfold aliasOf
        rw [alookup_aupdate_self]
        exact pickAlias_noJ _ _
      · unfold aliasOf
        rw [alookup_aupdate_ne _ _ he]
        exact h t'

theorem aliasOf_generate_aliases_noJ (tables : List String) (t : String) :
    'J' ∉ (aliasOf (generate_aliases tables) t).data := by
  unfold generate_aliases
  exact generate_aliases_go_noJ tables [] [] t (fun t' => by
    unfold aliasOf alookup
    simp)

theorem joinSep_noJ (sep : String) :
    ∀ (l : List String), 'J' ∉ sep.data → (∀ x ∈ l, 'J' ∉ x.data) →
      'J' ∉ (joinSep sep l).data := by
  intro l
  induction l with
  | nil => intro _ _ hm; simp [joinSep] at hm
  | cons x rest ih =>
      intro hsep hall hm
      cases rest with
      | nil => exact hall x (List.mem_cons_self x []) hm
      | cons y rest' =>
          rw [joinSep, String.data_append, String.data_append] at hm
          rcases List.mem_append.mp hm with h1 | h2
          · rcases List.mem_append.mp h1 with h3 | h4
            · exact hall x (List.mem_cons_self x _) h3
            · exact hsep h4
          · exact ih hsep (fun z hz => hall z (List.mem_cons_of_mem x hz)) h2

/-! ## Provenance of adjacency entries, path nodes and path edges -/

theorem build_adjacency_origin (store : Store) :
    ∀ k q, q ∈ adjGet (build_adjacency store) k →
      ∃ e ∈ store.edges, q.2 = e ∨ q.2 = reverseEdge e := by
  intro k q h
  rw [build_adjacency_eq_fold] at h
  rcases adjGet_fold_cases _ [] k q h with h' | ⟨e, he, hc⟩
  · rw [show adjGet [] k = [] from rfl] at h'
    cases h'
  · have hmem : e ∈ store.edges := by
      unfold get_edges_by_type at he
      exact (List.mem_filter.mp he).1
    rcases hc with ⟨_, hq⟩ | ⟨_, hq⟩
    · exact ⟨e, hmem, Or.inl (by rw [hq])⟩
    · exact ⟨e, hmem, Or.inr (by rw [hq])⟩

theorem links_path_noJ {store : Store} {x y : String} {p : List String}
    {E : List Edge}
    (hedges : ∀ e ∈ store.edges, 'J' ∉ e.from_id.data ∧ 'J' ∉ e.to_id.data)
    (h : Links (build_adjacency store) x p E y) :
    'J' ∉ x.data → ∀ v ∈ p, 'J' ∉ v.data := by
  induction h with
  | nil a =>
      intro hx v hv
      have hva : v = a := by simpa using hv
      subst hva
      exact hx
  | cons hstep hrest ih =>
      rename_i a b c p' E' e
      intro hx v hv
      have hb : 'J' ∉ b.data := by
        obtain ⟨e0, he0, hor⟩ := build_adjacency_origin store a (b, e) hstep
        have hwf := (build_adjacency_wf store a (b, e) hstep).2
        dsimp only at hwf hor
        rcases hor with he | he
        · rw [he] at hwf
          rw [← hwf]
          exact (hedges e0 he0).2
        · rw [he] at hwf
          rw [← hwf]
          exact (hedges e0 he0).1
      cases hv with
      | head => exact hx
      | tail _ hv' => exact ih hb v hv'

theorem links_edges_cols {store : Store} {x y : String} {p : List String}
    {E : List Edge} (h : Links (build_adjacency store) x p E y) :
    ∀ e ∈ E, ∃ e0 ∈ store.edges,
      e.data.from_columns = e0.data.from_columns ∧
        e.data.to_columns = e0.data.to_columns := by
  induction h with
  | nil a => intro e he; cases he
  | cons hstep hrest ih =>
      rename_i a b c p' E' e
      intro f hf
      cases hf with
      | head =>
          obtain ⟨e0, he0, hor⟩ := build_adjacency_origin store a (b, e) hstep
          dsimp only at hor
          rcases hor with he | he
          · exact ⟨e0, he0, by rw [he], by rw [he]⟩
          · refine ⟨e0, he0, ?_, ?_⟩
            · rw [he]
              rfl
            · rw [he]
              rfl
      | tail _ hf' => exact ih f hf'

theorem resolve_is_node_id {store : Store} {x y : String}
    (h : resolve_table_name store x = some y) :
    ∃ n ∈ store.nodes, n.id = y := by
  cases hg : get_node store x with
  | none =>
      simp only [resolve_table_name, hg] at h
      obtain ⟨tn, hmem, _, hid⟩ := resolve_short_result h
      exact ⟨tn, hmem, hid⟩
  | some n =>
      simp only [resolve_table_name, hg] at h
      by_cases htyp : n.type = "table"
      · rw [if_pos htyp] at h
        have hxy : x = y := Option.some_inj.mp h
        unfold get_node at hg
        have hmem := List.mem_of_find?_eq_some hg
        have hpred := List.find?_some hg
        have hid : n.id = x := by simpa using hpred
        exact ⟨n, hmem, by rw [hid, hxy]⟩
      · rw [if_neg htyp] at h
        obtain ⟨tn, hmem, _, hid⟩ := resolve_short_result h
        exact ⟨tn, hmem, hid⟩

theorem noJ_append {a b : List Char} (ha : 'J' ∉ a) (hb : 'J' ∉ b) :
    'J' ∉ a ++ b := by
  intro hm
  rcases List.mem_append.mp hm with h | h
  · exact ha h
  · exact hb h

theorem noJ_str_append (s t : String) (hs : 'J' ∉ s.data)
    (ht : 'J' ∉ t.data) : 'J' ∉ (s ++ t).data := by
  rw [String.data_append]
  exact noJ_append hs ht

theorem joinSteps_mem (path : List String) (edges : List Edge) :
    ∀ q ∈ joinSteps path edges,
      q.1 ∈ path ∧ q.2.1 ∈ path ∧ q.2.2 ∈ edges := by
  intro q hq
  unfold joinSteps at hq
  obtain ⟨z, hz, hzq⟩ := List.mem_map.mp hq
  have h1 := List.of_mem_zip hz
  have h2 := List.of_mem_zip h1.2
  rw [← hzq]
  exact ⟨h2.1, List.mem_of_mem_tail h2.2, h1.1⟩

theorem joinSteps_length (path : List String) (edges : List Edge)
    (hL : path.length = edges.length + 1) :
    (joinSteps path edges).length = edges.length := by
  unfold joinSteps
  rw [List.length_map, List.length_zip, List.length_zip, List.length_tail]
  omega

theorem onConditions_noJ (aliases : List (String × String))
    (ft tt : String) (e : Edge)
    (hal : ∀ t, 'J' ∉ (aliasOf aliases t).data)
    (hfc : ∀ c ∈ e.data.from_columns, 'J' ∉ c.data)
    (htc : ∀ c ∈ e.data.to_columns, 'J' ∉ c.data) :
    ∀ c ∈ onConditions aliases ft tt e, 'J' ∉ c.data := by
  intro c hc
  unfold onConditions at hc
  obtain ⟨p, hp, hpc⟩ := List.mem_map.mp hc
  have hp12 : 'J' ∉ p.1.data ∧ 'J' ∉ p.2.data := by
    unfold onColumnPairs at hp
    by_cases hrev : e.data.reverse = true
    · rw [if_pos hrev] at hp
      have hz := List.of_mem_zip hp
      exact ⟨htc _ hz.1, hfc _ hz.2⟩
    · rw [if_neg hrev] at hp
      have hz := List.of_mem_zip hp
      exact ⟨hfc _ hz.1, htc _ hz.2⟩
  rw [← hpc]
  unfold onCondition
  by_cases hrev : e.data.reverse = true
  · rw [if_pos hrev]
    apply noJ_str_append
    · apply noJ_str_append
      · apply noJ_str_append
        · apply noJ_str_append
          · apply noJ_str_append
            · exact noJ_str_append _ _ (hal tt) (by decide)
            · exact hp12.1
          · decide
        · exact hal ft
      · decide
    · exact hp12.2
  · rw [if_neg hrev]
    apply noJ_str_append
    · apply noJ_str_append
      · apply noJ_str_append
        · apply noJ_str_append
          · apply noJ_str_append
            · exact noJ_str_append _ _ (hal tt) (by decide)
            · exact hp12.2
          · decide
        · exact hal ft
      · decide
    · exact hp12.1

theorem countJOIN_clause_tail (aliases : List (String × String))
    (tt : String) (conds : List String) (tl : List Char)
    (htt : 'J' ∉ tt.data) (hal : ∀ t, 'J' ∉ (aliasOf aliases t).data)
    (hc : ∀ c ∈ conds, 'J' ∉ c.data) :
    countJOIN ((joinClauseText aliases tt conds).data ++ tl) =
      countJOIN tl + 1 := by
  have hY : 'J' ∉ (if conds.isEmpty then ("1=1" : String)
      else joinSep " AND " conds).data := by
    by_cases hce : conds.isEmpty
    · rw [if_pos hce]
      decide
    · rw [if_neg hce]
      exact joinSep_noJ " AND " conds (by decide) hc
  unfold joinClauseText
  simp only [String.data_append, List.append_assoc]
  simp only [List.cons_append, List.nil_append]
  rw [countJOIN_join]
  rw [countJOIN_cons_ne _ _ (by decide)]
  rw [countJOIN_skip _ _ htt]
  rw [countJOIN_cons_ne _ _ (by decide)]
  rw [countJOIN_skip _ _ (hal tt)]
  iterate 8 rw [countJOIN_cons_ne _ _ (by decide)]
  rw [countJOIN_skip _ _ hY]


theorem countJOIN_clause_list (aliases : List (String × String))
    (hal : ∀ t, 'J' ∉ (aliasOf aliases t).data) :
    ∀ (steps : List (String × String × Edge)) (tl : List Char),
      (∀ q ∈ steps, 'J' ∉ q.2.1.data ∧
        (∀ c ∈ onConditions aliases q.1 q.2.1 q.2.2, 'J' ∉ c.data)) →
      countJOIN ((joinSep "\n" (steps.map (fun q =>
          joinClauseText aliases q.2.1
            (onConditions aliases q.1 q.2.1 q.2.2)))).data ++ tl) =
        countJOIN tl + steps.length := by
  intro steps
  induction steps with
  | nil =>
      intro tl _
      simp [joinSep]
  | cons q rest ih =>
      intro tl hq
      have hqh := hq q (List.mem_cons_self q rest)
      cases rest with
      | nil =>
          rw [List.map_cons, List.map_nil]
          rw [show joinSep "\n" [joinClauseText aliases q.2.1
            (onConditions aliases q.1 q.2.1 q.2.2)] =
            joinClauseText aliases q.2.1
              (onConditions aliases q.1 q.2.1 q.2.2) from rfl]
          rw [countJOIN_clause_tail aliases q.2.1 _ tl hqh.1 hal hqh.2]
          rfl
      | cons q2 rest2 =>
          rw [List.map_cons]
          rw [show joinSep "\n" (joinClauseText aliases q.2.1
              (onConditions aliases q.1 q.2.1 q.2.2) ::
              List.map (fun q => joinClauseText aliases q.2.1
                (onConditions aliases q.1 q.2.1 q.2.2)) (q2 :: rest2)) =
            joinClauseText aliases q.2.1
              (onConditions aliases q.1 q.2.1 q.2.2) ++ "\n" ++
              joinSep "\n" (List.map (fun q => joinClauseText aliases q.2.1
                (onConditions aliases q.1 q.2.1 q.2.2)) (q2 :: rest2))
            from rfl]
          rw [String.data_append, String.data_append]
          rw [List.append_assoc, List.append_assoc]
          rw [countJOIN_clause_tail aliases q.2.1 _ _ hqh.1 hal hqh.2]
          rw [show ("\n" : String).data = ['\n'] from rfl]
          rw [show (['\n'] : List Char) ++ ((joinSep "\n"
              (List.map (fun q => joinClauseText aliases q.2.1
                (onConditions aliases q.1 q.2.1 q.2.2)) (q2 :: rest2))).data
              ++ tl) = '\n' :: ((joinSep "\n"
              (List.map (fun q => joinClauseText aliases q.2.1
                (onConditions aliases q.1 q.2.1 q.2.2)) (q2 :: rest2))).data
              ++ tl) from rfl]
          rw [countJOIN_cons_ne _ _ (by decide)]
          rw [ih tl (fun z hz => hq z (List.mem_cons_of_mem q hz))]
          simp [List.length_cons]
          omega


/-- The success branch of `generate_join`, parameterised by the
multi-path result it consumes (same code as the source, with `pr`
abstracted). -/
def joinAssemble (pr : PathResult) (select_all : Bool) : JoinResult :=
  let aliases := generate_aliases pr.path
  let select_clause :=
    if select_all then
      joinSep ",\n" (pr.path.map (fun t => "    " ++ aliasOf aliases t ++ ".*"))
    else "    *"
  let first_table := pr.path.headD ""
  let from_clause := first_table ++ " " ++ aliasOf aliases first_table
  let steps := joinSteps pr.path pr.edges
  let join_clauses := steps.map (fun q =>
    joinClauseText aliases q.2.1 (onConditions aliases q.1 q.2.1 q.2.2))
  let joins_info := steps.map (fun q =>
    joinInfoOf aliases q.1 q.2.1 q.2.2 (onConditions aliases q.1 q.2.1 q.2.2))
  let sql0 := "SELECT\n" ++ select_clause ++ "\nFROM " ++ from_clause
  let sql1 := if join_clauses.isEmpty then sql0
              else sql0 ++ "\n" ++ joinSep "\n" join_clauses
  { success := true
    sql := sql1 ++ ";"
    tables := pr.path
    joins := joins_info
    explanation := "Generated join connecting " ++ natStr pr.path.length ++
      " tables via " ++ natStr join_clauses.length ++ " JOIN(s)." }

theorem generate_join_success_eq (store : Store) (tables : List String)
    (select_all : Bool) (hlen : ¬tables.length < 2)
    (hfound : (find_multi_path store tables).found = true) :
    generate_join store tables select_all =
      joinAssemble (find_multi_path store tables) select_all := by
  simp only [generate_join, if_neg hlen, hfound, joinAssemble]
  simp


theorem countJOIN_sql1 (sql0 : String) (aliases : List (String × String))
    (steps : List (String × String × Edge))
    (h0 : 'J' ∉ sql0.data)
    (hal : ∀ t, 'J' ∉ (aliasOf aliases t).data)
    (hsteps : ∀ q ∈ steps, 'J' ∉ q.2.1.data ∧
      (∀ c ∈ onConditions aliases q.1 q.2.1 q.2.2, 'J' ∉ c.data)) :
    countJOIN (((if (steps.map (fun q => joinClauseText aliases q.2.1
        (onConditions aliases q.1 q.2.1 q.2.2))).isEmpty then sql0
      else sql0 ++ "\n" ++ joinSep "\n" (steps.map (fun q =>
        joinClauseText aliases q.2.1
          (onConditions aliases q.1 q.2.1 q.2.2)))) ++ ";").data) =
      steps.length := by
  by_cases he : (steps.map (fun q => joinClauseText aliases q.2.1
      (onConditions aliases q.1 q.2.1 q.2.2))).isEmpty = true
  · rw [if_pos he]
    have hsteps0 : steps = [] :=
      List.map_eq_nil.mp (List.isEmpty_iff.mp he)
    rw [hsteps0, String.data_append]
    rw [countJOIN_skip _ _ h0]
    rfl
  · rw [if_neg he]
    rw [String.data_append, String.data_append, String.data_append]
    rw [List.append_assoc, List.append_assoc]
    rw [countJOIN_skip _ _ h0]
    rw [show ("\n" : String).data = ['\n'] from rfl]
    rw [List.singleton_append]
    rw [countJOIN_cons_ne _ _ (by decide)]
    rw [countJOIN_clause_list aliases hal steps _ hsteps]
    rw [show countJOIN ((";" : String).data) = 0 from rfl]
    omega

theorem joinAssemble_count (pr : PathResult) (sel : Bool)
    (hL : pr.path.length = pr.edges.length + 1)
    (hpath : ∀ v ∈ pr.path, 'J' ∉ v.data)
    (hcols : ∀ e ∈ pr.edges,
      (∀ c ∈ e.data.from_columns, 'J' ∉ c.data) ∧
        (∀ c ∈ e.data.to_columns, 'J' ∉ c.data)) :
    countJOIN (joinAssemble pr sel).sql.data + 1 =
      (joinAssemble pr sel).tables.length := by
  have hal := aliasOf_generate_aliases_noJ pr.path
  have hheadJ : 'J' ∉ (pr.path.headD "").data := by
    cases hp : pr.path with
    | nil => simp
    | cons a rest =>
        have ha := hpath a (by rw [hp]; exact List.mem_cons_self a rest)
        simpa using ha
  have hselJ : 'J' ∉ (if sel = true then joinSep ",\n"
      (pr.path.map (fun t =>
        "    " ++ aliasOf (generate_aliases pr.path) t ++ ".*"))
      else "    *").data := by
    by_cases hs : sel = true
    · rw [if_pos hs]
      apply joinSep_noJ _ _ (by decide)
      intro x hx
      obtain ⟨t, _, htx⟩ := List.mem_map.mp hx
      rw [← htx]
      exact noJ_str_append _ _ (noJ_str_append _ _ (by decide) (hal t))
        (by decide)
    · rw [if_neg hs]
      decide
  have hsql0 : 'J' ∉ (("SELECT\n" ++ (if sel = true then joinSep ",\n"
      (pr.path.map (fun t =>
        "    " ++ aliasOf (generate_aliases pr.path) t ++ ".*"))
      else "    *") ++ "\nFROM " ++ (pr.path.headD "" ++ " " ++
        aliasOf (generate_aliases pr.path) (pr.path.headD ""))) :
      String).data := by
    apply noJ_str_append
    · apply noJ_str_append
      · apply noJ_str_append
        · decide
        · exact hselJ
      · decide
    · apply noJ_str_append
      · apply noJ_str_append
        · exact hheadJ
        · decide
      · exact hal _
  have hsteps : ∀ q ∈ joinSteps pr.path pr.edges, 'J' ∉ q.2.1.data ∧
      (∀ c ∈ onConditions (generate_aliases pr.path) q.1 q.2.1 q.2.2,
        'J' ∉ c.data) := by
    intro q hq
    obtain ⟨h1, h2, h3⟩ := joinSteps_mem pr.path pr.edges q hq
    exact ⟨hpath _ h2, onConditions_noJ _ _ _ _ hal (hcols _ h3).1
      (hcols _ h3).2⟩
  have hcount := countJOIN_sql1 _ (generate_aliases pr.path)
    (joinSteps pr.path pr.edges) hsql0 hal hsteps
  simp only [joinAssemble]
  rw [hcount]
  rw [joinSteps_length pr.path pr.edges hL]
  omega


theorem joinSteps_get (path : List String) (edges : List Edge)
    (hL : path.length = edges.length + 1) (i : Nat)
    (hi : i < (joinSteps path edges).length) :
    ∃ (h1 : i < path.length) (h2 : i + 1 < path.length)
      (h3 : i < edges.length),
      (joinSteps path edges).get ⟨i, hi⟩ =
        (path.get ⟨i, h1⟩, path.get ⟨i + 1, h2⟩, edges.get ⟨i, h3⟩) := by
  have hlen := joinSteps_length path edges hL
  have h3 : i < edges.length := by omega
  have h1 : i < path.length := by omega
  have h2 : i + 1 < path.length := by omega
  refine ⟨h1, h2, h3, ?_⟩
  unfold joinSteps
  simp [List.getElem_map, List.getElem_zip, List.getElem_tail]

theorem headD_eq_get (l : List String) (h : 0 < l.length) :
    l.headD "" = l.get ⟨0, h⟩ := by
  cases l with
  | nil => cases h
  | cons a rest => rfl

theorem joinAssemble_join_get (pr : PathResult) (sel : Bool)
    (hL : pr.path.length = pr.edges.length + 1) (i : Nat)
    (hi : i < (joinAssemble pr sel).joins.length) :
    ∃ (h1 : i < pr.path.length) (h2 : i + 1 < pr.path.length)
      (h3 : i < pr.edges.length),
      (joinAssemble pr sel).joins.get ⟨i, hi⟩ =
        joinInfoOf (generate_aliases pr.path) (pr.path.get ⟨i, h1⟩)
          (pr.path.get ⟨i + 1, h2⟩) (pr.edges.get ⟨i, h3⟩)
          (onConditions (generate_aliases pr.path) (pr.path.get ⟨i, h1⟩)
            (pr.path.get ⟨i + 1, h2⟩) (pr.edges.get ⟨i, h3⟩)) := by
  have hjl : (joinAssemble pr sel).joins.length =
      (joinSteps pr.path pr.edges).length := List.length_map _ _
  have hsl : i < (joinSteps pr.path pr.edges).length := by omega
  have hstepslen := joinSteps_length pr.path pr.edges hL
  have h3 : i < pr.edges.length := by omega
  have h1 : i < pr.path.length := by omega
  have h2 : i + 1 < pr.path.length := by omega
  refine ⟨h1, h2, h3, ?_⟩
  have e1 : (joinAssemble pr sel).joins.get ⟨i, hi⟩ =
      (fun q => joinInfoOf (generate_aliases pr.path) q.1 q.2.1 q.2.2
        (onConditions (generate_aliases pr.path) q.1 q.2.1 q.2.2))
        ((joinSteps pr.path pr.edges).get ⟨i, hsl⟩) := by
    rw [List.get_eq_getElem, List.get_eq_getElem]
    exact List.getElem_map _
  obtain ⟨h1a, h2a, h3a, hget⟩ := joinSteps_get pr.path pr.edges hL i hsl
  rw [e1, hget]

theorem joinAssemble_scoping (pr : PathResult) (sel : Bool)
    (hL : pr.path.length = pr.edges.length + 1) :
    (∀ (hj : 0 < (joinAssemble pr sel).joins.length),
      ((joinAssemble pr sel).joins.get ⟨0, hj⟩).from_alias =
        aliasOf (generate_aliases (joinAssemble pr sel).tables)
          ((joinAssemble pr sel).tables.headD "")) ∧
    (∀ i (hi : i + 1 < (joinAssemble pr sel).joins.length),
      ((joinAssemble pr sel).joins.get ⟨i + 1, hi⟩).from_alias =
        ((joinAssemble pr sel).joins.get
          ⟨i, Nat.lt_of_succ_lt hi⟩).to_alias) ∧
    (∀ j ∈ (joinAssemble pr sel).joins, ∀ c ∈ j.on_conditions,
      ∃ x y, c = j.to_alias ++ "." ++ x ++ " = " ++
        j.from_alias ++ "." ++ y) := by
  have hjoins : (joinAssemble pr sel).joins =
      (joinSteps pr.path pr.edges).map (fun q =>
        joinInfoOf (generate_aliases pr.path) q.1 q.2.1 q.2.2
          (onConditions (generate_aliases pr.path) q.1 q.2.1 q.2.2)) := rfl
  have htables : (joinAssemble pr sel).tables = pr.path := rfl
  refine ⟨?_, ?_, ?_⟩
  · intro hj
    obtain ⟨h1, h2, h3, hget⟩ := joinAssemble_join_get pr sel hL 0 hj
    rw [hget, htables]
    rw [headD_eq_get pr.path (by omega)]
    rfl
  · intro i hi
    obtain ⟨ha1, ha2, ha3, hgeta⟩ :=
      joinAssemble_join_get pr sel hL (i + 1) hi
    obtain ⟨hb1, hb2, hb3, hgetb⟩ :=
      joinAssemble_join_get pr sel hL i (Nat.lt_of_succ_lt hi)
    rw [hgeta, hgetb]
    rfl
  · intro j hj c hc
    rw [hjoins] at hj
    obtain ⟨q, hq, hqj⟩ := List.mem_map.mp hj
    rw [← hqj] at hc ⊢
    have hcm : c ∈ onConditions (generate_aliases pr.path) q.1 q.2.1
        q.2.2 := hc
    unfold onConditions at hcm
    obtain ⟨p, hp, hpc⟩ := List.mem_map.mp hcm
    rw [← hpc]
    unfold onCondition
    by_cases hrev : q.2.2.data.reverse = true
    · rw [if_pos hrev]
      exact ⟨p.1, p.2, rfl⟩
    · rw [if_neg hrev]
      exact ⟨p.2, p.1, rfl⟩

/-- Two tables, one carrying the letters `JOIN` inside its id, linked by
one fk edge. -/
def joinNameStore : Store :=
  { nodes := [plainTable "XJOINY", plainTable "B"]
    edges := [plainFk "e1" "XJOINY" "B" 1] }

/-- C6 counterexample: a successful `generate_join` over a path of two
tables whose first table id contains the letters `JOIN` produces SQL
with two occurrences of the keyword, not `k - 1 = 1`: the occurrence
inside the table name `XJOINY` in the FROM clause is counted too. -/
theorem C6_join_in_name_counterexample :
    (generate_join joinNameStore ["XJOINY", "B"] true).success = true ∧
    (generate_join joinNameStore ["XJOINY", "B"] true).tables.length = 2 ∧
    countJOIN
        (generate_join joinNameStore ["XJOINY", "B"] true).sql.data = 2 := by
  refine ⟨by decide, by decide, by decide⟩

/-- C6 (amended with the side condition exhibited by
`C6_join_in_name_counterexample`: no node id, edge endpoint id or edge
column name contains the capital letter `J`, so the keyword `JOIN` can
only come from the generator itself; lower-cased aliases and numeric
suffixes are proved `J`-free).  For every successful `generate_join`
whose resolved path holds `k` tables, the SQL text holds exactly
`k - 1` occurrences of `JOIN` (stated additively), and the aliases an
ON clause references resolve in scope: join `i`'s conditions mention
only its own `from_alias` and `to_alias`, its `to_alias` is the alias
its own JOIN clause introduces, its `from_alias` equals the previous
join's `to_alias`, and join 0's `from_alias` is the alias the FROM
clause introduces for the first path table.  The `Nodup` hypothesis is
the node-id primary-key invariant of the storage layer. -/
theorem C6_join_count_amended (store : Store) (tables : List String)
    (select_all : Bool)
    (hnd : (store.nodes.map Node.id).Nodup)
    (hnodes : ∀ n ∈ store.nodes, 'J' ∉ n.id.data)
    (hedges : ∀ e ∈ store.edges, 'J' ∉ e.from_id.data ∧
      'J' ∉ e.to_id.data ∧
      (∀ c ∈ e.data.from_columns, 'J' ∉ c.data) ∧
      (∀ c ∈ e.data.to_columns, 'J' ∉ c.data))
    (hsucc : (generate_join store tables select_all).success = true) :
    countJOIN (generate_join store tables select_all).sql.data + 1 =
      (generate_join store tables select_all).tables.length ∧
    (∀ (hj : 0 < (generate_join store tables select_all).joins.length),
      ((generate_join store tables select_all).joins.get
          ⟨0, hj⟩).from_alias =
        aliasOf
          (generate_aliases (generate_join store tables select_all).tables)
          ((generate_join store tables select_all).tables.headD "")) ∧
    (∀ i (hi : i + 1 <
        (generate_join store tables select_all).joins.length),
      ((generate_join store tables select_all).joins.get
          ⟨i + 1, hi⟩).from_alias =
        ((generate_join store tables select_all).joins.get
          ⟨i, Nat.lt_of_succ_lt hi⟩).to_alias) ∧
    (∀ j ∈ (generate_join store tables select_all).joins,
      ∀ c ∈ j.on_conditions,
      ∃ x y, c = j.to_alias ++ "." ++ x ++ " = " ++
        j.from_alias ++ "." ++ y) := by
  by_cases hlen : tables.length < 2
  · exfalso
    simp only [generate_join, if_pos hlen] at hsucc
    simp at hsucc
  cases hfound : (find_multi_path store tables).found with
  | false =>
      exfalso
      simp only [generate_join, if_neg hlen, hfound] at hsucc
      simp at hsucc
  | true =>
      have heq := generate_join_success_eq store tables select_all hlen
        hfound
      rw [heq]
      obtain ⟨x, z, ⟨orig, horig⟩, hl, _⟩ :=
        find_multi_path_spec store tables hnd hfound
      have hL : (find_multi_path store tables).path.length =
          (find_multi_path store tables).edges.length + 1 := hl.length_eq
      have hxJ : 'J' ∉ x.data := by
        obtain ⟨n, hn, hid⟩ := resolve_is_node_id horig
        rw [← hid]
        exact hnodes n hn
      have hpath := links_path_noJ
        (fun e he => ⟨(hedges e he).1, (hedges e he).2.1⟩) hl hxJ
      have hcols : ∀ e ∈ (find_multi_path store tables).edges,
          (∀ c ∈ e.data.from_columns, 'J' ∉ c.data) ∧
            (∀ c ∈ e.data.to_columns, 'J' ∉ c.data) := by
        intro e he
        obtain ⟨e0, he0, hfc, htc⟩ := links_edges_cols hl e he
        constructor
        · rw [hfc]
          exact (hedges e0 he0).2.2.1
        · rw [htc]
          exact (hedges e0 he0).2.2.2
      obtain ⟨s1, s2, s3⟩ := joinAssemble_scoping
        (find_multi_path store tables) select_all hL
      exact ⟨joinAssemble_count _ _ hL hpath hcols, s1, s2, s3⟩

/-- Concrete instance of the amended C6 on the Users/Orders store: one
JOIN keyword for the two-table path. -/
theorem C6_join_count_amended_witness :
    (generate_join usersOrdersStore ["Users", "Orders"] true).success =
      true ∧
    countJOIN
        (generate_join usersOrdersStore ["Users", "Orders"] true).sql.data +
        1 =
      (generate_join usersOrdersStore ["Users", "Orders"] true).tables.length
    := by
  have h := C6_join_count_amended usersOrdersStore ["Users", "Orders"] true
    (by decide) (by decide) (by decide) (by decide)
  exact ⟨by decide, h.1⟩

end DAO
